import Mathlib

/-!
# A verification development for `stow` (a symlink farm manager written in Go)

The planner (`internal/stow/plan.go`) and the executor
(`internal/stow/execute.go`) are embedded as Lean functions over an explicit
file-system state.

* Go strings are Lean strings, compared code point by code point (which is the
  order of their UTF-8 bytes).
* The functions of `path/filepath` are modelled for Unix on the elements of a
  path (the pieces between separators).
* The system calls used by the program (`lstat`, `stat`, `readlink`, `readdir`,
  `mkdir`, `symlink`) are modelled on a store of nodes, each addressed by its
  physical path; symbolic links are followed during path resolution, at most 40
  of them.
* `walkDir` is recursive on the directory tree; its embedding takes a bound on
  the depth of the recursion and returns `none` when the bound is reached.  A
  bound above the depth of the file system is never reached (`BuildPlan_isSome`),
  and a result does not depend on the bound that gave it (`BuildPlan_mono`).
* A Go function that returns `(value, error)` returns a pair here, the error
  being `none` for `nil`; a function that changes the file system returns the
  new file system as well.
-/

namespace Stow

/-! ## Go strings -/

/-- The order `a <= b` of Go strings. -/
def strLe (a b : String) : Prop := a.data ≤ b.data

/-- The strict order `a < b` of Go strings. -/
def strLt (a b : String) : Prop := a.data < b.data

instance strLe.decidable : DecidableRel strLe :=
  fun a b => inferInstanceAs (Decidable (a.data ≤ b.data))

instance strLt.decidable : DecidableRel strLt :=
  fun a b => inferInstanceAs (Decidable (a.data < b.data))

/-- The result of `sort.Strings`. -/
def sortStrings (l : List String) : List String := l.insertionSort strLe

/-! ## `path/filepath` on Unix -/

namespace filepath

/-- Cuts a string at every separator: `a/b` gives `[a, b]` and `/a` gives `["", a]`. -/
def splitSep : List Char → List (List Char)
  | [] => [[]]
  | c :: cs =>
    if c = '/' then [] :: splitSep cs
    else
      match splitSep cs with
      | [] => [[c]]
      | x :: xs => (c :: x) :: xs

/-- Glues elements together with one separator between neighbours. -/
def joinSep : List (List Char) → List Char
  | [] => []
  | [x] => x
  | x :: y :: rest => x ++ '/' :: joinSep (y :: rest)

/-- The path elements of a string. -/
def elements (s : String) : List String := (splitSep s.data).map String.mk

/-- The string made of the given elements, separated by `/`. -/
def unsplit (l : List String) : String := String.mk (joinSep (l.map String.data))

/-- `IsAbs`: the path begins with the separator. -/
def IsAbs (path : String) : Bool :=
  match path.data with
  | c :: _ => decide (c = '/')
  | [] => false

/-- One round of the loop of `Clean`: the element `c` is read and the output,
kept as the list of its elements with the last one first, is updated. -/
def cleanStep (rooted : Bool) (out : List String) (c : String) : List String :=
  if c = "" ∨ c = "." then out
  else if c = ".." then
    match out with
    | [] => if rooted then [] else [".."]
    | top :: rest => if top = ".." then ".." :: top :: rest else rest
  else c :: out

/-- The output elements of `Clean`, last one first. -/
def cleanElements (rooted : Bool) (l : List String) : List String :=
  l.foldl (cleanStep rooted) []

/-- `Clean`: the shortest path name equivalent to `path` by purely lexical processing. -/
def Clean (path : String) : String :=
  if path = "" then "."
  else if IsAbs path then
    String.mk ('/' :: (unsplit (cleanElements true (elements path)).reverse).data)
  else
    match cleanElements false (elements path) with
    | [] => "."
    | out => unsplit out.reverse

/-- `Join`: the first empty elements are dropped, the others are joined with
separators and the result is cleaned; `Join` of empty strings is empty. -/
def Join (elem : List String) : String :=
  match elem.dropWhile (fun e => decide (e = "")) with
  | [] => ""
  | es => Clean (unsplit es)

/-- `Dir`: all but the last element of the path, cleaned. -/
def Dir (path : String) : String :=
  Clean (unsplit ((elements path).dropLast ++ [""]))

end filepath

/-! ## Errors -/

deriving instance DecidableEq for Except

/-- The error numbers the system calls of the model return. -/
inductive Errno
  | ENOENT
  | ENOTDIR
  | ELOOP
  | EEXIST
  | EINVAL
  deriving DecidableEq, Repr

/-- A Go `error` value of the program: a message made by `errors.New`, an error
of a system call, a `PathError` or an `OpError`. -/
inductive Error
  | msg (text : String)
  | sys (errno : Errno)
  | PathError (Path : String) (Err : Error)
  | OpError (Target : String) (Err : Error)
  deriving DecidableEq, Repr

/-! ## The file system -/

/-- What a name of the file system denotes; a `FileInfo` and the type of a
`DirEntry` carry this. -/
inductive Kind
  | file (content : String)
  | dir
  | symlink (value : String)
  deriving DecidableEq, Repr

/-- `IsDir` of a `FileInfo` or `DirEntry`. -/
def Kind.IsDir : Kind → Bool
  | .dir => true
  | _ => false

/-- `Mode()&os.ModeSymlink != 0` of a `FileInfo`, `Type()&os.ModeSymlink != 0` of a `DirEntry`. -/
def Kind.IsSymlink : Kind → Bool
  | .symlink _ => true
  | _ => false

/-- A file system: the nodes, each under its physical path from the root (the
list of its names, the root being `[]` and always a directory), and the working
directory of the process, if it still exists.  Of two nodes stored under one
path only the first counts, and a node is reachable only through directories and
under a name a file can have.  Permissions and limits on the length of names
and on the number of nodes are not part of it: the resolution of a path fails
only with `ENOENT`, `ENOTDIR` or `ELOOP`. -/
structure FS where
  cwd : Option (List String)
  nodes : List (List String × Kind)
  deriving DecidableEq

/-- An entry returned by `os.ReadDir`. -/
structure DirEntry where
  Name : String
  Typ : Kind
  deriving DecidableEq, Repr

/-- A name a directory entry can have. -/
def validName (n : String) : Bool :=
  decide (n ≠ "" ∧ n ≠ "." ∧ n ≠ ".." ∧ '/' ∉ n.data)

/-- The first node stored under a key. -/
def lookupNode (p : List String) : List (List String × Kind) → Option Kind
  | [] => none
  | (k, v) :: rest => if k = p then some v else lookupNode p rest

/-- The node at a physical path. -/
def FS.kindAt (fs : FS) (p : List String) : Option Kind :=
  if p = [] then some Kind.dir else lookupNode p fs.nodes

/-- The name under which a stored key is an entry of the directory `d`, if it is one. -/
def childName (d : List String) (k : List String) : Option String :=
  match k.getLast? with
  | none => none
  | some n => if k.dropLast = d ∧ validName n = true then some n else none

/-- The entries of the directory at the physical path `d`. -/
def FS.entries (fs : FS) (d : List String) : List DirEntry :=
  ((fs.nodes.filterMap (fun kv => childName d kv.1)).dedup).filterMap
    (fun n => (fs.kindAt (d ++ [n])).map (DirEntry.mk n))

/-- The outcome of walking along the elements of a path from a directory. -/
inductive Walk
  | done (p : List String) (k : Kind)
  | link (cur : List String) (rest : List String)
  | fail (e : Errno)

/-- Walks along path elements from the directory `cur` up to the first
symbolic link that has to be followed (`link`, with the elements still to
walk), an error, or the end.  The last element is followed only when `follow`
is set. -/
def FS.walk (fs : FS) (follow : Bool) : List String → List String → Walk
  | cur, [] => Walk.done cur Kind.dir
  | cur, c :: rest =>
    if c = "" ∨ c = "." then fs.walk follow cur rest
    else if c = ".." then fs.walk follow cur.dropLast rest
    else
      match fs.kindAt (cur ++ [c]) with
      | none => Walk.fail Errno.ENOENT
      | some Kind.dir => fs.walk follow (cur ++ [c]) rest
      | some (Kind.file s) =>
        if rest = [] then Walk.done (cur ++ [c]) (Kind.file s) else Walk.fail Errno.ENOTDIR
      | some (Kind.symlink v) =>
        if rest = [] ∧ follow = false then Walk.done (cur ++ [c]) (Kind.symlink v)
        else if filepath.IsAbs v then Walk.link [] (filepath.elements v ++ rest)
        else Walk.link cur (filepath.elements v ++ rest)

/-- Path resolution from a directory: at most `budget - 1` symbolic links are
followed, one more gives `ELOOP`. -/
def FS.resolveFrom (fs : FS) (follow : Bool) : Nat → List String → List String →
    Except Errno (List String × Kind)
  | 0, _, _ => Except.error Errno.ELOOP
  | budget + 1, cur, l =>
    match fs.walk follow cur l with
    | Walk.done p k => Except.ok (p, k)
    | Walk.fail e => Except.error e
    | Walk.link cur1 l1 => fs.resolveFrom follow budget cur1 l1

/-- The number of symbolic links followed in one path resolution is at most 40. -/
def maxSymlinks : Nat := 40

/-- Every name along a physical path denotes a directory. -/
def FS.isDirPath (fs : FS) (d : List String) : Bool :=
  (d.inits.tail).all (fun p => decide (fs.kindAt p = some Kind.dir))

/-- Path resolution of the elements of a path, from the root when `abs` is set
and from the working directory otherwise. -/
def FS.resolveElems (fs : FS) (follow : Bool) (abs : Bool) (l : List String) :
    Except Errno (List String × Kind) :=
  if abs then fs.resolveFrom follow (maxSymlinks + 1) [] l
  else
    match fs.cwd with
    | none => Except.error Errno.ENOENT
    | some d =>
      if fs.isDirPath d then fs.resolveFrom follow (maxSymlinks + 1) d l
      else Except.error Errno.ENOENT

/-- Path resolution of a path name: the physical path and the node it denotes. -/
def FS.resolve (fs : FS) (follow : Bool) (path : String) :
    Except Errno (List String × Kind) :=
  if path = "" then Except.error Errno.ENOENT
  else fs.resolveElems follow (filepath.IsAbs path) (filepath.elements path)

/-- Where a new node for a path is to be created: the physical path of the
directory that is to hold it and its name there.  The path up to its last
element must denote a directory, and the last element must be a name (not
empty, as after a final separator, and not `.` or `..`) that is not yet used in
that directory. -/
def FS.resolveNew (fs : FS) (path : String) : Except Errno (List String × String) :=
  if path = "" then Except.error Errno.ENOENT
  else
    match (filepath.elements path).reverse with
    | [] => Except.error Errno.ENOENT
    | name :: parent =>
      match fs.resolveElems true (filepath.IsAbs path) parent.reverse with
      | Except.error e => Except.error e
      | Except.ok (p, Kind.dir) =>
        if name = "" then Except.error Errno.ENOENT
        else if name = "." ∨ name = ".." then Except.error Errno.EEXIST
        else
          match fs.kindAt (p ++ [name]) with
          | some _ => Except.error Errno.EEXIST
          | none => Except.ok (p, name)
      | Except.ok _ => Except.error Errno.ENOTDIR

/-- The file system with one more node. -/
def FS.insert (fs : FS) (p : List String) (k : Kind) : FS :=
  { fs with nodes := (p, k) :: fs.nodes }

namespace os

/-- `os.Getwd`. -/
def Getwd (fs : FS) : Except Errno String :=
  match fs.cwd with
  | none => Except.error Errno.ENOENT
  | some d =>
    if fs.isDirPath d then Except.ok (String.mk ('/' :: (filepath.unsplit d).data))
    else Except.error Errno.ENOENT

/-- `os.Lstat`: the node a path denotes, a final symbolic link not followed. -/
def Lstat (fs : FS) (path : String) : Except Errno Kind :=
  match fs.resolve false path with
  | Except.ok (_, k) => Except.ok k
  | Except.error e => Except.error e

/-- `os.Stat`: the node a path denotes, symbolic links followed. -/
def Stat (fs : FS) (path : String) : Except Errno Kind :=
  match fs.resolve true path with
  | Except.ok (_, k) => Except.ok k
  | Except.error e => Except.error e

/-- `os.Readlink`: the value of the symbolic link at a path. -/
def Readlink (fs : FS) (path : String) : Except Errno String :=
  match fs.resolve false path with
  | Except.ok (_, Kind.symlink v) => Except.ok v
  | Except.ok _ => Except.error Errno.EINVAL
  | Except.error e => Except.error e

/-- `os.ReadDir`: the entries of the directory at a path. -/
def ReadDir (fs : FS) (path : String) : Except Errno (List DirEntry) :=
  match fs.resolve true path with
  | Except.ok (p, Kind.dir) => Except.ok (fs.entries p)
  | Except.ok _ => Except.error Errno.ENOTDIR
  | Except.error e => Except.error e

/-- `os.IsNotExist`. -/
def IsNotExist (e : Errno) : Bool := decide (e = Errno.ENOENT)

/-- `os.Mkdir`: a new, empty directory. -/
def Mkdir (fs : FS) (path : String) : Except Errno FS :=
  match fs.resolveNew path with
  | Except.error e => Except.error e
  | Except.ok (p, name) => Except.ok (fs.insert (p ++ [name]) Kind.dir)

/-- `os.Symlink`: a new symbolic link at `newname` whose value is `oldname`. -/
def Symlink (fs : FS) (oldname newname : String) : Except Errno FS :=
  match fs.resolveNew newname with
  | Except.error e => Except.error e
  | Except.ok (p, name) => Except.ok (fs.insert (p ++ [name]) (Kind.symlink oldname))

/-- The recursion of `os.MkdirAll` on the elements of the path, last one first:
a path that denotes a directory is left alone, otherwise its parent (the path
without its last element, unless that is empty) is treated first and the
directory is then made with `Mkdir`.  The file system is returned with what was
made, also when an error stops the recursion. -/
def mkdirAllRev (fs : FS) : List String → FS × Option Errno
  | [] => (fs, none)
  | c :: rest =>
    match Stat fs (filepath.unsplit (c :: rest).reverse) with
    | Except.ok k => if k.IsDir then (fs, none) else (fs, some Errno.ENOTDIR)
    | Except.error _ =>
      match (if filepath.unsplit rest.reverse = "" then (fs, none) else mkdirAllRev fs rest) with
      | (fs1, some e) => (fs1, some e)
      | (fs1, none) =>
        match Mkdir fs1 (filepath.unsplit (c :: rest).reverse) with
        | Except.ok fs2 => (fs2, none)
        | Except.error e =>
          match Lstat fs1 (filepath.unsplit (c :: rest).reverse) with
          | Except.ok k => if k.IsDir then (fs1, none) else (fs1, some e)
          | Except.error _ => (fs1, some e)

/-- `os.MkdirAll`: the directory at a path, with the parents that are missing. -/
def MkdirAll (fs : FS) (path : String) : FS × Option Errno :=
  mkdirAllRev fs (filepath.elements path).reverse

end os

/-- `filepath.Abs`: a relative path is joined onto the working directory. -/
def filepath.Abs (fs : FS) (path : String) : Except Errno String :=
  if filepath.IsAbs path then Except.ok (filepath.Clean path)
  else
    match os.Getwd fs with
    | Except.error e => Except.error e
    | Except.ok wd => Except.ok (filepath.Join [wd, path])

/-! ## `internal/stow/plan.go` -/

/-- A planned link from `Source` to `Target`. -/
structure Operation where
  Source : String
  Target : String
  deriving DecidableEq, Repr

/-- A target path that cannot be linked. -/
structure Conflict where
  Target : String
  Reason : String
  deriving DecidableEq, Repr

/-- The planned operations and the conflicts found. -/
structure PlanResult where
  Operations : List Operation
  Conflicts : List Conflict
  deriving DecidableEq, Repr

/-- The state of one planning pass; `seenTargets` is the set of keys of the Go map. -/
structure planState where
  result : PlanResult
  seenTargets : List String
  deriving DecidableEq, Repr

/-- The inputs of planning. -/
structure Options where
  Dir : String
  Target : String
  Packages : List String
  deriving DecidableEq, Repr

/-- `DefaultTarget`. -/
def DefaultTarget (fs : FS) (dir : String) : String × Option Error :=
  if dir = "" then ("", some (Error.msg "dir is required"))
  else
    match filepath.Abs fs dir with
    | Except.error e => ("", some (Error.sys e))
    | Except.ok absDir => (filepath.Dir absDir, none)

/-- `isSymlink`. -/
def isSymlink (entry : DirEntry) : Bool := entry.Typ.IsSymlink

/-- `symlinkMatches`. -/
def symlinkMatches (fs : FS) (targetPath sourcePath : String) : Bool × Option Error :=
  match os.Readlink fs targetPath with
  | Except.error e => (false, some (Error.sys e))
  | Except.ok linkTarget0 =>
    let linkTarget :=
      if !filepath.IsAbs linkTarget0 then filepath.Join [filepath.Dir targetPath, linkTarget0]
      else linkTarget0
    match filepath.Abs fs linkTarget with
    | Except.error e => (false, some (Error.sys e))
    | Except.ok absLinkTarget =>
      match filepath.Abs fs sourcePath with
      | Except.error e => (false, some (Error.sys e))
      | Except.ok absSource =>
        (decide (filepath.Clean absLinkTarget = filepath.Clean absSource), none)

/-- `detectConflict`: the results `conflict`, `reason`, `noOp` and `err`. -/
def detectConflict (fs : FS) (targetPath sourcePath : String) :
    Bool × String × Bool × Option Error :=
  match os.Lstat fs targetPath with
  | Except.error e =>
    if os.IsNotExist e then (false, "", false, none)
    else (false, "", false, some (Error.PathError targetPath (Error.sys e)))
  | Except.ok info =>
    if info.IsSymlink then
      match symlinkMatches fs targetPath sourcePath with
      | (_, some err) => (false, "", false, some (Error.PathError targetPath err))
      | (matched, none) =>
        if matched then (false, "", true, none)
        else (true, "symlink points elsewhere", false, none)
    else (true, "target already exists", false, none)

/-- `handleLeaf`: the state after the call, and the error returned. -/
def handleLeaf (fs : FS) (sourcePath relPath targetRoot : String) (state : planState) :
    planState × Option Error :=
  let targetPath := filepath.Join [targetRoot, relPath]
  if targetPath ∈ state.seenTargets then
    ({ state with result := { state.result with
        Conflicts := state.result.Conflicts ++ [⟨targetPath, "duplicate target planned"⟩] } },
      none)
  else
    let state1 : planState := { state with seenTargets := targetPath :: state.seenTargets }
    match detectConflict fs targetPath sourcePath with
    | (_, _, _, some err) => (state1, some err)
    | (conflict, conflictReason, isNoOp, none) =>
      if isNoOp then (state1, none)
      else if conflict then
        ({ state1 with result := { state1.result with
            Conflicts := state1.result.Conflicts ++ [⟨targetPath, conflictReason⟩] } }, none)
      else
        ({ state1 with result := { state1.result with
            Operations := state1.result.Operations ++ [⟨sourcePath, targetPath⟩] } }, none)

/-- The result of `sort.Slice` on directory entries, by name. -/
def sortEntries (l : List DirEntry) : List DirEntry :=
  l.insertionSort (fun a b => strLe a.Name b.Name)

/-- The loop of `walkDir` over the sorted entries of `root`; `descend` is the
recursive call of `walkDir`, which gives no result when the recursion is cut. -/
def walkEntries (fs : FS) (descend : String → String → planState → Option (planState × Option Error))
    (root rel targetRoot : String) : List DirEntry → planState → Option (planState × Option Error)
  | [], state => some (state, none)
  | entry :: rest, state =>
    if isSymlink entry then
      match handleLeaf fs (filepath.Join [root, entry.Name]) (filepath.Join [rel, entry.Name])
          targetRoot state with
      | (state1, some err) => some (state1, some err)
      | (state1, none) => walkEntries fs descend root rel targetRoot rest state1
    else if entry.Typ.IsDir then
      match descend (filepath.Join [root, entry.Name]) (filepath.Join [rel, entry.Name]) state with
      | none => none
      | some (state1, some err) => some (state1, some err)
      | some (state1, none) => walkEntries fs descend root rel targetRoot rest state1
    else
      match handleLeaf fs (filepath.Join [root, entry.Name]) (filepath.Join [rel, entry.Name])
          targetRoot state with
      | (state1, some err) => some (state1, some err)
      | (state1, none) => walkEntries fs descend root rel targetRoot rest state1

/-- `walkDir`: the state after the call and the error returned.  The first
argument bounds the depth of the recursion; `none` means the bound was reached. -/
def walkDir (fs : FS) : Nat → String → String → String → planState →
    Option (planState × Option Error)
  | 0, _, _, _, _ => none
  | fuel + 1, root, rel, targetRoot, state =>
    match os.ReadDir fs root with
    | Except.error e => some (state, some (Error.PathError root (Error.sys e)))
    | Except.ok entries =>
      walkEntries fs (fun fullPath relPath st => walkDir fs fuel fullPath relPath targetRoot st)
        root rel targetRoot (sortEntries entries) state

/-- `walkPackage`. -/
def walkPackage (fs : FS) (fuel : Nat) (pkgPath targetRoot : String) (state : planState) :
    Option (planState × Option Error) :=
  walkDir fs fuel pkgPath "" targetRoot state

/-- The loop of `BuildPlan` over the sorted package names. -/
def planPackages (fs : FS) (fuel : Nat) (absDir absTarget : String) :
    List String → planState → Option (PlanResult × Option Error)
  | [], state => some (state.result, none)
  | pkg :: rest, state =>
    match os.Stat fs (filepath.Join [absDir, pkg]) with
    | Except.error e =>
      some (⟨[], []⟩, some (Error.PathError (filepath.Join [absDir, pkg]) (Error.sys e)))
    | Except.ok pkgInfo =>
      if !pkgInfo.IsDir then
        some (⟨[], []⟩, some (Error.PathError (filepath.Join [absDir, pkg])
          (Error.msg "package is not a directory")))
      else
        match walkPackage fs fuel (filepath.Join [absDir, pkg]) absTarget state with
        | none => none
        | some (_, some err) => some (⟨[], []⟩, some err)
        | some (state1, none) => planPackages fs fuel absDir absTarget rest state1

/-- `BuildPlan`: the plan and the error returned; `fuel` bounds the depth of
the directory recursion and `none` means the bound was reached. -/
def BuildPlan (fs : FS) (fuel : Nat) (opts : Options) : Option (PlanResult × Option Error) :=
  if opts.Packages.length = 0 then
    some (⟨[], []⟩, some (Error.msg "at least one package is required"))
  else
    match filepath.Abs fs opts.Dir with
    | Except.error e => some (⟨[], []⟩, some (Error.PathError opts.Dir (Error.sys e)))
    | Except.ok absDir =>
      match os.Stat fs absDir with
      | Except.error e => some (⟨[], []⟩, some (Error.PathError absDir (Error.sys e)))
      | Except.ok info =>
        if !info.IsDir then
          some (⟨[], []⟩, some (Error.PathError absDir (Error.msg "dir is not a directory")))
        else
          match filepath.Abs fs opts.Target with
          | Except.error e => some (⟨[], []⟩, some (Error.PathError opts.Target (Error.sys e)))
          | Except.ok absTarget =>
            planPackages fs fuel absDir absTarget (sortStrings opts.Packages) ⟨⟨[], []⟩, []⟩

/-! ## `internal/stow/execute.go` -/

/-- The options of `Execute`. -/
structure ExecuteOptions where
  DryRun : Bool
  deriving DecidableEq, Repr

/-- The loop of `Execute` over the operations: the file system afterwards and
the error returned. -/
def executeOps : FS → List Operation → FS × Option Error
  | fs, [] => (fs, none)
  | fs, op :: rest =>
    match os.MkdirAll fs (filepath.Dir op.Target) with
    | (fs1, some e) => (fs1, some (Error.OpError op.Target (Error.sys e)))
    | (fs1, none) =>
      match os.Symlink fs1 op.Source op.Target with
      | Except.error e => (fs1, some (Error.OpError op.Target (Error.sys e)))
      | Except.ok fs2 => executeOps fs2 rest

/-- `Execute`: the file system afterwards and the error returned. -/
def Execute (fs : FS) (plan : PlanResult) (opts : ExecuteOptions) : FS × Option Error :=
  if opts.DryRun then (fs, none)
  else executeOps fs plan.Operations

/-! ## Predicates on paths -/

/-- An element without a separator in it. -/
def filepath.NoSep (x : String) : Prop := '/' ∉ x.data

/-- An element that `Clean` copies to its output: not empty, not `.` and not `..`. -/
def filepath.Real (x : String) : Prop := x ≠ "" ∧ x ≠ "." ∧ x ≠ ".."

/-- The outputs of the loop of `Clean` (last element first): real elements,
above `..` elements when the path is not rooted. -/
def filepath.Normal (rooted : Bool) : List String → Prop
  | [] => True
  | top :: rest =>
    filepath.Normal rooted rest ∧
      (filepath.Real top ∨ (top = ".." ∧ rooted = false ∧ ∀ x ∈ rest, x = ".."))

/-- The string `Clean` returns for the output elements `out` (last one first). -/
def filepath.render (rooted : Bool) (out : List String) : String :=
  if rooted then String.mk ('/' :: (filepath.unsplit out.reverse).data)
  else
    match out with
    | [] => "."
    | _ :: _ => filepath.unsplit out.reverse

/-- The path reached from `root` through the given names, as `walkDir` builds it. -/
def joinNames (root : String) (names : List String) : String :=
  names.foldl (fun acc n => filepath.Join [acc, n]) root

/-! ## Predicates on plans -/

/-- The targets recorded in a state are claimed, no two operations share a
target, no two conflicts found at a target (the ones that are not duplicates)
share a target, and a conflict at the target of an operation is a duplicate. -/
def planState.TargetsDistinct (s : planState) : Prop :=
  (s.result.Operations.map Operation.Target).Nodup ∧
  (∀ op ∈ s.result.Operations, op.Target ∈ s.seenTargets) ∧
  ((s.result.Conflicts.filter
      (fun c => decide (c.Reason ≠ "duplicate target planned"))).map Conflict.Target).Nodup ∧
  (∀ c ∈ s.result.Conflicts, c.Target ∈ s.seenTargets) ∧
  (∀ op ∈ s.result.Operations, ∀ c ∈ s.result.Conflicts,
    c.Target = op.Target → c.Reason = "duplicate target planned")

/-- The path `source` is a leaf of one of the packages `pkgs` of the stow
directory `absDir`, at the relative path `rel`: `rel` is made of names of
directory entries, `source` is `absDir` joined with the package and `rel`, and
it denotes a file or a symbolic link, not a directory. -/
def IsLeafPath (fs : FS) (absDir : String) (pkgs : List String) (source rel : String) : Prop :=
  ∃ p ∈ pkgs, ∃ names : List String, names ≠ [] ∧ (∀ n ∈ names, validName n = true) ∧
    rel = filepath.unsplit names ∧ source = filepath.Join [absDir, p, rel] ∧
    ∃ k, os.Lstat fs source = Except.ok k ∧ k.IsDir = false

/-- The operation for the leaf of the package `pkg` whose relative path has the
elements `names`. -/
def leafOp (absDir absTarget pkg : String) (names : List String) : Operation :=
  ⟨filepath.Join [absDir, pkg, filepath.unsplit names],
   filepath.Join [absTarget, filepath.unsplit names]⟩

/-- The operations of a plan made of one segment for each package: the leaves
of the first segment belong to the first package, and so on. -/
def segmentOps (absDir absTarget : String) : List String → List (List (List String)) →
    List Operation
  | pkg :: pkgs, seg :: segs =>
    seg.map (leafOp absDir absTarget pkg) ++ segmentOps absDir absTarget pkgs segs
  | _, _ => []

/-! ## Predicates on file systems -/

/-- The length of the longest physical path of a node. -/
def FS.depth (fs : FS) : Nat := (fs.nodes.map (fun kv => kv.1.length)).foldr max 0

/-- The file system `fs'` is `fs` with new nodes, each at a physical path
where `fs` had none; the working directory is the same. -/
def FS.Grows (fs fs' : FS) : Prop :=
  fs'.cwd = fs.cwd ∧
    ∃ new : List (List String × Kind), fs'.nodes = new ++ fs.nodes ∧
      ∀ kv ∈ new, lookupNode kv.1 fs.nodes = none

/-- The physical paths of the directories of the requested packages. -/
def packageDirs (fs : FS) (opts : Options) : List (List String) :=
  match filepath.Abs fs opts.Dir with
  | Except.error _ => []
  | Except.ok absDir =>
    opts.Packages.filterMap (fun pkg =>
      match fs.resolve true (filepath.Join [absDir, pkg]) with
      | Except.ok (d, _) => some d
      | Except.error _ => none)

/-- No node of `fs'` that `fs` does not have lies inside one of the directories `dirs`. -/
def FS.NoNewNodeIn (fs fs' : FS) (dirs : List (List String)) : Prop :=
  ∀ kv ∈ fs'.nodes, kv ∉ fs.nodes → ∀ d ∈ dirs, ¬ d <+: kv.1

instance FS.NoNewNodeIn.decidable (fs fs' : FS) (dirs : List (List String)) :
    Decidable (fs.NoNewNodeIn fs' dirs) :=
  inferInstanceAs (Decidable (∀ kv ∈ fs'.nodes, kv ∉ fs.nodes → ∀ d ∈ dirs, ¬ d <+: kv.1))

/-! ## Example file systems -/

/-- A stow directory `/s` with the package `pkg` holding `alpha.txt`, and a
target `/t` that holds a plain file, a link to `alpha.txt`, a relative link to
`alpha.txt` and a link to some other place. -/
def fsClassify : FS :=
  ⟨some [],
   [(["s"], Kind.dir), (["s", "pkg"], Kind.dir), (["s", "pkg", "alpha.txt"], Kind.file "data"),
    (["t"], Kind.dir), (["t", "plain"], Kind.file "old"),
    (["t", "good"], Kind.symlink "/s/pkg/alpha.txt"),
    (["t", "near"], Kind.symlink "../s/pkg/alpha.txt"),
    (["t", "bad"], Kind.symlink "/elsewhere")]⟩

/-- The packages `a` and `b` of the stow directory `/s` both hold `alpha.txt`;
the target `/t` is empty. -/
def fsDup : FS :=
  ⟨some [],
   [(["s"], Kind.dir), (["s", "a"], Kind.dir), (["s", "b"], Kind.dir),
    (["s", "a", "alpha.txt"], Kind.file "data"), (["s", "b", "alpha.txt"], Kind.file "data"),
    (["t"], Kind.dir)]⟩

/-- As `fsDup`, but the target already holds a plain file `alpha.txt`. -/
def fsDupTaken : FS :=
  ⟨some [],
   [(["s"], Kind.dir), (["s", "a"], Kind.dir), (["s", "b"], Kind.dir),
    (["s", "a", "alpha.txt"], Kind.file "data"), (["s", "b", "alpha.txt"], Kind.file "data"),
    (["t"], Kind.dir), (["t", "alpha.txt"], Kind.file "old")]⟩

/-- The packages `pkg-a` (with `alpha.txt`, `dir/bravo.txt` and `zeta.txt`) and
`pkg-b` (with `echo.txt`) of the stow directory `/s`; the target `/tmp/target`
does not exist. -/
def fsMapping : FS :=
  ⟨some [],
   [(["s"], Kind.dir), (["s", "pkg-a"], Kind.dir), (["s", "pkg-b"], Kind.dir),
    (["s", "pkg-a", "alpha.txt"], Kind.file "data"), (["s", "pkg-a", "dir"], Kind.dir),
    (["s", "pkg-a", "dir", "bravo.txt"], Kind.file "data"),
    (["s", "pkg-a", "zeta.txt"], Kind.file "data"),
    (["s", "pkg-b", "echo.txt"], Kind.file "data"), (["tmp"], Kind.dir)]⟩

/-- The file system `fsMapping` after the execution of the plan for its two
packages and the target `/tmp/target`. -/
def fsMappingAfter : FS :=
  ⟨some [],
   [(["tmp", "target", "echo.txt"], Kind.symlink "/s/pkg-b/echo.txt"),
    (["tmp", "target", "zeta.txt"], Kind.symlink "/s/pkg-a/zeta.txt"),
    (["tmp", "target", "dir", "bravo.txt"], Kind.symlink "/s/pkg-a/dir/bravo.txt"),
    (["tmp", "target", "dir"], Kind.dir),
    (["tmp", "target", "alpha.txt"], Kind.symlink "/s/pkg-a/alpha.txt"),
    (["tmp", "target"], Kind.dir),
    (["s"], Kind.dir), (["s", "pkg-a"], Kind.dir), (["s", "pkg-b"], Kind.dir),
    (["s", "pkg-a", "alpha.txt"], Kind.file "data"), (["s", "pkg-a", "dir"], Kind.dir),
    (["s", "pkg-a", "dir", "bravo.txt"], Kind.file "data"),
    (["s", "pkg-a", "zeta.txt"], Kind.file "data"),
    (["s", "pkg-b", "echo.txt"], Kind.file "data"), (["tmp"], Kind.dir)]⟩

/-- The package `p` of the stow directory `/s` holds the directory `d` with the
file `f`, and the symbolic link `link` to the directory `/data`, which holds
the file `inner`; the target `/t` is empty. -/
def fsLinkDir : FS :=
  ⟨some [],
   [(["s"], Kind.dir), (["s", "p"], Kind.dir), (["s", "p", "d"], Kind.dir),
    (["s", "p", "d", "f"], Kind.file "data"), (["s", "p", "link"], Kind.symlink "/data"),
    (["data"], Kind.dir), (["data", "inner"], Kind.file "data"), (["t"], Kind.dir)]⟩

/-- The package `p` of the stow directory `/s` holds the directory `a` with the
file `x`, and the file `a-b`; the target `/t` is empty. -/
def fsOrder : FS :=
  ⟨some [],
   [(["s"], Kind.dir), (["s", "p"], Kind.dir), (["s", "p", "a"], Kind.dir),
    (["s", "p", "a", "x"], Kind.file "data"), (["s", "p", "a-b"], Kind.file "data"),
    (["t"], Kind.dir)]⟩

/-- The package `p` of the stow directory `/s` holds the file `f`; the target
`/s/p/t`, inside the package, does not exist. -/
def fsInside : FS :=
  ⟨some [], [(["s"], Kind.dir), (["s", "p"], Kind.dir), (["s", "p", "f"], Kind.file "data")]⟩

/-- The file system `fsInside` after the execution of the plan for the target `/s/p/t`. -/
def fsInsideAfter : FS :=
  ⟨some [],
   [(["s", "p", "t", "f"], Kind.symlink "/s/p/f"), (["s", "p", "t"], Kind.dir),
    (["s"], Kind.dir), (["s", "p"], Kind.dir), (["s", "p", "f"], Kind.file "data")]⟩

/-- The package `pkg` of the stow directory `/s` holds `nested/alpha.txt`; the
target `/t` is empty. -/
def fsNested : FS :=
  ⟨some [],
   [(["s"], Kind.dir), (["s", "pkg"], Kind.dir), (["s", "pkg", "nested"], Kind.dir),
    (["s", "pkg", "nested", "alpha.txt"], Kind.file "data"), (["t"], Kind.dir)]⟩

/-- The file system `fsNested` after the execution of the plan for the target `/t`. -/
def fsNestedAfter : FS :=
  ⟨some [],
   [(["t", "nested", "alpha.txt"], Kind.symlink "/s/pkg/nested/alpha.txt"),
    (["t", "nested"], Kind.dir),
    (["s"], Kind.dir), (["s", "pkg"], Kind.dir), (["s", "pkg", "nested"], Kind.dir),
    (["s", "pkg", "nested", "alpha.txt"], Kind.file "data"), (["t"], Kind.dir)]⟩

/-- The package `pkg` of the stow directory `/s` holds `alpha.txt`, `beta.txt`
and `gamma.txt`; the target `/t` holds a plain file `alpha.txt` and a symbolic
link `beta.txt` to some other place. -/
def fsConflict : FS :=
  ⟨some [],
   [(["s"], Kind.dir), (["s", "pkg"], Kind.dir), (["s", "pkg", "alpha.txt"], Kind.file "data"),
    (["s", "pkg", "beta.txt"], Kind.file "data"), (["s", "pkg", "gamma.txt"], Kind.file "data"),
    (["t"], Kind.dir), (["t", "alpha.txt"], Kind.file "old"),
    (["t", "beta.txt"], Kind.symlink "/elsewhere")]⟩

/-! ## Predicates on errors -/

/-- The error is a `PathError` or an `OpError` whose path is absolute. -/
def Error.HasAbsPath : Error → Bool
  | Error.PathError p _ => filepath.IsAbs p
  | Error.OpError t _ => filepath.IsAbs t
  | _ => false

/-- A file system whose working directory has been removed. -/
def fsNoCwd : FS := ⟨none, [(["s"], Kind.dir), (["s", "pkg"], Kind.dir)]⟩

/-! ## The system calls of planning -/

/-- A call of the operating system made through the package `os`. -/
inductive Syscall
  | getwd
  | stat (name : String)
  | lstat (name : String)
  | readlink (name : String)
  | readdir (name : String)
  | mkdir (name : String)
  | symlink (oldname newname : String)
  deriving DecidableEq, Repr

/-- The call only reads the file system. -/
def Syscall.IsRead : Syscall → Bool
  | Syscall.mkdir _ => false
  | Syscall.symlink _ _ => false
  | _ => true

/-- The file system after a call: `Mkdir` and `Symlink` add a node when they
succeed, the other calls leave the file system as it is. -/
def Syscall.effect (fs : FS) : Syscall → FS
  | Syscall.mkdir name =>
    match os.Mkdir fs name with
    | Except.ok fs1 => fs1
    | Except.error _ => fs
  | Syscall.symlink oldname newname =>
    match os.Symlink fs oldname newname with
    | Except.ok fs1 => fs1
    | Except.error _ => fs
  | _ => fs

namespace traced

/-- `filepath.Abs`, with the system calls it makes. -/
def Abs (fs : FS) (path : String) : Except Errno String × List Syscall :=
  if filepath.IsAbs path then (Except.ok (filepath.Clean path), [])
  else
    match os.Getwd fs with
    | Except.error e => (Except.error e, [Syscall.getwd])
    | Except.ok wd => (Except.ok (filepath.Join [wd, path]), [Syscall.getwd])

/-- `symlinkMatches`, with the system calls it makes. -/
def symlinkMatches (fs : FS) (targetPath sourcePath : String) :
    (Bool × Option Error) × List Syscall :=
  match os.Readlink fs targetPath with
  | Except.error e => ((false, some (Error.sys e)), [Syscall.readlink targetPath])
  | Except.ok linkTarget0 =>
    let linkTarget :=
      if !filepath.IsAbs linkTarget0 then filepath.Join [filepath.Dir targetPath, linkTarget0]
      else linkTarget0
    match Abs fs linkTarget with
    | (Except.error e, t1) =>
      ((false, some (Error.sys e)), Syscall.readlink targetPath :: t1)
    | (Except.ok absLinkTarget, t1) =>
      match Abs fs sourcePath with
      | (Except.error e, t2) =>
        ((false, some (Error.sys e)), Syscall.readlink targetPath :: (t1 ++ t2))
      | (Except.ok absSource, t2) =>
        ((decide (filepath.Clean absLinkTarget = filepath.Clean absSource), none),
          Syscall.readlink targetPath :: (t1 ++ t2))

/-- `detectConflict`, with the system calls it makes. -/
def detectConflict (fs : FS) (targetPath sourcePath : String) :
    (Bool × String × Bool × Option Error) × List Syscall :=
  match os.Lstat fs targetPath with
  | Except.error e =>
    if os.IsNotExist e then ((false, "", false, none), [Syscall.lstat targetPath])
    else ((false, "", false, some (Error.PathError targetPath (Error.sys e))),
      [Syscall.lstat targetPath])
  | Except.ok info =>
    if info.IsSymlink then
      match symlinkMatches fs targetPath sourcePath with
      | ((_, some err), t) =>
        ((false, "", false, some (Error.PathError targetPath err)), Syscall.lstat targetPath :: t)
      | ((matched, none), t) =>
        if matched then ((false, "", true, none), Syscall.lstat targetPath :: t)
        else ((true, "symlink points elsewhere", false, none), Syscall.lstat targetPath :: t)
    else ((true, "target already exists", false, none), [Syscall.lstat targetPath])

/-- `handleLeaf`, with the system calls it makes. -/
def handleLeaf (fs : FS) (sourcePath relPath targetRoot : String) (state : planState) :
    (planState × Option Error) × List Syscall :=
  let targetPath := filepath.Join [targetRoot, relPath]
  if targetPath ∈ state.seenTargets then
    (({ state with result := { state.result with
        Conflicts := state.result.Conflicts ++ [⟨targetPath, "duplicate target planned"⟩] } },
      none), [])
  else
    let state1 : planState := { state with seenTargets := targetPath :: state.seenTargets }
    match detectConflict fs targetPath sourcePath with
    | ((_, _, _, some err), t) => ((state1, some err), t)
    | ((conflict, conflictReason, isNoOp, none), t) =>
      if isNoOp then ((state1, none), t)
      else if conflict then
        (({ state1 with result := { state1.result with
            Conflicts := state1.result.Conflicts ++ [⟨targetPath, conflictReason⟩] } }, none), t)
      else
        (({ state1 with result := { state1.result with
            Operations := state1.result.Operations ++ [⟨sourcePath, targetPath⟩] } }, none), t)

/-- The loop of `walkDir`, with the system calls made; `t` holds the calls
made before the entries that are left. -/
def walkEntries (fs : FS)
    (descend : String → String → planState → Option ((planState × Option Error) × List Syscall))
    (root rel targetRoot : String) :
    List DirEntry → planState → List Syscall →
      Option ((planState × Option Error) × List Syscall)
  | [], state, t => some ((state, none), t)
  | entry :: rest, state, t =>
    if isSymlink entry then
      match handleLeaf fs (filepath.Join [root, entry.Name]) (filepath.Join [rel, entry.Name])
          targetRoot state with
      | ((state1, some err), t1) => some ((state1, some err), t ++ t1)
      | ((state1, none), t1) => walkEntries fs descend root rel targetRoot rest state1 (t ++ t1)
    else if entry.Typ.IsDir then
      match descend (filepath.Join [root, entry.Name]) (filepath.Join [rel, entry.Name]) state with
      | none => none
      | some ((state1, some err), t1) => some ((state1, some err), t ++ t1)
      | some ((state1, none), t1) =>
        walkEntries fs descend root rel targetRoot rest state1 (t ++ t1)
    else
      match handleLeaf fs (filepath.Join [root, entry.Name]) (filepath.Join [rel, entry.Name])
          targetRoot state with
      | ((state1, some err), t1) => some ((state1, some err), t ++ t1)
      | ((state1, none), t1) => walkEntries fs descend root rel targetRoot rest state1 (t ++ t1)

/-- `walkDir`, with the system calls it makes. -/
def walkDir (fs : FS) : Nat → String → String → String → planState →
    Option ((planState × Option Error) × List Syscall)
  | 0, _, _, _, _ => none
  | fuel + 1, root, rel, targetRoot, state =>
    match os.ReadDir fs root with
    | Except.error e =>
      some ((state, some (Error.PathError root (Error.sys e))), [Syscall.readdir root])
    | Except.ok entries =>
      walkEntries fs (fun fullPath relPath st => walkDir fs fuel fullPath relPath targetRoot st)
        root rel targetRoot (sortEntries entries) state [Syscall.readdir root]

/-- `walkPackage`, with the system calls it makes. -/
def walkPackage (fs : FS) (fuel : Nat) (pkgPath targetRoot : String) (state : planState) :
    Option ((planState × Option Error) × List Syscall) :=
  walkDir fs fuel pkgPath "" targetRoot state

/-- The loop of `BuildPlan`, with the system calls made; `t` holds the calls
made before the packages that are left. -/
def planPackages (fs : FS) (fuel : Nat) (absDir absTarget : String) :
    List String → planState → List Syscall → Option ((PlanResult × Option Error) × List Syscall)
  | [], state, t => some ((state.result, none), t)
  | pkg :: rest, state, t =>
    match os.Stat fs (filepath.Join [absDir, pkg]) with
    | Except.error e =>
      some ((⟨[], []⟩, some (Error.PathError (filepath.Join [absDir, pkg]) (Error.sys e))),
        t ++ [Syscall.stat (filepath.Join [absDir, pkg])])
    | Except.ok pkgInfo =>
      if !pkgInfo.IsDir then
        some ((⟨[], []⟩, some (Error.PathError (filepath.Join [absDir, pkg])
          (Error.msg "package is not a directory"))),
          t ++ [Syscall.stat (filepath.Join [absDir, pkg])])
      else
        match walkPackage fs fuel (filepath.Join [absDir, pkg]) absTarget state with
        | none => none
        | some ((_, some err), t1) =>
          some ((⟨[], []⟩, some err), t ++ Syscall.stat (filepath.Join [absDir, pkg]) :: t1)
        | some ((state1, none), t1) =>
          planPackages fs fuel absDir absTarget rest state1
            (t ++ Syscall.stat (filepath.Join [absDir, pkg]) :: t1)

/-- `BuildPlan`, with the system calls it makes, in the order in which it
makes them. -/
def BuildPlan (fs : FS) (fuel : Nat) (opts : Options) :
    Option ((PlanResult × Option Error) × List Syscall) :=
  if opts.Packages.length = 0 then
    some ((⟨[], []⟩, some (Error.msg "at least one package is required")), [])
  else
    match Abs fs opts.Dir with
    | (Except.error e, t1) => some ((⟨[], []⟩, some (Error.PathError opts.Dir (Error.sys e))), t1)
    | (Except.ok absDir, t1) =>
      match os.Stat fs absDir with
      | Except.error e =>
        some ((⟨[], []⟩, some (Error.PathError absDir (Error.sys e))),
          t1 ++ [Syscall.stat absDir])
      | Except.ok info =>
        if !info.IsDir then
          some ((⟨[], []⟩, some (Error.PathError absDir (Error.msg "dir is not a directory"))),
            t1 ++ [Syscall.stat absDir])
        else
          match Abs fs opts.Target with
          | (Except.error e, t2) =>
            some ((⟨[], []⟩, some (Error.PathError opts.Target (Error.sys e))),
              t1 ++ Syscall.stat absDir :: t2)
          | (Except.ok absTarget, t2) =>
            planPackages fs fuel absDir absTarget (sortStrings opts.Packages) ⟨⟨[], []⟩, []⟩
              (t1 ++ Syscall.stat absDir :: t2)

end traced

/-! ## The order of a walk -/

/-- The leaves below the directory `root` in the order of a depth-first
pre-order walk that visits the entries of every directory in ascending order of
their names: every leaf is given by the names of the entries that lead to it
from `root`.  The first argument bounds the depth of the walk. -/
def dfsLeaves (fs : FS) : Nat → String → List (List String)
  | 0, _ => []
  | fuel + 1, root =>
    match os.ReadDir fs root with
    | Except.error _ => []
    | Except.ok entries =>
      (sortEntries entries).flatMap (fun e =>
        if e.Typ.IsDir then
          (dfsLeaves fs fuel (filepath.Join [root, e.Name])).map (fun t => e.Name :: t)
        else [[e.Name]])

/-- The names `names` lead from the directory `root` to a leaf: every name but
the last is an entry that is a directory, not a symbolic link, of the directory
reached so far, and the last name is an entry of the directory reached that
is not a directory (a file, or a symbolic link whatever it points to). -/
def isLeafOf (fs : FS) : String → List String → Bool
  | _, [] => false
  | root, [n] =>
    match os.ReadDir fs root with
    | Except.error _ => false
    | Except.ok entries => entries.any (fun e => decide (e.Name = n) && !e.Typ.IsDir)
  | root, n :: m :: rest =>
    match os.ReadDir fs root with
    | Except.error _ => false
    | Except.ok entries =>
      entries.any (fun e => decide (e.Name = n) && e.Typ.IsDir) &&
        isLeafOf fs (filepath.Join [root, n]) (m :: rest)

/-! ## `cmd/stow/main.go` -/

/-- `unicode.IsSpace`: the white space characters of Unicode. -/
def unicode.IsSpace (c : Char) : Bool :=
  decide (c.toNat ∈ [0x09, 0x0A, 0x0B, 0x0C, 0x0D, 0x20, 0x85, 0xA0, 0x1680, 0x2028, 0x2029,
    0x202F, 0x205F, 0x3000]) || (decide (0x2000 ≤ c.toNat) && decide (c.toNat ≤ 0x200A))

/-- `strings.TrimSpace`: the string without the white space at its two ends. -/
def strings.TrimSpace (s : String) : String :=
  String.mk ((s.data.dropWhile unicode.IsSpace).reverse.dropWhile unicode.IsSpace).reverse

namespace cmd

def exitSuccess : Int := 0

def exitConflicts : Int := 1

def exitValidation : Int := 2

/-- The command line after `flag.Parse` has read it without an error: the
values of the flags `-n`, `-no`, `-d`, `-dir`, `-t` and `-target`, and the
arguments that are left, the packages. -/
structure CommandLine where
  dryRunShort : Bool
  dryRunLong : Bool
  dir : String
  dirLong : String
  target : String
  targetLong : String
  packages : List String
  deriving DecidableEq, Repr

/-- `resolveTarget`. -/
def resolveTarget (fs : FS) (stowDir targetShort targetLong : String) : String :=
  if strings.TrimSpace targetLong ≠ "" then targetLong
  else if strings.TrimSpace targetShort ≠ "" then targetShort
  else if strings.TrimSpace stowDir = "" then ""
  else
    match DefaultTarget fs stowDir with
    | (_, some _) => ""
    | (defaultTarget, none) => defaultTarget

/-- `run` after the command line has been read without an error: the file
system afterwards and the exit code.  What is written to `stdout` and `stderr`
is left out; `fuel` bounds the depth of the directory recursion of `BuildPlan`
and `none` means the bound was reached. -/
def run (fs : FS) (fuel : Nat) (cl : CommandLine) : Option (FS × Int) :=
  let dryRun := cl.dryRunShort || cl.dryRunLong
  let stowDir := if cl.dirLong ≠ "" then cl.dirLong else cl.dir
  let stowTarget0 := resolveTarget fs stowDir cl.target cl.targetLong
  match (if stowTarget0 = "" then DefaultTarget fs stowDir else (stowTarget0, none)) with
  | (_, some _) => some (fs, exitValidation)
  | (stowTarget, none) =>
    if cl.packages.length = 0 then some (fs, exitValidation)
    else
      match BuildPlan fs fuel ⟨stowDir, stowTarget, cl.packages⟩ with
      | none => none
      | some (_, some _) => some (fs, exitValidation)
      | some (plan, none) =>
        match Execute fs plan ⟨dryRun⟩ with
        | (fs1, some _) => some (fs1, exitValidation)
        | (fs1, none) =>
          if plan.Conflicts.length > 0 then some (fs1, exitConflicts)
          else some (fs1, exitSuccess)

end cmd

/-- The root directory holds the empty directory `pkg`, and is the working directory. -/
def fsBare : FS := ⟨some [], [(["pkg"], Kind.dir)]⟩

/-- The package `a` of the stow directory `/s` holds the file `x`, the package
`b` holds the directory `x` with the file `y`; the target `/t` is empty. -/
def fsPrefix : FS :=
  ⟨some [],
   [(["s"], Kind.dir), (["s", "a"], Kind.dir), (["s", "b"], Kind.dir),
    (["s", "a", "x"], Kind.file "data"), (["s", "b", "x"], Kind.dir),
    (["s", "b", "x", "y"], Kind.file "data"), (["t"], Kind.dir)]⟩

/-- The file system `fsPrefix` with the link `/t/x` to the file `x` of the package `a`. -/
def fsPrefixAfter : FS :=
  ⟨some [],
   [(["t", "x"], Kind.symlink "/s/a/x"),
    (["s"], Kind.dir), (["s", "a"], Kind.dir), (["s", "b"], Kind.dir),
    (["s", "a", "x"], Kind.file "data"), (["s", "b", "x"], Kind.dir),
    (["s", "b", "x", "y"], Kind.file "data"), (["t"], Kind.dir)]⟩

/-- The package `p` of the stow directory `/s` is a symbolic link to the
directory `/data`, which holds the file `f`; the target `/data/t` does not exist. -/
def fsLinkedPackage : FS :=
  ⟨some [],
   [(["s"], Kind.dir), (["s", "p"], Kind.symlink "/data"), (["data"], Kind.dir),
    (["data", "f"], Kind.file "data")]⟩

/-- The file system `fsLinkedPackage` after the execution of the plan for the
target `/data/t`. -/
def fsLinkedPackageAfter : FS :=
  ⟨some [],
   [(["data", "t", "f"], Kind.symlink "/s/p/f"), (["data", "t"], Kind.dir),
    (["s"], Kind.dir), (["s", "p"], Kind.symlink "/data"), (["data"], Kind.dir),
    (["data", "f"], Kind.file "data")]⟩

/-! ## Predicates on the place of a path -/

/-- The path `path` lies inside the directory `dir`, by the names of the two
paths: both are rooted or both are not, and the elements of the cleaned `dir`
are the first elements of the cleaned `path`. -/
def filepath.Inside (dir path : String) : Prop :=
  filepath.IsAbs dir = filepath.IsAbs path ∧
    (filepath.cleanElements (filepath.IsAbs dir) (filepath.elements dir)).reverse <+:
      (filepath.cleanElements (filepath.IsAbs path) (filepath.elements path)).reverse

instance filepath.Inside.decidable (dir path : String) : Decidable (filepath.Inside dir path) :=
  inferInstanceAs (Decidable (_ ∧ _))

/-- What the path `path` denotes, a final symbolic link not followed, is not
inside one of the directories with the physical paths `dirs`; a path that
denotes nothing is outside. -/
def FS.locatedOutside (fs : FS) (dirs : List (List String)) (path : String) : Bool :=
  match fs.resolve false path with
  | Except.ok (p, _) => dirs.all (fun d => !decide (d <+: p))
  | Except.error _ => true

open filepath

/-! ## The order of strings and sorting -/

instance strLe.isTotal : IsTotal String strLe := ⟨fun a b => le_total a.data b.data⟩

instance strLe.isTrans : IsTrans String strLe :=
  ⟨fun _ _ _ hab hbc => le_trans (α := List Char) hab hbc⟩

instance strLe.isAntisymm : IsAntisymm String strLe :=
  ⟨fun _ _ hab hba => String.ext (le_antisymm (α := List Char) hab hba)⟩

theorem sortStrings_sorted (l : List String) : (sortStrings l).Sorted strLe :=
  List.sorted_insertionSort strLe l

theorem sortStrings_perm (l : List String) : (sortStrings l).Perm l :=
  List.perm_insertionSort strLe l

theorem sortStrings_eq_of_perm {l₁ l₂ : List String} (h : l₁.Perm l₂) :
    sortStrings l₁ = sortStrings l₂ :=
  List.eq_of_perm_of_sorted
    (((sortStrings_perm l₁).trans h).trans (sortStrings_perm l₂).symm)
    (sortStrings_sorted l₁) (sortStrings_sorted l₂)

/-! ## The classification of one leaf -/

/-- C1: classification of a leaf whose target path has not been claimed before. -/
theorem handleLeaf_classification (fs : FS) (sourcePath relPath targetRoot : String)
    (state : planState)
    (hnew : Join [targetRoot, relPath] ∉ state.seenTargets) :
    (os.Lstat fs (Join [targetRoot, relPath]) = Except.error Errno.ENOENT →
      handleLeaf fs sourcePath relPath targetRoot state =
        (⟨⟨state.result.Operations ++ [⟨sourcePath, Join [targetRoot, relPath]⟩],
            state.result.Conflicts⟩,
          Join [targetRoot, relPath] :: state.seenTargets⟩, none)) ∧
    (∀ k, os.Lstat fs (Join [targetRoot, relPath]) = Except.ok k → k.IsSymlink = false →
      handleLeaf fs sourcePath relPath targetRoot state =
        (⟨⟨state.result.Operations,
            state.result.Conflicts ++ [⟨Join [targetRoot, relPath], "target already exists"⟩]⟩,
          Join [targetRoot, relPath] :: state.seenTargets⟩, none)) ∧
    (∀ k, os.Lstat fs (Join [targetRoot, relPath]) = Except.ok k → k.IsSymlink = true →
      symlinkMatches fs (Join [targetRoot, relPath]) sourcePath = (false, none) →
      handleLeaf fs sourcePath relPath targetRoot state =
        (⟨⟨state.result.Operations,
            state.result.Conflicts ++ [⟨Join [targetRoot, relPath], "symlink points elsewhere"⟩]⟩,
          Join [targetRoot, relPath] :: state.seenTargets⟩, none)) ∧
    (∀ k, os.Lstat fs (Join [targetRoot, relPath]) = Except.ok k → k.IsSymlink = true →
      symlinkMatches fs (Join [targetRoot, relPath]) sourcePath = (true, none) →
      handleLeaf fs sourcePath relPath targetRoot state =
        (⟨state.result, Join [targetRoot, relPath] :: state.seenTargets⟩, none)) := by
  refine ⟨?_, ?_, ?_, ?_⟩
  · intro h
    simp [handleLeaf, hnew, detectConflict, h, os.IsNotExist]
  · intro k h hk
    simp [handleLeaf, hnew, detectConflict, h, hk]
  · intro k h hk hm
    simp [handleLeaf, hnew, detectConflict, h, hk, hm]
  · intro k h hk hm
    simp [handleLeaf, hnew, detectConflict, h, hk, hm]

theorem handleLeaf_classification_witness :
    handleLeaf fsClassify "/s/pkg/alpha.txt" "absent" "/t" ⟨⟨[], []⟩, []⟩ =
        (⟨⟨[⟨"/s/pkg/alpha.txt", "/t/absent"⟩], []⟩, ["/t/absent"]⟩, none) ∧
    handleLeaf fsClassify "/s/pkg/alpha.txt" "plain" "/t" ⟨⟨[], []⟩, []⟩ =
        (⟨⟨[], [⟨"/t/plain", "target already exists"⟩]⟩, ["/t/plain"]⟩, none) ∧
    handleLeaf fsClassify "/s/pkg/alpha.txt" "bad" "/t" ⟨⟨[], []⟩, []⟩ =
        (⟨⟨[], [⟨"/t/bad", "symlink points elsewhere"⟩]⟩, ["/t/bad"]⟩, none) ∧
    handleLeaf fsClassify "/s/pkg/alpha.txt" "good" "/t" ⟨⟨[], []⟩, []⟩ =
        (⟨⟨[], []⟩, ["/t/good"]⟩, none) :=
  ⟨(handleLeaf_classification fsClassify "/s/pkg/alpha.txt" "absent" "/t" ⟨⟨[], []⟩, []⟩
      (by decide)).1 (by decide),
   (handleLeaf_classification fsClassify "/s/pkg/alpha.txt" "plain" "/t" ⟨⟨[], []⟩, []⟩
      (by decide)).2.1 (Kind.file "old") (by decide) (by decide),
   (handleLeaf_classification fsClassify "/s/pkg/alpha.txt" "bad" "/t" ⟨⟨[], []⟩, []⟩
      (by decide)).2.2.1 (Kind.symlink "/elsewhere") (by decide) (by decide) (by decide),
   (handleLeaf_classification fsClassify "/s/pkg/alpha.txt" "good" "/t" ⟨⟨[], []⟩, []⟩
      (by decide)).2.2.2 (Kind.symlink "/s/pkg/alpha.txt") (by decide) (by decide) (by decide)⟩

/-! ## Directory entries -/

theorem childName_valid {d k : List String} {n : String} (h : childName d k = some n) :
    validName n = true ∧ k = d ++ [n] := by
  unfold childName at h
  cases hk : k.getLast? with
  | none => simp [hk] at h
  | some m =>
    simp only [hk] at h
    split at h
    · rename_i hc
      simp only [Option.some.injEq] at h
      subst h
      refine ⟨hc.2, ?_⟩
      have := List.dropLast_append_getLast? m (by simpa using hk)
      rw [hc.1] at this
      exact this.symm
    · simp at h

theorem entries_valid {fs : FS} {d : List String} {e : DirEntry} (h : e ∈ fs.entries d) :
    validName e.Name = true ∧ fs.kindAt (d ++ [e.Name]) = some e.Typ := by
  unfold FS.entries at h
  rw [List.mem_filterMap] at h
  obtain ⟨n, hn, he⟩ := h
  rw [List.mem_dedup, List.mem_filterMap] at hn
  obtain ⟨kv, _, hkv⟩ := hn
  cases hk : fs.kindAt (d ++ [n]) with
  | none => simp [hk] at he
  | some k =>
    simp only [hk, Option.map_some', Option.some.injEq] at he
    subst he
    exact ⟨(childName_valid hkv).1, hk⟩

theorem ReadDir_valid {fs : FS} {path : String} {es : List DirEntry}
    (h : os.ReadDir fs path = Except.ok es) {e : DirEntry} (he : e ∈ es) :
    validName e.Name = true := by
  unfold os.ReadDir at h
  split at h
  · simp only [Except.ok.injEq] at h
    subst h
    exact (entries_valid he).1
  · simp at h
  · simp at h

theorem sortEntries_perm (l : List DirEntry) : (sortEntries l).Perm l :=
  List.perm_insertionSort _ l

theorem mem_sortEntries {l : List DirEntry} {e : DirEntry} : e ∈ sortEntries l ↔ e ∈ l :=
  (sortEntries_perm l).mem_iff

/-! ## Properties kept by every step of a planning pass -/

theorem isDir_eq_false_of_isSymlink {k : Kind} (h : k.IsSymlink = true) : k.IsDir = false := by
  cases k <;> simp_all [Kind.IsSymlink, Kind.IsDir]

theorem eq_dir_of_isDir {k : Kind} (h : k.IsDir = true) : k = Kind.dir := by
  cases k <;> simp_all [Kind.IsDir]

section Pass

variable (fs : FS) (targetRoot : String) (Q : String → String → Prop)
  (R : planState → planState → Prop)

/-- A relation between states that every `handleLeaf` on an entry that is not
a directory, and every descent into an entry that is one, establishes holds
between the states before and after the loop of `walkDir`. -/
theorem walkEntries_rel (hrefl : ∀ s, R s s) (htrans : ∀ a b c, R a b → R b c → R a c)
    (descend : String → String → planState → Option (planState × Option Error))
    (root rel : String) :
    ∀ (es : List DirEntry),
      (∀ e ∈ es, e.Typ.IsDir = false → ∀ s,
        R s (handleLeaf fs (Join [root, e.Name]) (Join [rel, e.Name]) targetRoot s).1) →
      (∀ e ∈ es, e.Typ = Kind.dir → ∀ s r,
        descend (Join [root, e.Name]) (Join [rel, e.Name]) s = some r → R s r.1) →
      ∀ s r, walkEntries fs descend root rel targetRoot es s = some r → R s r.1 := by
  intro es
  induction es with
  | nil =>
    intro _ _ s r h
    simp only [walkEntries, Option.some.injEq] at h
    subst h
    exact hrefl s
  | cons e rest ih =>
    intro hleaf hdesc s r h
    have ih' := ih (fun e' he' => hleaf e' (List.mem_cons_of_mem _ he'))
      (fun e' he' => hdesc e' (List.mem_cons_of_mem _ he'))
    unfold walkEntries at h
    split at h
    · rename_i hsym
      have hl := hleaf e (List.mem_cons_self _ _) (isDir_eq_false_of_isSymlink hsym) s
      split at h
      · rename_i st1 err heq
        simp only [Option.some.injEq] at h
        subst h
        rw [heq] at hl
        exact hl
      · rename_i st1 heq
        rw [heq] at hl
        exact htrans _ _ _ hl (ih' st1 r h)
    · split at h
      · rename_i hdir
        have hd := hdesc e (List.mem_cons_self _ _) (eq_dir_of_isDir hdir) s
        split at h
        · simp at h
        · rename_i st1 err heq
          simp only [Option.some.injEq] at h
          subst h
          exact hd _ heq
        · rename_i st1 heq
          exact htrans _ _ _ (hd _ heq) (ih' st1 r h)
      · rename_i hdir
        have hl := hleaf e (List.mem_cons_self _ _) (by simpa using hdir) s
        split at h
        · rename_i st1 err heq
          simp only [Option.some.injEq] at h
          subst h
          rw [heq] at hl
          exact hl
        · rename_i st1 heq
          rw [heq] at hl
          exact htrans _ _ _ hl (ih' st1 r h)

/-- The same for `walkDir`; `Q` is a property of the directories walked that
passes from a directory to the entries that are directories. -/
theorem walkDir_rel (hrefl : ∀ s, R s s) (htrans : ∀ a b c, R a b → R b c → R a c)
    (hstep : ∀ root rel es e, Q root rel → os.ReadDir fs root = Except.ok es → e ∈ es →
      e.Typ = Kind.dir → Q (Join [root, e.Name]) (Join [rel, e.Name]))
    (hleaf : ∀ root rel es e s, Q root rel → os.ReadDir fs root = Except.ok es → e ∈ es →
      e.Typ.IsDir = false →
      R s (handleLeaf fs (Join [root, e.Name]) (Join [rel, e.Name]) targetRoot s).1) :
    ∀ (fuel : Nat) (root rel : String) (s : planState) (r : planState × Option Error),
      Q root rel → walkDir fs fuel root rel targetRoot s = some r → R s r.1 := by
  intro fuel
  induction fuel with
  | zero =>
    intro root rel s r _ h
    simp [walkDir] at h
  | succ fuel ih =>
    intro root rel s r hq h
    unfold walkDir at h
    split at h
    · simp only [Option.some.injEq] at h
      subst h
      exact hrefl s
    · rename_i es hes
      refine walkEntries_rel fs targetRoot R hrefl htrans _ root rel (sortEntries es)
        (fun e he hk s => hleaf root rel es e s hq hes (mem_sortEntries.1 he) hk)
        (fun e he hk s r hd =>
          ih _ _ s r (hstep root rel es e hq hes (mem_sortEntries.1 he) hk) hd) s r h

/-- The same for the loop of `BuildPlan`, when it succeeds. -/
theorem planPackages_rel (hrefl : ∀ s, R s s) (htrans : ∀ a b c, R a b → R b c → R a c)
    (hstep : ∀ root rel es e, Q root rel → os.ReadDir fs root = Except.ok es → e ∈ es →
      e.Typ = Kind.dir → Q (Join [root, e.Name]) (Join [rel, e.Name]))
    (hleaf : ∀ root rel es e s, Q root rel → os.ReadDir fs root = Except.ok es → e ∈ es →
      e.Typ.IsDir = false →
      R s (handleLeaf fs (Join [root, e.Name]) (Join [rel, e.Name]) targetRoot s).1)
    (fuel : Nat) (absDir : String) :
    ∀ (pkgs : List String),
      (∀ pkg ∈ pkgs, os.Stat fs (Join [absDir, pkg]) = Except.ok Kind.dir →
        Q (Join [absDir, pkg]) "") →
      ∀ s res, planPackages fs fuel absDir targetRoot pkgs s = some (res, none) →
      ∃ s1, res = s1.result ∧ R s s1 := by
  intro pkgs
  induction pkgs with
  | nil =>
    intro _ s res h
    simp only [planPackages, Option.some.injEq, Prod.mk.injEq, and_true] at h
    exact ⟨s, h.symm, hrefl s⟩
  | cons pkg rest ih =>
    intro hq s res h
    unfold planPackages at h
    split at h
    · simp at h
    · rename_i info hinfo
      split at h
      · simp at h
      · rename_i hisdir
        have hdir : info = Kind.dir := eq_dir_of_isDir (by simpa using hisdir)
        subst hdir
        split at h
        · simp at h
        · simp at h
        · rename_i st1 heq
          obtain ⟨s1, hres, hr⟩ :=
            ih (fun p hp => hq p (List.mem_cons_of_mem _ hp)) st1 res h
          refine ⟨s1, hres, htrans _ _ _ ?_ hr⟩
          exact walkDir_rel fs targetRoot Q R hrefl htrans hstep hleaf fuel _ _ s _
            (hq pkg (List.mem_cons_self _ _) hinfo) heq

end Pass

/-- A successful `BuildPlan` returns the result of a pass over the sorted
packages that started from the empty state. -/
theorem BuildPlan_ok {fs : FS} {fuel : Nat} {opts : Options} {res : PlanResult}
    (h : BuildPlan fs fuel opts = some (res, none)) :
    ∃ absDir absTarget, filepath.Abs fs opts.Dir = Except.ok absDir ∧
      filepath.Abs fs opts.Target = Except.ok absTarget ∧
      os.Stat fs absDir = Except.ok Kind.dir ∧ opts.Packages ≠ [] ∧
      planPackages fs fuel absDir absTarget (sortStrings opts.Packages) ⟨⟨[], []⟩, []⟩ =
        some (res, none) := by
  unfold BuildPlan at h
  split at h
  · simp at h
  · rename_i hlen
    split at h
    · simp at h
    · rename_i absDir hdir
      split at h
      · simp at h
      · rename_i info hinfo
        split at h
        · simp at h
        · rename_i hisdir
          split at h
          · simp at h
          · rename_i absTarget htarget
            refine ⟨absDir, absTarget, hdir, htarget, ?_, ?_, h⟩
            · cases info <;> simp_all [Kind.IsDir]
            · intro hnil
              exact hlen (by simp [hnil])

/-! ## The outcomes of `handleLeaf` -/

/-- The four shapes of the state after `handleLeaf`: a duplicate, nothing
recorded (a link that is already right, or an error), a conflict found at the
target, an operation. -/
theorem handleLeaf_shape (fs : FS) (src rel targetRoot : String) (s : planState) :
    (Join [targetRoot, rel] ∈ s.seenTargets ∧
      handleLeaf fs src rel targetRoot s =
        (⟨⟨s.result.Operations,
            s.result.Conflicts ++ [⟨Join [targetRoot, rel], "duplicate target planned"⟩]⟩,
          s.seenTargets⟩, none)) ∨
    (Join [targetRoot, rel] ∉ s.seenTargets ∧
      ∃ e, handleLeaf fs src rel targetRoot s =
        (⟨s.result, Join [targetRoot, rel] :: s.seenTargets⟩, e)) ∨
    (Join [targetRoot, rel] ∉ s.seenTargets ∧
      ∃ reason, reason ≠ "duplicate target planned" ∧
        handleLeaf fs src rel targetRoot s =
          (⟨⟨s.result.Operations, s.result.Conflicts ++ [⟨Join [targetRoot, rel], reason⟩]⟩,
            Join [targetRoot, rel] :: s.seenTargets⟩, none)) ∨
    (Join [targetRoot, rel] ∉ s.seenTargets ∧
      handleLeaf fs src rel targetRoot s =
        (⟨⟨s.result.Operations ++ [⟨src, Join [targetRoot, rel]⟩], s.result.Conflicts⟩,
          Join [targetRoot, rel] :: s.seenTargets⟩, none)) := by
  by_cases hseen : Join [targetRoot, rel] ∈ s.seenTargets
  · left
    exact ⟨hseen, by simp [handleLeaf, hseen]⟩
  · right
    simp only [handleLeaf, hseen, if_false]
    unfold detectConflict
    cases hl : os.Lstat fs (Join [targetRoot, rel]) with
    | error e =>
      by_cases hne : os.IsNotExist e = true
      · right; right
        simp [hne]
      · left
        simp [hne]
    | ok info =>
      by_cases hsym : info.IsSymlink = true
      · simp only [hsym, if_true]
        rcases hm : symlinkMatches fs (Join [targetRoot, rel]) src with ⟨m, _ | err⟩
        · cases m
          · right; left
            refine ⟨by simp, "symlink points elsewhere", by decide, by simp⟩
          · left
            simp
        · left
          simp
      · right; left
        refine ⟨by simp, "target already exists", by decide, by simp [hsym]⟩

/-- What is recorded before a leaf is handled is still recorded afterwards,
the target of the leaf is claimed, and so is every path claimed before. -/
theorem handleLeaf_grows (fs : FS) (src rel targetRoot : String) (s : planState) :
    s.seenTargets ⊆ (handleLeaf fs src rel targetRoot s).1.seenTargets ∧
    Join [targetRoot, rel] ∈ (handleLeaf fs src rel targetRoot s).1.seenTargets ∧
    s.result.Operations <+: (handleLeaf fs src rel targetRoot s).1.result.Operations ∧
    s.result.Conflicts <+: (handleLeaf fs src rel targetRoot s).1.result.Conflicts := by
  rcases handleLeaf_shape fs src rel targetRoot s with
    ⟨hseen, h⟩ | ⟨_, e, h⟩ | ⟨_, reason, _, h⟩ | ⟨_, h⟩
  · rw [h]
    simp [List.prefix_refl, hseen]
  all_goals
    rw [h]
    simp [List.prefix_refl, List.subset_cons_self]

/-- The relation between the state before and after part of a pass: claims and
recorded entries are kept. -/
theorem walkDir_grows (fs : FS) (targetRoot : String) (fuel : Nat) (root rel : String)
    (s : planState) (r : planState × Option Error)
    (h : walkDir fs fuel root rel targetRoot s = some r) :
    s.seenTargets ⊆ r.1.seenTargets ∧
    s.result.Operations <+: r.1.result.Operations ∧
    s.result.Conflicts <+: r.1.result.Conflicts := by
  refine walkDir_rel fs targetRoot (fun _ _ => True)
    (fun a b => a.seenTargets ⊆ b.seenTargets ∧
      a.result.Operations <+: b.result.Operations ∧
      a.result.Conflicts <+: b.result.Conflicts)
    (fun s => ⟨List.Subset.refl _, List.prefix_refl _, List.prefix_refl _⟩)
    (fun a b c hab hbc => ⟨hab.1.trans hbc.1, hab.2.1.trans hbc.2.1, hab.2.2.trans hbc.2.2⟩)
    (fun _ _ _ _ _ _ _ _ => trivial)
    (fun root rel _ e s _ _ _ _ => ?_) fuel root rel s r trivial h
  have := handleLeaf_grows fs (Join [root, e.Name]) (Join [rel, e.Name]) targetRoot s
  exact ⟨this.1, this.2.2.1, this.2.2.2⟩

/-! ## Duplicate targets -/

/-- C2: a leaf whose target path was claimed by an earlier leaf of the pass
(whatever was recorded for that leaf, and whatever was handled in between)
adds the conflict "duplicate target planned" and nothing else; every step of
a pass keeps the claims and the entries recorded so far; and for the packages
`a` and `b` that both hold `alpha.txt` the plan has one operation, from `a`,
and one conflict, the duplicate. -/
theorem handleLeaf_duplicate :
    (∀ (fs : FS) (src₁ rel₁ src₂ rel₂ targetRoot : String) (s s₂ : planState),
      Join [targetRoot, rel₂] = Join [targetRoot, rel₁] →
      (handleLeaf fs src₁ rel₁ targetRoot s).1.seenTargets ⊆ s₂.seenTargets →
      handleLeaf fs src₂ rel₂ targetRoot s₂ =
        (⟨⟨s₂.result.Operations,
            s₂.result.Conflicts ++ [⟨Join [targetRoot, rel₂], "duplicate target planned"⟩]⟩,
          s₂.seenTargets⟩, none)) ∧
    (∀ (fs : FS) (targetRoot : String) (fuel : Nat) (root rel : String) (s : planState)
        (r : planState × Option Error),
      walkDir fs fuel root rel targetRoot s = some r →
      s.seenTargets ⊆ r.1.seenTargets ∧
      s.result.Operations <+: r.1.result.Operations ∧
      s.result.Conflicts <+: r.1.result.Conflicts) ∧
    BuildPlan fsDup 1 ⟨"/s", "/t", ["b", "a"]⟩ =
      some (⟨[⟨"/s/a/alpha.txt", "/t/alpha.txt"⟩],
             [⟨"/t/alpha.txt", "duplicate target planned"⟩]⟩, none) := by
  refine ⟨?_, walkDir_grows, by decide⟩
  intro fs src₁ rel₁ src₂ rel₂ targetRoot s s₂ hsame hsub
  have hmem : Join [targetRoot, rel₂] ∈ s₂.seenTargets := by
    rw [hsame]
    exact hsub (handleLeaf_grows fs src₁ rel₁ targetRoot s).2.1
  simp [handleLeaf, hmem]

/-- The duplicate after an operation, after a link that is already right and
after a conflict. -/
theorem handleLeaf_duplicate_witness :
    handleLeaf fsClassify "/s/pkg2/absent" "absent" "/t"
        (handleLeaf fsClassify "/s/pkg/absent" "absent" "/t" ⟨⟨[], []⟩, []⟩).1 =
      (⟨⟨[⟨"/s/pkg/absent", "/t/absent"⟩], [⟨"/t/absent", "duplicate target planned"⟩]⟩,
        ["/t/absent"]⟩, none) ∧
    handleLeaf fsClassify "/s/pkg2/good" "good" "/t"
        (handleLeaf fsClassify "/s/pkg/alpha.txt" "good" "/t" ⟨⟨[], []⟩, []⟩).1 =
      (⟨⟨[], [⟨"/t/good", "duplicate target planned"⟩]⟩, ["/t/good"]⟩, none) ∧
    handleLeaf fsClassify "/s/pkg2/plain" "plain" "/t"
        (handleLeaf fsClassify "/s/pkg/plain" "plain" "/t" ⟨⟨[], []⟩, []⟩).1 =
      (⟨⟨[], [⟨"/t/plain", "target already exists"⟩,
              ⟨"/t/plain", "duplicate target planned"⟩]⟩, ["/t/plain"]⟩, none) :=
  ⟨handleLeaf_duplicate.1 fsClassify "/s/pkg/absent" "absent" "/s/pkg2/absent" "absent" "/t"
      ⟨⟨[], []⟩, []⟩ _ rfl (List.Subset.refl _),
   handleLeaf_duplicate.1 fsClassify "/s/pkg/alpha.txt" "good" "/s/pkg2/good" "good" "/t"
      ⟨⟨[], []⟩, []⟩ _ rfl (List.Subset.refl _),
   handleLeaf_duplicate.1 fsClassify "/s/pkg/plain" "plain" "/s/pkg2/plain" "plain" "/t"
      ⟨⟨[], []⟩, []⟩ _ rfl (List.Subset.refl _)⟩

/-! ## Distinct targets -/

theorem handleLeaf_targetsDistinct (fs : FS) (src rel targetRoot : String) (s : planState)
    (hs : s.TargetsDistinct) : (handleLeaf fs src rel targetRoot s).1.TargetsDistinct := by
  obtain ⟨h1, h2, h3, h4, h5⟩ := hs
  rcases handleLeaf_shape fs src rel targetRoot s with
    ⟨hseen, h⟩ | ⟨_, e, h⟩ | ⟨hnew, reason, hreason, h⟩ | ⟨hnew, h⟩
  · rw [h]
    refine ⟨h1, h2, ?_, ?_, ?_⟩
    · simpa [List.filter_append] using h3
    · intro c hc
      rcases List.mem_append.1 hc with hc | hc
      · exact h4 c hc
      · simp only [List.mem_singleton] at hc
        subst hc
        exact hseen
    · intro op hop c hc hct
      rcases List.mem_append.1 hc with hc | hc
      · exact h5 op hop c hc hct
      · simp only [List.mem_singleton] at hc
        subst hc
        rfl
  · rw [h]
    exact ⟨h1, fun op hop => List.mem_cons_of_mem _ (h2 op hop), h3,
      fun c hc => List.mem_cons_of_mem _ (h4 c hc), h5⟩
  · rw [h]
    refine ⟨h1, fun op hop => List.mem_cons_of_mem _ (h2 op hop), ?_, ?_, ?_⟩
    · simp only [List.filter_append, List.map_append]
      rw [List.nodup_append]
      refine ⟨h3, ?_, ?_⟩
      · simp [hreason]
      · intro a ha hb
        simp only [List.mem_map, List.mem_filter] at ha
        obtain ⟨c, ⟨hc, _⟩, hca⟩ := ha
        simp only [hreason, ne_eq, not_false_eq_true, decide_True, List.filter_cons_of_pos,
          List.filter_nil, List.map_cons, List.map_nil, List.mem_singleton] at hb
        subst hb
        exact hnew (hca ▸ h4 c hc)
    · intro c hc
      rcases List.mem_append.1 hc with hc | hc
      · exact List.mem_cons_of_mem _ (h4 c hc)
      · simp only [List.mem_singleton] at hc
        subst hc
        exact List.mem_cons_self _ _
    · intro op hop c hc hct
      rcases List.mem_append.1 hc with hc | hc
      · exact h5 op hop c hc hct
      · simp only [List.mem_singleton] at hc
        subst hc
        exact absurd (show Join [targetRoot, rel] ∈ s.seenTargets from
          (show Join [targetRoot, rel] = op.Target from hct) ▸ h2 op hop) hnew
  · rw [h]
    refine ⟨?_, ?_, h3, fun c hc => List.mem_cons_of_mem _ (h4 c hc), ?_⟩
    · simp only [List.map_append, List.map_cons, List.map_nil]
      rw [List.nodup_append]
      refine ⟨h1, by simp, ?_⟩
      intro a ha hb
      simp only [List.mem_map] at ha
      obtain ⟨op, hop, hopa⟩ := ha
      simp only [List.mem_singleton] at hb
      subst hb
      exact hnew (hopa ▸ h2 op hop)
    · intro op hop
      rcases List.mem_append.1 hop with hop | hop
      · exact List.mem_cons_of_mem _ (h2 op hop)
      · simp only [List.mem_singleton] at hop
        subst hop
        exact List.mem_cons_self _ _
    · intro op hop c hc hct
      rcases List.mem_append.1 hop with hop | hop
      · exact h5 op hop c hc hct
      · simp only [List.mem_singleton] at hop
        subst hop
        exact absurd (show Join [targetRoot, rel] ∈ s.seenTargets from
          (show c.Target = Join [targetRoot, rel] from hct) ▸ h4 c hc) hnew

/-- The plan returned by a successful `BuildPlan` is the result of a state with
distinct targets. -/
theorem BuildPlan_targetsDistinct {fs : FS} {fuel : Nat} {opts : Options} {res : PlanResult}
    (h : BuildPlan fs fuel opts = some (res, none)) :
    ∃ s : planState, res = s.result ∧ s.TargetsDistinct := by
  obtain ⟨absDir, absTarget, _, _, _, _, hp⟩ := BuildPlan_ok h
  obtain ⟨s, hres, hs⟩ := planPackages_rel fs absTarget (fun _ _ => True)
    (fun a b => a.TargetsDistinct → b.TargetsDistinct) (fun _ h => h)
    (fun _ _ _ hab hbc h => hbc (hab h)) (fun _ _ _ _ _ _ _ _ => trivial)
    (fun _ _ _ _ s _ _ _ _ hs => handleLeaf_targetsDistinct fs _ _ _ s hs)
    fuel absDir (sortStrings opts.Packages) (fun _ _ _ => trivial) _ res hp
  refine ⟨s, hres, hs ?_⟩
  refine ⟨by simp, by simp, by simp, by simp, by simp⟩

/-- C3: no two operations of a plan returned by `BuildPlan` have the same target. -/
theorem BuildPlan_operations_targets_nodup (fs : FS) (fuel : Nat) (opts : Options)
    (res : PlanResult) (h : BuildPlan fs fuel opts = some (res, none)) :
    (res.Operations.map Operation.Target).Nodup := by
  obtain ⟨s, hres, hs⟩ := BuildPlan_targetsDistinct h
  rw [hres]
  exact hs.1

theorem BuildPlan_operations_targets_nodup_witness :
    ([("/tmp/target/alpha.txt" : String), "/tmp/target/dir/bravo.txt", "/tmp/target/zeta.txt",
      "/tmp/target/echo.txt"]).Nodup :=
  BuildPlan_operations_targets_nodup fsMapping 2 ⟨"/s", "/tmp/target", ["pkg-b", "pkg-a"]⟩
    ⟨[⟨"/s/pkg-a/alpha.txt", "/tmp/target/alpha.txt"⟩,
      ⟨"/s/pkg-a/dir/bravo.txt", "/tmp/target/dir/bravo.txt"⟩,
      ⟨"/s/pkg-a/zeta.txt", "/tmp/target/zeta.txt"⟩,
      ⟨"/s/pkg-b/echo.txt", "/tmp/target/echo.txt"⟩], []⟩ (by decide)

/-- C4, as stated, fails: in the plan for `fsDup` the path `/t/alpha.txt` is the
target of an operation and of a conflict, and in the plan for `fsDupTaken` it is
the target of two conflicts. -/
theorem targets_exclusive_counterexample :
    (BuildPlan fsDup 1 ⟨"/s", "/t", ["a", "b"]⟩ =
        some (⟨[⟨"/s/a/alpha.txt", "/t/alpha.txt"⟩],
               [⟨"/t/alpha.txt", "duplicate target planned"⟩]⟩, none) ∧
      BuildPlan fsDupTaken 1 ⟨"/s", "/t", ["a", "b"]⟩ =
        some (⟨[], [⟨"/t/alpha.txt", "target already exists"⟩,
                    ⟨"/t/alpha.txt", "duplicate target planned"⟩]⟩, none)) ∧
    ¬ ∀ (fs : FS) (fuel : Nat) (opts : Options) (res : PlanResult),
        BuildPlan fs fuel opts = some (res, none) →
        (res.Operations.map Operation.Target).Nodup ∧
        (res.Conflicts.map Conflict.Target).Nodup ∧
        ∀ op ∈ res.Operations, ∀ c ∈ res.Conflicts, c.Target ≠ op.Target := by
  refine ⟨⟨by decide, by decide⟩, fun hall => ?_⟩
  have h := hall fsDup 1 ⟨"/s", "/t", ["a", "b"]⟩
    ⟨[⟨"/s/a/alpha.txt", "/t/alpha.txt"⟩], [⟨"/t/alpha.txt", "duplicate target planned"⟩]⟩
    (by decide)
  exact h.2.2 ⟨"/s/a/alpha.txt", "/t/alpha.txt"⟩ (by simp)
    ⟨"/t/alpha.txt", "duplicate target planned"⟩ (by simp) rfl

/-- C4, amended: in a plan returned by `BuildPlan` no two operations have the
same target, no two conflicts other than duplicates have the same target, and
a conflict at the target of an operation is a duplicate. -/
theorem BuildPlan_targets_exclusive (fs : FS) (fuel : Nat) (opts : Options)
    (res : PlanResult) (h : BuildPlan fs fuel opts = some (res, none)) :
    (res.Operations.map Operation.Target).Nodup ∧
    ((res.Conflicts.filter
        (fun c => decide (c.Reason ≠ "duplicate target planned"))).map Conflict.Target).Nodup ∧
    ∀ op ∈ res.Operations, ∀ c ∈ res.Conflicts,
      c.Target = op.Target → c.Reason = "duplicate target planned" := by
  obtain ⟨s, hres, hs⟩ := BuildPlan_targetsDistinct h
  rw [hres]
  exact ⟨hs.1, hs.2.2.1, hs.2.2.2.2⟩

theorem BuildPlan_targets_exclusive_witness :
    (([⟨"/s/a/alpha.txt", "/t/alpha.txt"⟩] : List Operation).map Operation.Target).Nodup ∧
    ((([⟨"/t/alpha.txt", "duplicate target planned"⟩] : List Conflict).filter
        (fun c => decide (c.Reason ≠ "duplicate target planned"))).map Conflict.Target).Nodup ∧
    ∀ op ∈ ([⟨"/s/a/alpha.txt", "/t/alpha.txt"⟩] : List Operation),
      ∀ c ∈ ([⟨"/t/alpha.txt", "duplicate target planned"⟩] : List Conflict),
      c.Target = op.Target → c.Reason = "duplicate target planned" :=
  BuildPlan_targets_exclusive fsDup 1 ⟨"/s", "/t", ["a", "b"]⟩
    ⟨[⟨"/s/a/alpha.txt", "/t/alpha.txt"⟩], [⟨"/t/alpha.txt", "duplicate target planned"⟩]⟩
    (by decide)

/-! ## Independence of the order of the packages -/

/-- C5: `BuildPlan` gives the same result (the same plan, or the same error,
or the same cut of the recursion) for two package lists that are permutations
of each other. -/
theorem BuildPlan_perm (fs : FS) (fuel : Nat) (dir target : String) (pkgs₁ pkgs₂ : List String)
    (h : pkgs₁.Perm pkgs₂) :
    BuildPlan fs fuel ⟨dir, target, pkgs₁⟩ = BuildPlan fs fuel ⟨dir, target, pkgs₂⟩ := by
  simp only [BuildPlan, h.length_eq, sortStrings_eq_of_perm h]

theorem BuildPlan_perm_witness :
    BuildPlan fsMapping 2 ⟨"/s", "/tmp/target", ["pkg-b", "pkg-a"]⟩ =
      BuildPlan fsMapping 2 ⟨"/s", "/tmp/target", ["pkg-a", "pkg-b"]⟩ :=
  BuildPlan_perm fsMapping 2 "/s" "/tmp/target" ["pkg-b", "pkg-a"] ["pkg-a", "pkg-b"]
    (List.Perm.swap _ _ _)

/-! ## Splitting and joining at the separator -/

namespace filepath

theorem splitSep_ne_nil (cs : List Char) : splitSep cs ≠ [] := by
  induction cs with
  | nil => simp [splitSep]
  | cons c cs ih =>
    unfold splitSep
    split
    · simp
    · split <;> simp

theorem splitSep_cons_sep (cs : List Char) : splitSep ('/' :: cs) = [] :: splitSep cs := by
  simp [splitSep]

theorem splitSep_cons_of_ne {c : Char} (hc : c ≠ '/') {cs : List Char} {x : List Char}
    {xs : List (List Char)} (h : splitSep cs = x :: xs) :
    splitSep (c :: cs) = (c :: x) :: xs := by
  rw [splitSep, if_neg hc, h]

theorem joinSep_cons_cons (x y : List Char) (rest : List (List Char)) :
    joinSep (x :: y :: rest) = x ++ '/' :: joinSep (y :: rest) := rfl

theorem joinSep_cons_of_ne_nil (x : List Char) {l : List (List Char)} (h : l ≠ []) :
    joinSep (x :: l) = x ++ '/' :: joinSep l := by
  cases l with
  | nil => exact absurd rfl h
  | cons y rest => rfl

theorem joinSep_splitSep (cs : List Char) : joinSep (splitSep cs) = cs := by
  induction cs with
  | nil => simp [splitSep, joinSep]
  | cons c cs ih =>
    unfold splitSep
    split
    · rename_i hc
      rw [joinSep_cons_of_ne_nil _ (splitSep_ne_nil cs), ih, hc]
      rfl
    · split
      · rename_i h
        exact absurd h (splitSep_ne_nil cs)
      · rename_i x xs h
        rw [h] at ih
        cases xs with
        | nil =>
          simp only [joinSep] at ih ⊢
          rw [ih]
        | cons y rest =>
          rw [joinSep_cons_cons] at ih ⊢
          rw [List.cons_append, ih]

theorem splitSep_of_not_mem {x : List Char} (h : '/' ∉ x) : splitSep x = [x] := by
  induction x with
  | nil => rfl
  | cons c cs ih =>
    have hc : c ≠ '/' := fun hc => h (hc ▸ List.mem_cons_self _ _)
    have hcs : '/' ∉ cs := fun hcs => h (List.mem_cons_of_mem _ hcs)
    unfold splitSep
    rw [if_neg hc, ih hcs]

theorem splitSep_append_sep (a b : List Char) :
    splitSep (a ++ '/' :: b) = splitSep a ++ splitSep b := by
  induction a with
  | nil => simp [splitSep]
  | cons c cs ih =>
    rw [List.cons_append]
    by_cases hc : c = '/'
    · subst hc
      rw [splitSep_cons_sep, splitSep_cons_sep, ih, List.cons_append]
    · cases h : splitSep cs with
      | nil => exact absurd h (splitSep_ne_nil cs)
      | cons x xs =>
        rw [splitSep_cons_of_ne hc h,
          @splitSep_cons_of_ne c hc (cs ++ '/' :: b) x (xs ++ splitSep b)]
        · rfl
        · rw [ih, h]
          rfl

theorem not_mem_of_mem_splitSep {cs x : List Char} (h : x ∈ splitSep cs) : '/' ∉ x := by
  induction cs generalizing x with
  | nil =>
    simp only [splitSep, List.mem_singleton] at h
    subst h
    simp
  | cons c cs ih =>
    unfold splitSep at h
    split at h
    · rcases List.mem_cons.1 h with h | h
      · subst h
        simp
      · exact ih h
    · rename_i hc
      split at h
      · simp only [List.mem_singleton] at h
        subst h
        simpa using fun h => hc h.symm
      · rename_i y ys hy
        rcases List.mem_cons.1 h with h | h
        · subst h
          have := ih (x := y) (by rw [hy]; exact List.mem_cons_self _ _)
          intro hm
          rcases List.mem_cons.1 hm with hm | hm
          · exact hc hm.symm
          · exact this hm
        · exact ih (by rw [hy]; exact List.mem_cons_of_mem _ h)

theorem splitSep_joinSep {l : List (List Char)} (hne : l ≠ []) (h : ∀ x ∈ l, '/' ∉ x) :
    splitSep (joinSep l) = l := by
  induction l with
  | nil => exact absurd rfl hne
  | cons x rest ih =>
    cases rest with
    | nil => exact splitSep_of_not_mem (h x (List.mem_cons_self _ _))
    | cons y rest =>
      rw [joinSep_cons_cons, splitSep_append_sep,
        splitSep_of_not_mem (h x (List.mem_cons_self _ _)),
        ih (by simp) (fun z hz => h z (List.mem_cons_of_mem _ hz))]
      rfl

theorem joinSep_append {l m : List (List Char)} (hl : l ≠ []) (hm : m ≠ []) :
    joinSep (l ++ m) = joinSep l ++ '/' :: joinSep m := by
  induction l with
  | nil => exact absurd rfl hl
  | cons x rest ih =>
    cases rest with
    | nil =>
      rw [List.singleton_append, joinSep_cons_of_ne_nil _ hm]
      rfl
    | cons y rest =>
      rw [List.cons_append, joinSep_cons_of_ne_nil _ (by simp), ih (by simp),
        joinSep_cons_cons, List.append_assoc]
      rfl

/-! ## Elements of a path -/

theorem elements_ne_nil (s : String) : elements s ≠ [] := by
  simp [elements, splitSep_ne_nil]

theorem unsplit_elements (s : String) : unsplit (elements s) = s := by
  simp only [unsplit, elements, List.map_map]
  have : (String.data ∘ String.mk) = id := by
    funext x
    rfl
  rw [this, List.map_id, joinSep_splitSep]

theorem noSep_of_mem_elements {s x : String} (h : x ∈ elements s) : NoSep x := by
  simp only [elements, List.mem_map] at h
  obtain ⟨y, hy, rfl⟩ := h
  exact not_mem_of_mem_splitSep hy

theorem elements_unsplit {l : List String} (hne : l ≠ []) (h : ∀ x ∈ l, NoSep x) :
    elements (unsplit l) = l := by
  simp only [elements, unsplit]
  rw [splitSep_joinSep (by simpa using hne)]
  · simp only [List.map_map]
    have : (String.mk ∘ String.data) = id := by
      funext x
      rfl
    rw [this, List.map_id]
  · intro x hx
    simp only [List.mem_map] at hx
    obtain ⟨y, hy, rfl⟩ := hx
    exact h y hy

theorem elements_of_noSep {x : String} (h : NoSep x) : elements x = [x] := by
  simp only [elements]
  rw [splitSep_of_not_mem h]
  rfl

theorem unsplit_singleton (x : String) : unsplit [x] = x := rfl

theorem unsplit_append {l m : List String} (hl : l ≠ []) (hm : m ≠ []) :
    unsplit (l ++ m) = unsplit [unsplit l, unsplit m] := by
  simp only [unsplit, List.map_append]
  rw [joinSep_append (by simpa using hl) (by simpa using hm)]
  rfl

theorem elements_unsplit_pair (a b : String) :
    elements (unsplit [a, b]) = elements a ++ elements b := by
  simp only [elements, unsplit, List.map_cons, List.map_nil, joinSep_cons_cons]
  rw [show joinSep [b.data] = b.data from rfl, splitSep_append_sep, List.map_append]

theorem validName_noSep {n : String} (h : validName n = true) : NoSep n := by
  simp only [validName, decide_eq_true_eq] at h
  exact h.2.2.2

theorem validName_ne {n : String} (h : validName n = true) :
    n ≠ "" ∧ n ≠ "." ∧ n ≠ ".." := by
  simp only [validName, decide_eq_true_eq] at h
  exact ⟨h.1, h.2.1, h.2.2.1⟩

end filepath

namespace filepath

/-! ## `Clean` -/

theorem Clean_eq_render (s : String) :
    Clean s = if s = "" then "." else render (IsAbs s) (cleanElements (IsAbs s) (elements s)) := by
  unfold Clean render
  by_cases hs : s = ""
  · simp [hs]
  · simp only [hs, if_false]
    cases hr : IsAbs s
    · simp only [Bool.false_eq_true, if_false]
      cases cleanElements false (elements s) <;> rfl
    · simp

theorem data_ne_nil {s : String} (h : s ≠ "") : s.data ≠ [] := by
  intro hd
  apply h
  exact String.ext hd

theorem real_of_validName {n : String} (h : validName n = true) : Real n := validName_ne h

theorem noSep_dotdot : NoSep ".." := by
  unfold NoSep
  decide

theorem cleanStep_of_real {c : String} (h : Real c) (rooted : Bool) (out : List String) :
    cleanStep rooted out c = c :: out := by
  simp [cleanStep, h.1, h.2.1, h.2.2]

theorem cleanStep_normal {rooted : Bool} {out : List String} (c : String)
    (h : Normal rooted out) : Normal rooted (cleanStep rooted out c) := by
  unfold cleanStep
  split
  · exact h
  · rename_i h1
    split
    · rename_i h2
      cases out with
      | nil =>
        cases rooted
        · simp [Normal]
        · simp [Normal]
      | cons top rest =>
        simp only
        split
        · rename_i htop
          have h' := h
          simp only [Normal] at h'
          rcases h'.2 with hreal | ⟨_, hr, hall⟩
          · exact absurd htop hreal.2.2
          · refine ⟨h, Or.inr ⟨rfl, hr, ?_⟩⟩
            intro x hx
            rcases List.mem_cons.1 hx with hx | hx
            · rw [hx, htop]
            · exact hall x hx
        · exact h.1
    · rename_i h2
      refine ⟨h, Or.inl ⟨?_, ?_, h2⟩⟩
      · exact fun hc => h1 (Or.inl hc)
      · exact fun hc => h1 (Or.inr hc)

theorem foldl_cleanStep_normal {rooted : Bool} (l : List String) {out : List String}
    (h : Normal rooted out) : Normal rooted (l.foldl (cleanStep rooted) out) := by
  induction l generalizing out with
  | nil => exact h
  | cons c l ih => exact ih (cleanStep_normal c h)

theorem cleanElements_normal (rooted : Bool) (l : List String) :
    Normal rooted (cleanElements rooted l) :=
  foldl_cleanStep_normal l (by simp [Normal])

theorem cleanStep_noSep {rooted : Bool} {out : List String} {c : String}
    (h : ∀ x ∈ out, NoSep x) (hc : NoSep c) : ∀ x ∈ cleanStep rooted out c, NoSep x := by
  unfold cleanStep
  split
  · exact h
  · split
    · cases out with
      | nil =>
        cases rooted
        · intro x hx
          simp only [Bool.false_eq_true, if_false, List.mem_singleton] at hx
          rw [hx]
          exact noSep_dotdot
        · simp
      | cons top rest =>
        simp only
        split
        · intro x hx
          rcases List.mem_cons.1 hx with hx | hx
          · rw [hx]
            exact noSep_dotdot
          · exact h x hx
        · exact fun x hx => h x (List.mem_cons_of_mem _ hx)
    · intro x hx
      rcases List.mem_cons.1 hx with hx | hx
      · rw [hx]
        exact hc
      · exact h x hx

theorem foldl_cleanStep_noSep {rooted : Bool} (l : List String) {out : List String}
    (h : ∀ x ∈ out, NoSep x) (hl : ∀ x ∈ l, NoSep x) :
    ∀ x ∈ l.foldl (cleanStep rooted) out, NoSep x := by
  induction l generalizing out with
  | nil => exact h
  | cons c l ih =>
    exact ih (cleanStep_noSep h (hl c (List.mem_cons_self _ _)))
      (fun x hx => hl x (List.mem_cons_of_mem _ hx))

theorem cleanElements_noSep (rooted : Bool) (s : String) :
    ∀ x ∈ cleanElements rooted (elements s), NoSep x :=
  foldl_cleanStep_noSep _ (by simp) (fun _ hx => noSep_of_mem_elements hx)

theorem ne_empty_of_normal {rooted : Bool} {out : List String} (h : Normal rooted out) :
    ∀ x ∈ out, x ≠ "" := by
  induction out with
  | nil => simp
  | cons top rest ih =>
    intro x hx
    rcases List.mem_cons.1 hx with hx | hx
    · subst hx
      rcases h.2 with hreal | ⟨htop, _, _⟩
      · exact hreal.1
      · rw [htop]
        decide
    · exact ih h.1 x hx

/-- Reading back the output of `Clean` gives that output again. -/
theorem foldl_cleanStep_reverse {rooted : Bool} {out : List String} (h : Normal rooted out) :
    out.reverse.foldl (cleanStep rooted) [] = out := by
  induction out with
  | nil => rfl
  | cons top rest ih =>
    rw [List.reverse_cons, List.foldl_append, ih h.1]
    simp only [List.foldl_cons, List.foldl_nil]
    rcases h.2 with hreal | ⟨htop, hr, hall⟩
    · exact cleanStep_of_real hreal rooted rest
    · subst htop
      subst hr
      cases rest with
      | nil => simp [cleanStep]
      | cons t rest' =>
        have : t = ".." := hall t (List.mem_cons_self _ _)
        subst this
        simp [cleanStep]

theorem isAbs_mk_cons (cs : List Char) : IsAbs (String.mk ('/' :: cs)) = true := by
  simp [IsAbs]

theorem elements_mk_cons_sep (cs : List Char) :
    elements (String.mk ('/' :: cs)) = "" :: elements (String.mk cs) := by
  simp only [elements, splitSep_cons_sep, List.map_cons]

theorem cleanElements_cons_empty (rooted : Bool) (l : List String) :
    cleanElements rooted ("" :: l) = cleanElements rooted l := by
  simp [cleanElements, cleanStep]

theorem isAbs_unsplit_of_head {x : String} {l : List String} (hx : x ≠ "") (hs : NoSep x) :
    IsAbs (unsplit (x :: l)) = false := by
  have hd := data_ne_nil hx
  cases hxd : x.data with
  | nil => exact absurd hxd hd
  | cons c cs =>
    have hc : c ≠ '/' := by
      intro hc
      apply hs
      rw [hxd, hc]
      exact List.mem_cons_self _ _
    cases l with
    | nil => simp [unsplit, joinSep, IsAbs, hxd, hc]
    | cons y rest => simp [unsplit, joinSep, IsAbs, hxd, hc]

theorem unsplit_ne_empty {x : String} {l : List String} (hx : x ≠ "") :
    unsplit (x :: l) ≠ "" := by
  have hd := data_ne_nil hx
  intro h
  have h' := congrArg String.data h
  cases l with
  | nil => exact hd (by simpa [unsplit, joinSep] using h')
  | cons y rest => simp [unsplit, joinSep] at h'

/-- The string `Clean` returns for a normal output is not empty, is rooted as
asked, and is read back as that output. -/
theorem render_spec {rooted : Bool} {out : List String} (h : Normal rooted out)
    (hs : ∀ x ∈ out, NoSep x) :
    render rooted out ≠ "" ∧ IsAbs (render rooted out) = rooted ∧
      cleanElements rooted (elements (render rooted out)) = out := by
  cases rooted with
  | true =>
    simp only [render, if_true]
    refine ⟨?_, isAbs_mk_cons _, ?_⟩
    · intro hc
      have := congrArg String.data hc
      simp at this
    · rw [elements_mk_cons_sep, cleanElements_cons_empty]
      cases hout : out with
      | nil => decide
      | cons top rest =>
        rw [← hout]
        have : String.mk (unsplit out.reverse).data = unsplit out.reverse := rfl
        rw [this, elements_unsplit (by simp [hout]) (fun x hx => hs x (List.mem_reverse.1 hx))]
        exact foldl_cleanStep_reverse h
  | false =>
    cases hout : out with
    | nil => decide
    | cons top rest =>
      simp only [render, Bool.false_eq_true, if_false]
      rw [← hout]
      have hne : out.reverse ≠ [] := by simp [hout]
      obtain ⟨x, l, hxl⟩ := List.exists_cons_of_ne_nil hne
      have hxmem : x ∈ out := by
        apply List.mem_reverse.1
        rw [hxl]
        exact List.mem_cons_self _ _
      refine ⟨?_, ?_, ?_⟩
      · rw [hxl]
        exact unsplit_ne_empty (ne_empty_of_normal h x hxmem)
      · rw [hxl]
        exact isAbs_unsplit_of_head (ne_empty_of_normal h x hxmem) (hs x hxmem)
      · rw [elements_unsplit hne (fun x hx => hs x (List.mem_reverse.1 hx))]
        exact foldl_cleanStep_reverse h

theorem Clean_spec {s : String} (hs : s ≠ "") :
    Clean s ≠ "" ∧ IsAbs (Clean s) = IsAbs s ∧
      cleanElements (IsAbs s) (elements (Clean s)) = cleanElements (IsAbs s) (elements s) := by
  rw [Clean_eq_render, if_neg hs]
  exact render_spec (cleanElements_normal _ _) (cleanElements_noSep _ _)

theorem Clean_ne_empty (s : String) : Clean s ≠ "" := by
  by_cases hs : s = ""
  · subst hs
    decide
  · exact (Clean_spec hs).1

theorem isAbs_Clean (s : String) : IsAbs (Clean s) = IsAbs s := by
  by_cases hs : s = ""
  · subst hs
    decide
  · exact (Clean_spec hs).2.1

/-- Two paths with the same output elements have the same `Clean`. -/
theorem Clean_congr {s t : String} (hs : s ≠ "") (ht : t ≠ "") (hr : IsAbs s = IsAbs t)
    (he : cleanElements (IsAbs s) (elements s) = cleanElements (IsAbs t) (elements t)) :
    Clean s = Clean t := by
  rw [Clean_eq_render, Clean_eq_render, if_neg hs, if_neg ht, he, hr]

/-- `Clean` is idempotent. -/
theorem Clean_Clean (s : String) : Clean (Clean s) = Clean s := by
  by_cases hs : s = ""
  · subst hs
    decide
  · obtain ⟨h1, h2, h3⟩ := Clean_spec hs
    rw [Clean_congr h1 hs h2 (by rw [h2]; exact h3)]

theorem isAbs_unsplit_pair {a : String} (ha : a ≠ "") (b : String) :
    IsAbs (unsplit [a, b]) = IsAbs a := by
  have hd := data_ne_nil ha
  cases had : a.data with
  | nil => exact absurd had hd
  | cons c cs => simp [unsplit, joinSep, IsAbs, had]

theorem unsplit_pair_ne_empty (a b : String) : unsplit [a, b] ≠ "" := by
  intro h
  have h' := congrArg String.data h
  simp [unsplit, joinSep] at h'

/-- Cleaning the first of two joined paths beforehand changes nothing. -/
theorem Clean_unsplit_Clean {a : String} (ha : a ≠ "") (b : String) :
    Clean (unsplit [Clean a, b]) = Clean (unsplit [a, b]) := by
  obtain ⟨h1, h2, h3⟩ := Clean_spec ha
  apply Clean_congr (unsplit_pair_ne_empty _ _) (unsplit_pair_ne_empty _ _)
  · rw [isAbs_unsplit_pair h1, isAbs_unsplit_pair ha, h2]
  · rw [isAbs_unsplit_pair h1, isAbs_unsplit_pair ha, h2, elements_unsplit_pair,
      elements_unsplit_pair]
    simp only [cleanElements, List.foldl_append] at h3 ⊢
    rw [h3]

end filepath

namespace filepath

/-! ## `Join` and `Abs` -/

theorem Join_cons_of_ne {a : String} (ha : a ≠ "") (l : List String) :
    Join (a :: l) = Clean (unsplit (a :: l)) := by
  simp [Join, List.dropWhile, ha]

theorem Join_empty_cons (l : List String) : Join ("" :: l) = Join l := by
  simp [Join, List.dropWhile]

theorem isAbs_Join_cons {a : String} (ha : IsAbs a = true) (b : String) :
    IsAbs (Join [a, b]) = true := by
  have hne : a ≠ "" := by
    intro h
    subst h
    simp [IsAbs] at ha
  rw [Join_cons_of_ne hne, isAbs_Clean, isAbs_unsplit_pair hne, ha]

theorem Join_ne_empty {a : String} (ha : a ≠ "") (l : List String) : Join (a :: l) ≠ "" := by
  rw [Join_cons_of_ne ha]
  exact Clean_ne_empty _

theorem Getwd_isAbs {fs : FS} {wd : String} (h : os.Getwd fs = Except.ok wd) :
    IsAbs wd = true := by
  unfold os.Getwd at h
  split at h
  · simp at h
  · split at h
    · simp only [Except.ok.injEq] at h
      subst h
      exact isAbs_mk_cons _
    · simp at h

theorem Abs_of_isAbs (fs : FS) {path : String} (h : IsAbs path = true) :
    Abs fs path = Except.ok (Clean path) := by
  simp [Abs, h]

theorem Abs_isAbs {fs : FS} {path a : String} (h : Abs fs path = Except.ok a) :
    IsAbs a = true := by
  unfold Abs at h
  split at h
  · rename_i hp
    simp only [Except.ok.injEq] at h
    subst h
    rw [isAbs_Clean, hp]
  · split at h
    · simp at h
    · rename_i wd hwd
      simp only [Except.ok.injEq] at h
      subst h
      exact isAbs_Join_cons (Getwd_isAbs hwd) _

/-- The result of `Abs` is clean. -/
theorem Abs_Clean {fs : FS} {path a : String} (h : Abs fs path = Except.ok a) :
    Clean a = a := by
  unfold Abs at h
  split at h
  · simp only [Except.ok.injEq] at h
    subst h
    exact Clean_Clean _
  · split at h
    · simp at h
    · rename_i wd hwd
      simp only [Except.ok.injEq] at h
      subst h
      have hne : wd ≠ "" := by
        intro h
        have := Getwd_isAbs hwd
        subst h
        simp [IsAbs] at this
      rw [Join_cons_of_ne hne]
      exact Clean_Clean _

end filepath

/-! ## The link test -/

/-- `symlinkMatches` when the link can be read: the two absolute paths are
computed and their cleaned forms compared. -/
theorem symlinkMatches_of_Readlink {fs : FS} {targetPath v : String} (sourcePath : String)
    (h : os.Readlink fs targetPath = Except.ok v) :
    symlinkMatches fs targetPath sourcePath =
      match Abs fs (if IsAbs v = true then v else Join [Dir targetPath, v]) with
      | Except.error e => (false, some (Error.sys e))
      | Except.ok a =>
        match Abs fs sourcePath with
        | Except.error e => (false, some (Error.sys e))
        | Except.ok b => (decide (Clean a = Clean b), none) := by
  unfold symlinkMatches
  rw [h]
  cases hv : IsAbs v <;>
    simp only [hv, Bool.not_false, Bool.not_true, if_true, if_false, Bool.false_eq_true]

/-- C10: when the target is a symbolic link of value `v`, `symlinkMatches`
reports a match exactly when the absolute form of `v` (of `v` joined onto the
directory of the target when `v` is relative) and the absolute form of the source
have the same cleaned form; the file system matters only through the value of
the link and the working directory; a link whose value is the absolute path of
the source matches, and so does a relative link that joined onto the directory
of the target gives the absolute path of the source. -/
theorem symlinkMatches_iff (fs : FS) (targetPath v sourcePath : String)
    (hlink : os.Readlink fs targetPath = Except.ok v) :
    ((symlinkMatches fs targetPath sourcePath).1 = true ↔
      ∃ a b, Abs fs (if IsAbs v = true then v else Join [Dir targetPath, v]) = Except.ok a ∧
        Abs fs sourcePath = Except.ok b ∧ Clean a = Clean b) ∧
    (∀ fs₂ : FS, os.Readlink fs₂ targetPath = Except.ok v → os.Getwd fs₂ = os.Getwd fs →
      symlinkMatches fs₂ targetPath sourcePath = symlinkMatches fs targetPath sourcePath) ∧
    (Abs fs sourcePath = Except.ok v →
      symlinkMatches fs targetPath sourcePath = (true, none)) ∧
    (IsAbs v = false → Abs fs sourcePath = Abs fs (Join [Dir targetPath, v]) →
      (∃ a, Abs fs sourcePath = Except.ok a) →
      symlinkMatches fs targetPath sourcePath = (true, none)) := by
  refine ⟨?_, ?_, ?_, ?_⟩
  · rw [symlinkMatches_of_Readlink sourcePath hlink]
    constructor
    · intro h
      split at h
      · simp at h
      · rename_i a ha
        split at h
        · simp at h
        · rename_i b hb
          exact ⟨a, b, ha, hb, by simpa using h⟩
    · rintro ⟨a, b, ha, hb, hab⟩
      rw [ha]
      simp only [hb]
      simpa using hab
  · intro fs₂ h₂ hwd
    rw [symlinkMatches_of_Readlink sourcePath hlink, symlinkMatches_of_Readlink sourcePath h₂]
    simp only [Abs, hwd]
  · intro hsrc
    rw [symlinkMatches_of_Readlink sourcePath hlink]
    have hv : IsAbs v = true := Abs_isAbs hsrc
    simp only [hv, if_true, Abs_of_isAbs fs hv, hsrc, Clean_Clean, decide_True]
  · intro hv heq ⟨a, ha⟩
    rw [symlinkMatches_of_Readlink sourcePath hlink]
    simp only [hv, Bool.false_eq_true, if_false, ← heq, ha, decide_True]

theorem symlinkMatches_iff_witness :
    symlinkMatches fsClassify "/t/good" "/s/pkg/alpha.txt" = (true, none) ∧
    symlinkMatches fsClassify "/t/near" "/s/pkg/alpha.txt" = (true, none) ∧
    ((symlinkMatches fsClassify "/t/bad" "/s/pkg/alpha.txt").1 = true ↔
      ∃ a b, Abs fsClassify (if IsAbs "/elsewhere" = true then "/elsewhere"
          else Join [Dir "/t/bad", "/elsewhere"]) = Except.ok a ∧
        Abs fsClassify "/s/pkg/alpha.txt" = Except.ok b ∧ Clean a = Clean b) :=
  ⟨(symlinkMatches_iff fsClassify "/t/good" "/s/pkg/alpha.txt" "/s/pkg/alpha.txt"
      (by decide)).2.2.1 (by decide),
   (symlinkMatches_iff fsClassify "/t/near" "../s/pkg/alpha.txt" "/s/pkg/alpha.txt"
      (by decide)).2.2.2 (by decide) (by decide) ⟨"/s/pkg/alpha.txt", by decide⟩,
   (symlinkMatches_iff fsClassify "/t/bad" "/elsewhere" "/s/pkg/alpha.txt" (by decide)).1⟩

/-! ## Path resolution -/

theorem FS.walk_cons_empty (fs : FS) (follow : Bool) (cur l : List String) :
    fs.walk follow cur ("" :: l) = fs.walk follow cur l := by
  simp [FS.walk]

/-- The last step of a walk, for a name that is looked up. -/
theorem FS.walk_singleton (fs : FS) (follow : Bool) (d : List String) {name : String}
    (hname : Real name) {k : Kind} (hk : fs.kindAt (d ++ [name]) = some k)
    (h : k.IsSymlink = false ∨ follow = false) :
    fs.walk follow d [name] = Walk.done (d ++ [name]) k := by
  have h1 : ¬ (name = "" ∨ name = ".") := fun h => h.elim hname.1 hname.2.1
  rw [FS.walk, if_neg h1, if_neg hname.2.2, hk]
  cases k with
  | file s => simp
  | dir => simp [FS.walk]
  | symlink v =>
    rcases h with h | h
    · simp [Kind.IsSymlink] at h
    · simp [h]

theorem FS.walk_append_done (fs : FS) (follow : Bool) (name : String) :
    ∀ (l cur d : List String), fs.walk true cur l = Walk.done d Kind.dir →
      fs.walk follow cur (l ++ [name]) = fs.walk follow d [name] := by
  intro l
  induction l with
  | nil =>
    intro cur d h
    simp only [FS.walk, Walk.done.injEq, and_true] at h
    subst h
    rfl
  | cons c rest ih =>
    intro cur d h
    rw [List.cons_append]
    rw [FS.walk] at h
    rw [FS.walk]
    split
    · rename_i hc
      rw [if_pos hc] at h
      exact ih _ _ h
    · rename_i hc
      rw [if_neg hc] at h
      split
      · rename_i hdd
        rw [if_pos hdd] at h
        exact ih _ _ h
      · rename_i hdd
        rw [if_neg hdd] at h
        cases hk : fs.kindAt (cur ++ [c]) with
        | none => simp [hk] at h
        | some k =>
          rw [hk] at h
          cases k with
          | dir => exact ih _ _ h
          | file s =>
            simp only at h
            split at h <;> simp at h
          | symlink v =>
            simp only [Bool.true_eq_false, and_false, if_false] at h
            split at h <;> simp at h

theorem FS.walk_append_link (fs : FS) (follow : Bool) (name : String) :
    ∀ (l cur cur1 l1 : List String), fs.walk true cur l = Walk.link cur1 l1 →
      fs.walk follow cur (l ++ [name]) = Walk.link cur1 (l1 ++ [name]) := by
  intro l
  induction l with
  | nil =>
    intro cur cur1 l1 h
    simp [FS.walk] at h
  | cons c rest ih =>
    intro cur cur1 l1 h
    rw [List.cons_append]
    rw [FS.walk] at h
    rw [FS.walk]
    split
    · rename_i hc
      rw [if_pos hc] at h
      exact ih _ _ _ h
    · rename_i hc
      rw [if_neg hc] at h
      split
      · rename_i hdd
        rw [if_pos hdd] at h
        exact ih _ _ _ h
      · rename_i hdd
        rw [if_neg hdd] at h
        cases hk : fs.kindAt (cur ++ [c]) with
        | none => simp [hk] at h
        | some k =>
          rw [hk] at h
          cases k with
          | dir => exact ih _ _ _ h
          | file s =>
            simp only at h
            split at h <;> simp at h
          | symlink v =>
            simp only [Bool.true_eq_false, and_false, if_false] at h
            simp only [List.append_eq_nil, List.cons_ne_self, and_false, false_and, if_false]
            split at h
            · rename_i hv
              simp only [Walk.link.injEq] at h
              rw [if_pos hv, ← h.1, ← h.2, List.append_assoc]
            · rename_i hv
              simp only [Walk.link.injEq] at h
              rw [if_neg hv, ← h.1, ← h.2, List.append_assoc]

/-- Resolving a path that denotes a directory, then one more name in it. -/
theorem FS.resolveFrom_append (fs : FS) (follow : Bool) {name : String} (hname : Real name) :
    ∀ (budget : Nat) (cur l d : List String) (k : Kind),
      fs.resolveFrom true budget cur l = Except.ok (d, Kind.dir) →
      fs.kindAt (d ++ [name]) = some k → (k.IsSymlink = false ∨ follow = false) →
      fs.resolveFrom follow budget cur (l ++ [name]) = Except.ok (d ++ [name], k) := by
  intro budget
  induction budget with
  | zero =>
    intro cur l d k h
    simp [FS.resolveFrom] at h
  | succ budget ih =>
    intro cur l d k h hk hf
    rw [FS.resolveFrom] at h
    rw [FS.resolveFrom]
    cases hw : fs.walk true cur l with
    | done p k1 =>
      rw [hw] at h
      simp only [Except.ok.injEq, Prod.mk.injEq] at h
      obtain ⟨rfl, rfl⟩ := h
      rw [FS.walk_append_done fs follow name l cur p hw, FS.walk_singleton fs follow p hname hk hf]
    | fail e =>
      rw [hw] at h
      simp at h
    | link cur1 l1 =>
      rw [hw] at h
      simp only at h
      rw [FS.walk_append_link fs follow name l cur cur1 l1 hw]
      exact ih cur1 l1 d k h hk hf

namespace filepath

/-! ## Clean rooted paths -/

theorem ne_empty_of_isAbs {s : String} (h : IsAbs s = true) : s ≠ "" := by
  intro hs
  subst hs
  simp [IsAbs] at h

/-- A clean rooted path is the string of its output elements. -/
theorem eq_render_of_Clean {root : String} (habs : IsAbs root = true) (hclean : Clean root = root) :
    root = render true (cleanElements true (elements root)) := by
  have h := Clean_eq_render root
  rw [if_neg (ne_empty_of_isAbs habs), habs, hclean] at h
  exact h

theorem elements_render_true {out : List String} (hs : ∀ x ∈ out, NoSep x) :
    elements (render true out) = "" :: (if out = [] then [""] else out.reverse) := by
  simp only [render, if_true]
  rw [elements_mk_cons_sep]
  have : String.mk (unsplit out.reverse).data = unsplit out.reverse := rfl
  rw [this]
  by_cases hout : out = []
  · subst hout
    rfl
  · rw [if_neg hout, elements_unsplit (by simpa using hout)
      (fun x hx => hs x (List.mem_reverse.1 hx))]

theorem cleanElements_append_real (rooted : Bool) (l : List String) {name : String}
    (hname : Real name) :
    cleanElements rooted (l ++ [name]) = name :: cleanElements rooted l := by
  simp only [cleanElements, List.foldl_append, List.foldl_cons, List.foldl_nil]
  exact cleanStep_of_real hname _ _

/-- Joining a name onto a clean rooted path appends it to the output elements. -/
theorem Join_child {root name : String} (habs : IsAbs root = true) (hname : validName name = true) :
    Join [root, name] = render true (name :: cleanElements true (elements root)) := by
  have hne := ne_empty_of_isAbs habs
  rw [Join_cons_of_ne hne, Clean_eq_render, if_neg (unsplit_pair_ne_empty _ _),
    isAbs_unsplit_pair hne, habs, elements_unsplit_pair, elements_of_noSep (validName_noSep hname),
    cleanElements_append_real _ _ (real_of_validName hname)]

theorem Clean_Join_cons {a : String} (ha : a ≠ "") (l : List String) :
    Clean (Join (a :: l)) = Join (a :: l) := by
  rw [Join_cons_of_ne ha]
  exact Clean_Clean _

end filepath

/-- Resolution of a clean rooted path walks its output elements from the root. -/
theorem FS.resolve_render (fs : FS) (follow : Bool) {out : List String}
    (hs : ∀ x ∈ out, NoSep x) :
    fs.resolve follow (render true out) =
      fs.resolveFrom follow (maxSymlinks + 1) [] out.reverse := by
  have hne : render true out ≠ "" := by
    intro h
    have := congrArg String.data h
    simp [render] at this
  have habs : IsAbs (render true out) = true := by simp [render, isAbs_mk_cons]
  rw [FS.resolve, if_neg hne, FS.resolveElems, habs, if_pos rfl, elements_render_true hs]
  by_cases hout : out = []
  · subst hout
    simp [FS.resolveFrom, FS.walk]
  · rw [if_neg hout]
    simp only [FS.resolveFrom, FS.walk_cons_empty]

/-- The entry `name` of the directory a clean rooted path denotes is what the
path joined with `name` denotes. -/
theorem FS.resolve_Join_child (fs : FS) (follow : Bool) {root name : String}
    {d : List String} {k : Kind}
    (habs : IsAbs root = true) (hclean : Clean root = root) (hname : validName name = true)
    (hres : fs.resolve true root = Except.ok (d, Kind.dir))
    (hk : fs.kindAt (d ++ [name]) = some k) (hf : k.IsSymlink = false ∨ follow = false) :
    fs.resolve follow (Join [root, name]) = Except.ok (d ++ [name], k) := by
  have hs := cleanElements_noSep true root
  rw [eq_render_of_Clean habs hclean, FS.resolve_render fs true hs] at hres
  rw [Join_child habs hname, FS.resolve_render fs follow, List.reverse_cons]
  · exact FS.resolveFrom_append fs follow (real_of_validName hname) _ _ _ _ _ hres hk hf
  · intro x hx
    rcases List.mem_cons.1 hx with hx | hx
    · rw [hx]
      exact validName_noSep hname
    · exact hs x hx

/-- What `os.ReadDir` returns are the entries of the directory the path denotes. -/
theorem ReadDir_ok {fs : FS} {path : String} {es : List DirEntry}
    (h : os.ReadDir fs path = Except.ok es) :
    ∃ d, fs.resolve true path = Except.ok (d, Kind.dir) ∧ es = fs.entries d := by
  unfold os.ReadDir at h
  split at h
  · rename_i p hp
    simp only [Except.ok.injEq] at h
    exact ⟨p, hp, h.symm⟩
  · simp at h
  · simp at h

/-- An entry that `os.ReadDir` returns for a clean rooted path: `os.Lstat` of
the joined path gives its type, and for a directory so does `os.Stat`. -/
theorem Lstat_Join_entry {fs : FS} {root : String} {es : List DirEntry} {e : DirEntry}
    (habs : IsAbs root = true) (hclean : Clean root = root)
    (h : os.ReadDir fs root = Except.ok es) (he : e ∈ es) :
    os.Lstat fs (Join [root, e.Name]) = Except.ok e.Typ := by
  obtain ⟨d, hd, rfl⟩ := ReadDir_ok h
  obtain ⟨hv, hk⟩ := entries_valid he
  simp [os.Lstat, FS.resolve_Join_child fs false habs hclean hv hd hk (Or.inr rfl)]

/-! ## The paths built by the walk -/

namespace filepath

theorem unsplit_unsplit_pair (x n : String) (l : List String) :
    unsplit (unsplit [x, n] :: l) = unsplit (x :: n :: l) := by
  cases l with
  | nil => rfl
  | cons y rest =>
    simp only [unsplit, List.map_cons, joinSep_cons_cons]
    simp [joinSep, List.append_assoc]

theorem unsplit_cons_cons_unsplit (a p : String) {names : List String} (h : names ≠ []) :
    unsplit [a, p, unsplit names] = unsplit (a :: p :: names) := by
  have := unsplit_append (l := [a, p]) (m := names) (by simp) h
  simp only [List.cons_append, List.nil_append] at this
  rw [this]
  simp only [unsplit, List.map_cons, List.map_nil, joinSep_cons_cons]
  simp [joinSep, List.append_assoc]

theorem foldl_cleanStep_real (rooted : Bool) {l : List String} (h : ∀ x ∈ l, Real x)
    (out : List String) : l.foldl (cleanStep rooted) out = l.reverse ++ out := by
  induction l generalizing out with
  | nil => rfl
  | cons c l ih =>
    rw [List.foldl_cons, cleanStep_of_real (h c (List.mem_cons_self _ _)),
      ih (fun x hx => h x (List.mem_cons_of_mem _ hx))]
    simp

/-- A relative path made of names of directory entries is clean. -/
theorem Clean_unsplit_names {names : List String} (hne : names ≠ [])
    (hv : ∀ n ∈ names, validName n = true) : Clean (unsplit names) = unsplit names := by
  obtain ⟨n, ns, rfl⟩ := List.exists_cons_of_ne_nil hne
  have hn := hv n (List.mem_cons_self _ _)
  have hne' : unsplit (n :: ns) ≠ "" := unsplit_ne_empty (validName_ne hn).1
  have hrel : IsAbs (unsplit (n :: ns)) = false :=
    isAbs_unsplit_of_head (validName_ne hn).1 (validName_noSep hn)
  rw [Clean_eq_render, if_neg hne', hrel,
    elements_unsplit hne (fun x hx => validName_noSep (hv x hx))]
  simp only [cleanElements]
  rw [foldl_cleanStep_real false (fun x hx => real_of_validName (hv x hx))]
  simp only [render, List.append_nil, Bool.false_eq_true, if_false, List.reverse_cons,
    List.reverse_append, List.reverse_nil, List.nil_append, List.reverse_reverse,
    List.singleton_append]
  split
  · rename_i h
    simp at h
  · rfl

end filepath

theorem joinNames_append (root : String) (names : List String) (n : String) :
    joinNames root (names ++ [n]) = Join [joinNames root names, n] := by
  simp [joinNames, List.foldl_append]

theorem joinNames_Clean {x : String} (hx : x ≠ "") (names : List String) :
    joinNames (Clean x) names = Clean (unsplit (x :: names)) := by
  induction names generalizing x with
  | nil => rfl
  | cons n ns ih =>
    have : joinNames (Clean x) (n :: ns) = joinNames (Join [Clean x, n]) ns := rfl
    rw [this, Join_cons_of_ne (Clean_ne_empty x), Clean_unsplit_Clean hx,
      ih (unsplit_pair_ne_empty x n), unsplit_unsplit_pair]

/-- The relative path the walk builds from names of directory entries. -/
theorem joinNames_empty {names : List String} (hne : names ≠ [])
    (hv : ∀ n ∈ names, validName n = true) : joinNames "" names = unsplit names := by
  obtain ⟨n, ns, rfl⟩ := List.exists_cons_of_ne_nil hne
  have hn := (validName_ne (hv n (List.mem_cons_self _ _))).1
  have : joinNames "" (n :: ns) = joinNames (Join ["", n]) ns := rfl
  rw [this, Join_empty_cons, Join_cons_of_ne hn, unsplit_singleton, joinNames_Clean hn,
    Clean_unsplit_names hne hv]

/-- The source path the walk builds below a package. -/
theorem joinNames_package {absDir : String} (habs : absDir ≠ "") (pkg : String)
    {names : List String} (hne : names ≠ []) :
    joinNames (Join [absDir, pkg]) names = Join [absDir, pkg, unsplit names] := by
  rw [Join_cons_of_ne habs, joinNames_Clean (unsplit_pair_ne_empty _ _), unsplit_unsplit_pair,
    Join_cons_of_ne habs, unsplit_cons_cons_unsplit _ _ hne]

/-! ## From sources to targets -/

/-- What holds of the operation and of the conflicts a leaf can add, and of the
entries recorded so far, holds of the entries recorded after `handleLeaf`. -/
theorem handleLeaf_entries (fs : FS) (src rel targetRoot : String) (s : planState)
    (A : Operation → Prop) (B : Conflict → Prop)
    (hA : A ⟨src, Join [targetRoot, rel]⟩) (hB : ∀ reason, B ⟨Join [targetRoot, rel], reason⟩)
    (hs : (∀ op ∈ s.result.Operations, A op) ∧ (∀ c ∈ s.result.Conflicts, B c)) :
    (∀ op ∈ (handleLeaf fs src rel targetRoot s).1.result.Operations, A op) ∧
    (∀ c ∈ (handleLeaf fs src rel targetRoot s).1.result.Conflicts, B c) := by
  rcases handleLeaf_shape fs src rel targetRoot s with
    ⟨_, h⟩ | ⟨_, e, h⟩ | ⟨_, reason, _, h⟩ | ⟨_, h⟩
  · rw [h]
    refine ⟨hs.1, fun c hc => ?_⟩
    rcases List.mem_append.1 hc with hc | hc
    · exact hs.2 c hc
    · simp only [List.mem_singleton] at hc
      rw [hc]
      exact hB _
  · rw [h]
    exact hs
  · rw [h]
    refine ⟨hs.1, fun c hc => ?_⟩
    rcases List.mem_append.1 hc with hc | hc
    · exact hs.2 c hc
    · simp only [List.mem_singleton] at hc
      rw [hc]
      exact hB _
  · rw [h]
    refine ⟨fun op hop => ?_, hs.2⟩
    rcases List.mem_append.1 hop with hop | hop
    · exact hs.1 op hop
    · simp only [List.mem_singleton] at hop
      rw [hop]
      exact hA

/-- The directories the walk reaches below the packages `pkgs`: clean rooted
paths built from names of directory entries, with the relative path built from
the same names. -/
theorem walked_step {fs : FS} {absDir : String} {pkgs : List String} {root rel : String}
    {es : List DirEntry} {e : DirEntry}
    (hq : IsAbs root = true ∧ Clean root = root ∧ ∃ pkg ∈ pkgs, ∃ names : List String,
      (∀ n ∈ names, validName n = true) ∧ root = joinNames (Join [absDir, pkg]) names ∧
      rel = joinNames "" names)
    (hes : os.ReadDir fs root = Except.ok es) (he : e ∈ es) :
    IsAbs (Join [root, e.Name]) = true ∧ Clean (Join [root, e.Name]) = Join [root, e.Name] ∧
      ∃ pkg ∈ pkgs, ∃ names : List String,
        (∀ n ∈ names, validName n = true) ∧
        Join [root, e.Name] = joinNames (Join [absDir, pkg]) names ∧
        Join [rel, e.Name] = joinNames "" names ∧ names ≠ [] := by
  obtain ⟨habs, _, pkg, hpkg, names, hv, hroot, hrel⟩ := hq
  refine ⟨isAbs_Join_cons habs _, Clean_Join_cons (ne_empty_of_isAbs habs) _, pkg, hpkg,
    names ++ [e.Name], ?_, ?_, ?_, by simp⟩
  · intro n hn
    rcases List.mem_append.1 hn with hn | hn
    · exact hv n hn
    · simp only [List.mem_singleton] at hn
      rw [hn]
      exact ReadDir_valid hes he
  · rw [joinNames_append, hroot]
  · rw [joinNames_append, hrel]

/-- The entries of a plan come from leaves of the requested packages. -/
theorem BuildPlan_leaves {fs : FS} {fuel : Nat} {opts : Options} {res : PlanResult}
    (h : BuildPlan fs fuel opts = some (res, none)) :
    ∃ absDir absTarget, Abs fs opts.Dir = Except.ok absDir ∧
      Abs fs opts.Target = Except.ok absTarget ∧
      (∀ op ∈ res.Operations, ∃ rel, IsLeafPath fs absDir opts.Packages op.Source rel ∧
        op.Target = Join [absTarget, rel] ∧ IsAbs op.Source = true ∧ IsAbs op.Target = true) ∧
      (∀ c ∈ res.Conflicts, ∃ source rel, IsLeafPath fs absDir opts.Packages source rel ∧
        c.Target = Join [absTarget, rel] ∧ IsAbs c.Target = true) := by
  obtain ⟨absDir, absTarget, hdir, htarget, _, _, hp⟩ := BuildPlan_ok h
  refine ⟨absDir, absTarget, hdir, htarget, ?_⟩
  have hdabs : IsAbs absDir = true := Abs_isAbs hdir
  have htabs : IsAbs absTarget = true := Abs_isAbs htarget
  have hdne : absDir ≠ "" := ne_empty_of_isAbs hdabs
  obtain ⟨s, hres, hs⟩ := planPackages_rel fs absTarget
    (fun root rel => IsAbs root = true ∧ Clean root = root ∧
      ∃ pkg ∈ sortStrings opts.Packages, ∃ names : List String,
        (∀ n ∈ names, validName n = true) ∧ root = joinNames (Join [absDir, pkg]) names ∧
        rel = joinNames "" names)
    (fun a b =>
      ((∀ op ∈ a.result.Operations, ∃ rel, IsLeafPath fs absDir opts.Packages op.Source rel ∧
          op.Target = Join [absTarget, rel] ∧ IsAbs op.Source = true ∧
          IsAbs op.Target = true) ∧
        (∀ c ∈ a.result.Conflicts, ∃ source rel,
          IsLeafPath fs absDir opts.Packages source rel ∧
          c.Target = Join [absTarget, rel] ∧ IsAbs c.Target = true)) →
      ((∀ op ∈ b.result.Operations, ∃ rel, IsLeafPath fs absDir opts.Packages op.Source rel ∧
          op.Target = Join [absTarget, rel] ∧ IsAbs op.Source = true ∧
          IsAbs op.Target = true) ∧
        (∀ c ∈ b.result.Conflicts, ∃ source rel,
          IsLeafPath fs absDir opts.Packages source rel ∧
          c.Target = Join [absTarget, rel] ∧ IsAbs c.Target = true)))
    (fun _ h => h) (fun _ _ _ hab hbc h => hbc (hab h))
    (fun root rel es e hq hes he _ => by
      obtain ⟨h1, h2, pkg, hpkg, names, h3, h4, h5, _⟩ := walked_step hq hes he
      exact ⟨h1, h2, pkg, hpkg, names, h3, h4, h5⟩)
    (fun root rel es e s hq hes he hk hs => by
      obtain ⟨h1, _, pkg, hpkg, names, hv, hsrc, hrel, hne⟩ := walked_step hq hes he
      have hleaf : IsLeafPath fs absDir opts.Packages (Join [root, e.Name]) (unsplit names) := by
        refine ⟨pkg, (sortStrings_perm _).mem_iff.1 hpkg, names, hne, hv, rfl, ?_,
          e.Typ, Lstat_Join_entry hq.1 hq.2.1 hes he, hk⟩
        rw [hsrc, joinNames_package hdne pkg hne]
      rw [joinNames_empty hne hv] at hrel
      refine handleLeaf_entries fs _ _ _ s _ _ ?_ ?_ hs
      · exact ⟨unsplit names, hleaf, by rw [hrel], h1, by
          simpa using isAbs_Join_cons htabs _⟩
      · intro reason
        exact ⟨Join [root, e.Name], unsplit names, hleaf, by rw [hrel], by
          simpa using isAbs_Join_cons htabs _⟩)
    fuel absDir (sortStrings opts.Packages)
    (fun pkg hpkg _ => ⟨isAbs_Join_cons hdabs _, Clean_Join_cons hdne _, pkg, hpkg, [],
      by simp, rfl, rfl⟩) _ res hp
  rw [hres]
  exact hs ⟨by simp, by simp⟩

/-- C8: every operation of a plan returned by `BuildPlan` has as source a leaf
of a requested package, `abs(Dir)` joined with the package and the relative path
of the leaf, and as target `abs(Target)` joined with that relative path; the
target of every conflict is `abs(Target)` joined with the relative path of such
a leaf; sources and targets are absolute. -/
theorem BuildPlan_mapping (fs : FS) (fuel : Nat) (opts : Options) (res : PlanResult)
    (h : BuildPlan fs fuel opts = some (res, none)) :
    ∃ absDir absTarget, Abs fs opts.Dir = Except.ok absDir ∧
      Abs fs opts.Target = Except.ok absTarget ∧
      (∀ op ∈ res.Operations, ∃ rel, IsLeafPath fs absDir opts.Packages op.Source rel ∧
        op.Target = Join [absTarget, rel] ∧ IsAbs op.Source = true ∧ IsAbs op.Target = true) ∧
      (∀ c ∈ res.Conflicts, ∃ source rel, IsLeafPath fs absDir opts.Packages source rel ∧
        c.Target = Join [absTarget, rel] ∧ IsAbs c.Target = true) :=
  BuildPlan_leaves h

theorem BuildPlan_mapping_witness :
    ∃ absDir absTarget, Abs fsMapping "s" = Except.ok absDir ∧
      Abs fsMapping "tmp/target" = Except.ok absTarget ∧
      (∀ op ∈ ([⟨"/s/pkg-a/alpha.txt", "/tmp/target/alpha.txt"⟩,
          ⟨"/s/pkg-a/dir/bravo.txt", "/tmp/target/dir/bravo.txt"⟩,
          ⟨"/s/pkg-a/zeta.txt", "/tmp/target/zeta.txt"⟩,
          ⟨"/s/pkg-b/echo.txt", "/tmp/target/echo.txt"⟩] : List Operation),
        ∃ rel, IsLeafPath fsMapping absDir ["pkg-b", "pkg-a"] op.Source rel ∧
          op.Target = Join [absTarget, rel] ∧ IsAbs op.Source = true ∧
          IsAbs op.Target = true) ∧
      (∀ c ∈ ([] : List Conflict), ∃ source rel,
        IsLeafPath fsMapping absDir ["pkg-b", "pkg-a"] source rel ∧
        c.Target = Join [absTarget, rel] ∧ IsAbs c.Target = true) :=
  BuildPlan_mapping fsMapping 2 ⟨"s", "tmp/target", ["pkg-b", "pkg-a"]⟩
    ⟨[⟨"/s/pkg-a/alpha.txt", "/tmp/target/alpha.txt"⟩,
      ⟨"/s/pkg-a/dir/bravo.txt", "/tmp/target/dir/bravo.txt"⟩,
      ⟨"/s/pkg-a/zeta.txt", "/tmp/target/zeta.txt"⟩,
      ⟨"/s/pkg-b/echo.txt", "/tmp/target/echo.txt"⟩], []⟩ (by decide)

/-! ## The order of the operations -/

theorem strLt_of_strLe_of_ne {a b : String} (h : strLe a b) (hne : a ≠ b) : strLt a b :=
  lt_of_le_of_ne (α := List Char) h (fun hd => hne (String.ext hd))

theorem entries_names_pairwise (fs : FS) (d : List String) :
    (fs.entries d).Pairwise (fun a b => a.Name ≠ b.Name) := by
  unfold FS.entries
  refine List.Pairwise.filterMap _ ?_ (List.nodup_dedup _)
  intro a a' hne b hb b' hb'
  simp only [Option.mem_def, Option.map_eq_some'] at hb hb'
  obtain ⟨_, _, rfl⟩ := hb
  obtain ⟨_, _, rfl⟩ := hb'
  exact hne

/-- The entries `walkDir` loops over are in strictly ascending order of their names. -/
theorem sortEntries_pairwise {fs : FS} {path : String} {es : List DirEntry}
    (h : os.ReadDir fs path = Except.ok es) :
    (sortEntries es).Pairwise (fun a b => strLt a.Name b.Name) := by
  obtain ⟨d, _, rfl⟩ := ReadDir_ok h
  have hne : (sortEntries (fs.entries d)).Pairwise (fun a b => a.Name ≠ b.Name) :=
    ((sortEntries_perm _).pairwise_iff (fun {a b} (hab : a.Name ≠ b.Name) => hab.symm)).2
      (entries_names_pairwise fs d)
  have hle : (sortEntries (fs.entries d)).Pairwise (fun a b => strLe a.Name b.Name) := by
    haveI : IsTotal DirEntry (fun a b => strLe a.Name b.Name) :=
      ⟨fun a b => strLe.isTotal.total a.Name b.Name⟩
    haveI : IsTrans DirEntry (fun a b => strLe a.Name b.Name) :=
      ⟨fun a b c hab hbc => strLe.isTrans.trans a.Name b.Name c.Name hab hbc⟩
    exact List.sorted_insertionSort _ _
  exact (hle.and hne).imp (fun h => strLt_of_strLe_of_ne h.1 h.2)

/-- A leaf adds at most the operation from its source to its target. -/
theorem handleLeaf_operations {fs : FS} {src rel targetRoot : String} {s s1 : planState}
    {e : Option Error} (h : handleLeaf fs src rel targetRoot s = (s1, e)) :
    s1.result.Operations = s.result.Operations ∨
      s1.result.Operations = s.result.Operations ++ [⟨src, Join [targetRoot, rel]⟩] := by
  rcases handleLeaf_shape fs src rel targetRoot s with
    ⟨_, h'⟩ | ⟨_, e', h'⟩ | ⟨_, reason, _, h'⟩ | ⟨_, h'⟩ <;>
  · rw [h'] at h
    simp only [Prod.mk.injEq] at h
    rw [← h.1]
    simp

/-- The operation `walkDir` records for the leaf reached through `names` below
the package `pkg`. -/
theorem leafOp_eq {absDir absTarget : String} (habs : absDir ≠ "") (pkg : String)
    {names : List String} (hne : names ≠ []) (hv : ∀ n ∈ names, validName n = true) :
    (⟨joinNames (Join [absDir, pkg]) names, Join [absTarget, joinNames "" names]⟩ : Operation) =
      leafOp absDir absTarget pkg names := by
  rw [joinNames_package habs pkg hne, joinNames_empty hne hv]
  rfl

section Order

variable (fs : FS) (absDir absTarget pkg : String)

/-- The operations added by the loop of `walkDir` in the directory reached
through the names `pre`: the leaves come in strictly ascending order of their
names below that directory, compared name by name. -/
theorem walkEntries_order (habs : absDir ≠ "")
    (descend : String → String → planState → Option (planState × Option Error))
    (pre : List String) (hpre : ∀ n ∈ pre, validName n = true) :
    ∀ (es : List DirEntry), es.Pairwise (fun a b => strLt a.Name b.Name) →
      (∀ e ∈ es, validName e.Name = true) →
      (∀ e ∈ es, ∀ s s1,
        descend (joinNames (Join [absDir, pkg]) (pre ++ [e.Name]))
          (joinNames "" (pre ++ [e.Name])) s = some (s1, none) →
        ∃ ls : List (List String),
          s1.result.Operations = s.result.Operations ++
            ls.map (fun t => leafOp absDir absTarget pkg (pre ++ [e.Name] ++ t)) ∧
          ls.Pairwise (List.Lex strLt) ∧ ∀ t ∈ ls, ∀ n ∈ t, validName n = true) →
      ∀ s s1,
        walkEntries fs descend (joinNames (Join [absDir, pkg]) pre) (joinNames "" pre)
          absTarget es s = some (s1, none) →
        ∃ ls : List (List String),
          s1.result.Operations = s.result.Operations ++
            ls.map (fun t => leafOp absDir absTarget pkg (pre ++ t)) ∧
          ls.Pairwise (List.Lex strLt) ∧
          ∀ t ∈ ls, (∃ e ∈ es, ∃ t', t = e.Name :: t') ∧ ∀ n ∈ t, validName n = true := by
  intro es
  induction es with
  | nil =>
    intro _ _ _ s s1 h
    simp only [walkEntries, Option.some.injEq, Prod.mk.injEq, and_true] at h
    subst h
    exact ⟨[], by simp, List.Pairwise.nil, by simp⟩
  | cons e rest ih =>
    intro hsorted hvalid hdesc s s1 h
    have hve : validName e.Name = true := hvalid e (List.mem_cons_self _ _)
    have hpre' : ∀ n ∈ pre ++ [e.Name], validName n = true := by
      intro n hn
      rcases List.mem_append.1 hn with hn | hn
      · exact hpre n hn
      · simp only [List.mem_singleton] at hn
        rw [hn]
        exact hve
    have ih' := ih (List.Pairwise.of_cons hsorted)
      (fun e' he' => hvalid e' (List.mem_cons_of_mem _ he'))
      (fun e' he' => hdesc e' (List.mem_cons_of_mem _ he'))
    -- the entries after `e` have larger names
    have hlater : ∀ e' ∈ rest, strLt e.Name e'.Name := (List.pairwise_cons.1 hsorted).1
    -- what the step for `e` and the steps for the entries after it give together
    have hcombine : ∀ (s0 : planState) (ls0 : List (List String)),
        s0.result.Operations = s.result.Operations ++
          ls0.map (fun t => leafOp absDir absTarget pkg (pre ++ t)) →
        ls0.Pairwise (List.Lex strLt) →
        (∀ t ∈ ls0, (∃ t', t = e.Name :: t') ∧ ∀ n ∈ t, validName n = true) →
        walkEntries fs descend (joinNames (Join [absDir, pkg]) pre) (joinNames "" pre)
          absTarget rest s0 = some (s1, none) →
        ∃ ls : List (List String),
          s1.result.Operations = s.result.Operations ++
            ls.map (fun t => leafOp absDir absTarget pkg (pre ++ t)) ∧
          ls.Pairwise (List.Lex strLt) ∧
          ∀ t ∈ ls, (∃ e' ∈ e :: rest, ∃ t', t = e'.Name :: t') ∧
            ∀ n ∈ t, validName n = true := by
      intro s0 ls0 hops hpw hhead hrest
      obtain ⟨ls1, hops1, hpw1, hhead1⟩ := ih' s0 s1 hrest
      refine ⟨ls0 ++ ls1, ?_, ?_, ?_⟩
      · rw [hops1, hops, List.map_append, List.append_assoc]
      · rw [List.pairwise_append]
        refine ⟨hpw, hpw1, ?_⟩
        intro t ht t1 ht1
        obtain ⟨⟨t', rfl⟩, _⟩ := hhead t ht
        obtain ⟨⟨e1, he1, t1', rfl⟩, _⟩ := hhead1 t1 ht1
        exact List.Lex.rel (hlater e1 he1)
      · intro t ht
        rcases List.mem_append.1 ht with ht | ht
        · obtain ⟨⟨t', ht'⟩, hv⟩ := hhead t ht
          exact ⟨⟨e, List.mem_cons_self _ _, t', ht'⟩, hv⟩
        · obtain ⟨⟨e1, he1, t1', ht1⟩, hv⟩ := hhead1 t ht
          exact ⟨⟨e1, List.mem_cons_of_mem _ he1, t1', ht1⟩, hv⟩
    -- a leaf
    have hleafcase : ∀ s0, handleLeaf fs (Join [joinNames (Join [absDir, pkg]) pre, e.Name])
          (Join [joinNames "" pre, e.Name]) absTarget s = (s0, none) →
        walkEntries fs descend (joinNames (Join [absDir, pkg]) pre) (joinNames "" pre)
          absTarget rest s0 = some (s1, none) →
        ∃ ls : List (List String),
          s1.result.Operations = s.result.Operations ++
            ls.map (fun t => leafOp absDir absTarget pkg (pre ++ t)) ∧
          ls.Pairwise (List.Lex strLt) ∧
          ∀ t ∈ ls, (∃ e' ∈ e :: rest, ∃ t', t = e'.Name :: t') ∧
            ∀ n ∈ t, validName n = true := by
      intro s0 hl hrest
      rcases handleLeaf_operations hl with hops | hops
      · exact hcombine s0 [] (by simpa using hops) List.Pairwise.nil (by simp) hrest
      · refine hcombine s0 [[e.Name]] ?_ (List.pairwise_singleton _ _) ?_ hrest
        · rw [hops, ← joinNames_append, ← joinNames_append,
            leafOp_eq habs pkg (by simp) hpre']
          rfl
        · intro t ht
          simp only [List.mem_singleton] at ht
          subst ht
          exact ⟨⟨[], rfl⟩, by simpa using hve⟩
    unfold walkEntries at h
    split at h
    · split at h
      · simp at h
      · rename_i s0 heq
        exact hleafcase s0 heq h
    · split at h
      · split at h
        · simp at h
        · simp at h
        · rename_i s0 heq
          rw [← joinNames_append, ← joinNames_append] at heq
          obtain ⟨ls, hops, hpw, hv⟩ := hdesc e (List.mem_cons_self _ _) s s0 heq
          refine hcombine s0 (ls.map (fun t => e.Name :: t)) ?_ ?_ ?_ h
          · rw [hops, List.map_map]
            congr 1
            apply List.map_congr_left
            intro t _
            simp
          · exact List.Pairwise.map _ (fun _ _ hab => List.Lex.cons hab) hpw
          · intro t ht
            simp only [List.mem_map] at ht
            obtain ⟨t', ht', rfl⟩ := ht
            refine ⟨⟨t', rfl⟩, ?_⟩
            intro n hn
            rcases List.mem_cons.1 hn with hn | hn
            · rw [hn]
              exact hve
            · exact hv t' ht' n hn
      · split at h
        · simp at h
        · rename_i s0 heq
          exact hleafcase s0 heq h

/-- The operations added by `walkDir` in the directory reached through the
names `pre` below the package `pkg`. -/
theorem walkDir_order (habs : absDir ≠ "") :
    ∀ (fuel : Nat) (pre : List String), (∀ n ∈ pre, validName n = true) → ∀ s s1,
      walkDir fs fuel (joinNames (Join [absDir, pkg]) pre) (joinNames "" pre) absTarget s =
        some (s1, none) →
      ∃ ls : List (List String),
        s1.result.Operations = s.result.Operations ++
          ls.map (fun t => leafOp absDir absTarget pkg (pre ++ t)) ∧
        ls.Pairwise (List.Lex strLt) ∧ ∀ t ∈ ls, t ≠ [] ∧ ∀ n ∈ t, validName n = true := by
  intro fuel
  induction fuel with
  | zero =>
    intro pre _ s s1 h
    simp [walkDir] at h
  | succ fuel ih =>
    intro pre hpre s s1 h
    unfold walkDir at h
    split at h
    · simp at h
    · rename_i es hes
      have hvalid : ∀ e ∈ sortEntries es, validName e.Name = true :=
        fun e he => ReadDir_valid hes (mem_sortEntries.1 he)
      obtain ⟨ls, hops, hpw, hv⟩ := walkEntries_order fs absDir absTarget pkg habs _ pre hpre
        (sortEntries es) (sortEntries_pairwise hes) hvalid
        (fun e he s s1 hd => by
          have hpre' : ∀ n ∈ pre ++ [e.Name], validName n = true := by
            intro n hn
            rcases List.mem_append.1 hn with hn | hn
            · exact hpre n hn
            · simp only [List.mem_singleton] at hn
              rw [hn]
              exact hvalid e he
          obtain ⟨ls, hops, hpw, hv⟩ := ih (pre ++ [e.Name]) hpre' s s1 hd
          exact ⟨ls, hops, hpw, fun t ht => (hv t ht).2⟩) s s1 h
      refine ⟨ls, hops, hpw, fun t ht => ⟨?_, (hv t ht).2⟩⟩
      obtain ⟨⟨_, _, _, rfl⟩, _⟩ := hv t ht
      simp

end Order

/-- The operations added by the loop of `BuildPlan`: one segment for each
package, in the order of the list. -/
theorem planPackages_order (fs : FS) (fuel : Nat) (absDir absTarget : String)
    (habs : absDir ≠ "") :
    ∀ (pkgs : List String) (s : planState) (res : PlanResult),
      planPackages fs fuel absDir absTarget pkgs s = some (res, none) →
      ∃ segs : List (List (List String)), segs.length = pkgs.length ∧
        res.Operations = s.result.Operations ++ segmentOps absDir absTarget pkgs segs ∧
        ∀ seg ∈ segs, seg.Pairwise (List.Lex strLt) ∧
          ∀ t ∈ seg, t ≠ [] ∧ ∀ n ∈ t, validName n = true := by
  intro pkgs
  induction pkgs with
  | nil =>
    intro s res h
    simp only [planPackages, Option.some.injEq, Prod.mk.injEq, and_true] at h
    subst h
    exact ⟨[], rfl, by simp [segmentOps], by simp⟩
  | cons pkg rest ih =>
    intro s res h
    unfold planPackages at h
    split at h
    · simp at h
    · split at h
      · simp at h
      · split at h
        · simp at h
        · simp at h
        · rename_i st1 heq
          obtain ⟨segs, hlen, hops, hsegs⟩ := ih st1 res h
          obtain ⟨ls, hops1, hpw, hv⟩ :=
            walkDir_order fs absDir absTarget pkg habs fuel [] (by simp) s st1 heq
          refine ⟨ls :: segs, by simp [hlen], ?_, ?_⟩
          · rw [hops, hops1]
            simp [segmentOps]
          · intro seg hseg
            rcases List.mem_cons.1 hseg with hseg | hseg
            · rw [hseg]
              exact ⟨hpw, hv⟩
            · exact hsegs seg hseg

/-- C6, as stated, fails: for `fsOrder` the operation for the leaf `a/x` of the
package `p` comes before the operation for its leaf `a-b`, and `a-b` is the
smaller string. -/
theorem operations_string_order_counterexample :
    (BuildPlan fsOrder 2 ⟨"/s", "/t", ["p"]⟩ =
        some (⟨[⟨"/s/p/a/x", "/t/a/x"⟩, ⟨"/s/p/a-b", "/t/a-b"⟩], []⟩, none) ∧
      leafOp "/s" "/t" "p" ["a", "x"] = ⟨"/s/p/a/x", "/t/a/x"⟩ ∧
      leafOp "/s" "/t" "p" ["a-b"] = ⟨"/s/p/a-b", "/t/a-b"⟩ ∧
      unsplit ["a", "x"] = "a/x" ∧ unsplit ["a-b"] = "a-b" ∧ strLt "a-b" "a/x") ∧
    ¬ ∀ (fs : FS) (fuel : Nat) (opts : Options) (res : PlanResult),
        BuildPlan fs fuel opts = some (res, none) →
        ∀ (absDir absTarget pkg : String) (t₁ t₂ : List String) (i j : Nat),
          Abs fs opts.Dir = Except.ok absDir → Abs fs opts.Target = Except.ok absTarget →
          (∀ n ∈ t₁, validName n = true) → (∀ n ∈ t₂, validName n = true) → i < j →
          res.Operations[i]? = some (leafOp absDir absTarget pkg t₁) →
          res.Operations[j]? = some (leafOp absDir absTarget pkg t₂) →
          strLe (unsplit t₁) (unsplit t₂) := by
  refine ⟨⟨by decide, by decide, by decide, by decide, by decide, by decide⟩, fun hall => ?_⟩
  have h := hall fsOrder 2 ⟨"/s", "/t", ["p"]⟩
    ⟨[⟨"/s/p/a/x", "/t/a/x"⟩, ⟨"/s/p/a-b", "/t/a-b"⟩], []⟩ (by decide)
    "/s" "/t" "p" ["a", "x"] ["a-b"] 0 1 (by decide) (by decide) (by decide) (by decide)
    (by decide) (by decide) (by decide)
  revert h
  decide

/-- C6, amended: the operations of a plan returned by `BuildPlan` are made of
one segment for each package, the packages taken in sorted order, and in each
segment the leaves of the package come in strictly ascending order of their
relative paths compared element by element (as lists of names, each pair of
names compared as strings), not as whole strings. -/
theorem BuildPlan_operations_order (fs : FS) (fuel : Nat) (opts : Options) (res : PlanResult)
    (h : BuildPlan fs fuel opts = some (res, none)) :
    ∃ absDir absTarget, Abs fs opts.Dir = Except.ok absDir ∧
      Abs fs opts.Target = Except.ok absTarget ∧
      (sortStrings opts.Packages).Sorted strLe ∧
      (sortStrings opts.Packages).Perm opts.Packages ∧
      ∃ segs : List (List (List String)),
        segs.length = (sortStrings opts.Packages).length ∧
        res.Operations = segmentOps absDir absTarget (sortStrings opts.Packages) segs ∧
        ∀ seg ∈ segs, seg.Pairwise (List.Lex strLt) ∧
          ∀ t ∈ seg, t ≠ [] ∧ ∀ n ∈ t, validName n = true := by
  obtain ⟨absDir, absTarget, hdir, htarget, _, _, hp⟩ := BuildPlan_ok h
  obtain ⟨segs, hlen, hops, hsegs⟩ := planPackages_order fs fuel absDir absTarget
    (ne_empty_of_isAbs (Abs_isAbs hdir)) _ _ _ hp
  exact ⟨absDir, absTarget, hdir, htarget, sortStrings_sorted _, sortStrings_perm _, segs, hlen,
    by simpa using hops, hsegs⟩

theorem BuildPlan_operations_order_witness :
    ∃ absDir absTarget, Abs fsOrder "/s" = Except.ok absDir ∧
      Abs fsOrder "/t" = Except.ok absTarget ∧
      (sortStrings ["p"]).Sorted strLe ∧ (sortStrings ["p"]).Perm ["p"] ∧
      ∃ segs : List (List (List String)),
        segs.length = (sortStrings ["p"]).length ∧
        ([⟨"/s/p/a/x", "/t/a/x"⟩, ⟨"/s/p/a-b", "/t/a-b"⟩] : List Operation) =
          segmentOps absDir absTarget (sortStrings ["p"]) segs ∧
        ∀ seg ∈ segs, seg.Pairwise (List.Lex strLt) ∧
          ∀ t ∈ seg, t ≠ [] ∧ ∀ n ∈ t, validName n = true :=
  BuildPlan_operations_order fsOrder 2 ⟨"/s", "/t", ["p"]⟩
    ⟨[⟨"/s/p/a/x", "/t/a/x"⟩, ⟨"/s/p/a-b", "/t/a-b"⟩], []⟩ (by decide)

/-! ## File systems that grow -/

theorem lookupNode_append_of_none {p : List String} {new old : List (List String × Kind)}
    (h : lookupNode p new = none) : lookupNode p (new ++ old) = lookupNode p old := by
  induction new with
  | nil => rfl
  | cons kv rest ih =>
    obtain ⟨k, v⟩ := kv
    rw [List.cons_append, lookupNode]
    rw [lookupNode] at h
    split
    · rename_i hk
      rw [if_pos hk] at h
      simp at h
    · rename_i hk
      rw [if_neg hk] at h
      exact ih h

theorem lookupNode_eq_none_iff {p : List String} {l : List (List String × Kind)} :
    lookupNode p l = none ↔ ∀ kv ∈ l, kv.1 ≠ p := by
  induction l with
  | nil => simp [lookupNode]
  | cons kv rest ih =>
    obtain ⟨k, v⟩ := kv
    rw [lookupNode]
    by_cases hk : k = p
    · rw [if_pos hk]
      constructor
      · intro h
        exact absurd h (by simp)
      · intro h
        exact absurd hk (h (k, v) (List.mem_cons_self _ _))
    · rw [if_neg hk, ih]
      constructor
      · intro h kv hkv
        rcases List.mem_cons.1 hkv with hkv | hkv
        · rw [hkv]
          exact hk
        · exact h kv hkv
      · exact fun h kv hkv => h kv (List.mem_cons_of_mem _ hkv)

theorem lookupNode_append_none {p : List String} {new old : List (List String × Kind)}
    (h : lookupNode p (new ++ old) = none) : lookupNode p old = none := by
  rw [lookupNode_eq_none_iff] at h ⊢
  exact fun kv hkv => h kv (List.mem_append_right _ hkv)

theorem FS.Grows.refl (fs : FS) : fs.Grows fs := ⟨rfl, [], rfl, by simp⟩

theorem FS.Grows.trans {a b c : FS} (hab : a.Grows b) (hbc : b.Grows c) : a.Grows c := by
  obtain ⟨hc1, new1, hn1, hf1⟩ := hab
  obtain ⟨hc2, new2, hn2, hf2⟩ := hbc
  refine ⟨hc2.trans hc1, new2 ++ new1, by rw [hn2, hn1, List.append_assoc], ?_⟩
  intro kv hkv
  rcases List.mem_append.1 hkv with hkv | hkv
  · have := hf2 kv hkv
    rw [hn1] at this
    exact lookupNode_append_none this
  · exact hf1 kv hkv

theorem FS.Grows.insert {fs : FS} {p : List String} (h : fs.kindAt p = none) (k : Kind) :
    fs.Grows (fs.insert p k) := by
  refine ⟨rfl, [(p, k)], rfl, ?_⟩
  intro kv hkv
  simp only [List.mem_singleton] at hkv
  subst hkv
  unfold FS.kindAt at h
  split at h
  · simp at h
  · exact h

theorem FS.kindAt_insert (fs : FS) {p : List String} (hp : p ≠ []) (k : Kind) :
    (fs.insert p k).kindAt p = some k := by
  simp [FS.kindAt, FS.insert, hp, lookupNode]

/-- What a physical path denotes is kept when the file system grows. -/
theorem FS.Grows.kindAt {fs fs' : FS} (h : fs.Grows fs') {p : List String} {k : Kind}
    (hk : fs.kindAt p = some k) : fs'.kindAt p = some k := by
  obtain ⟨_, new, hn, hf⟩ := h
  unfold FS.kindAt at hk ⊢
  split
  · rename_i hp
    rw [if_pos hp] at hk
    exact hk
  · rename_i hp
    rw [if_neg hp] at hk
    rw [hn, lookupNode_append_of_none, hk]
    rw [lookupNode_eq_none_iff]
    intro kv hkv hkp
    have := hf kv hkv
    rw [hkp, hk] at this
    simp at this

section Mono

variable {fs fs' : FS} (hk : ∀ p k, fs.kindAt p = some k → fs'.kindAt p = some k)
include hk

theorem FS.walk_mono (follow : Bool) :
    ∀ (l cur : List String),
      (∀ p k, fs.walk follow cur l = Walk.done p k → fs'.walk follow cur l = Walk.done p k) ∧
      (∀ c l1, fs.walk follow cur l = Walk.link c l1 → fs'.walk follow cur l = Walk.link c l1) := by
  intro l
  induction l with
  | nil =>
    intro cur
    simp [FS.walk]
  | cons c rest ih =>
    intro cur
    rw [FS.walk, FS.walk]
    split
    · exact ih cur
    · split
      · exact ih _
      · cases hc : fs.kindAt (cur ++ [c]) with
        | none => simp
        | some k =>
          rw [hk _ _ hc]
          cases k with
          | dir => exact ih _
          | file s => simp
          | symlink v => simp

theorem FS.resolveFrom_mono (follow : Bool) :
    ∀ (budget : Nat) (cur l : List String) (r : List String × Kind),
      fs.resolveFrom follow budget cur l = Except.ok r →
      fs'.resolveFrom follow budget cur l = Except.ok r := by
  intro budget
  induction budget with
  | zero =>
    intro cur l r h
    simp [FS.resolveFrom] at h
  | succ budget ih =>
    intro cur l r h
    rw [FS.resolveFrom] at h ⊢
    cases hw : fs.walk follow cur l with
    | done p k =>
      rw [hw] at h
      rw [(FS.walk_mono hk follow l cur).1 p k hw]
      exact h
    | fail e =>
      rw [hw] at h
      simp at h
    | link c l1 =>
      rw [hw] at h
      rw [(FS.walk_mono hk follow l cur).2 c l1 hw]
      exact ih _ _ _ h

theorem FS.isDirPath_mono {d : List String} (h : fs.isDirPath d = true) :
    fs'.isDirPath d = true := by
  unfold FS.isDirPath at h ⊢
  rw [List.all_eq_true] at h ⊢
  intro p hp
  have := h p hp
  simp only [decide_eq_true_eq] at this ⊢
  exact hk _ _ this

end Mono

section Grown

variable {fs fs' : FS} (hg : fs.Grows fs')
include hg

theorem FS.Grows.resolveElems (follow abs : Bool) {l : List String} {r : List String × Kind}
    (h : fs.resolveElems follow abs l = Except.ok r) :
    fs'.resolveElems follow abs l = Except.ok r := by
  unfold FS.resolveElems at h ⊢
  split
  · rename_i ha
    rw [if_pos ha] at h
    exact FS.resolveFrom_mono (fun _ _ => hg.kindAt) follow _ _ _ _ h
  · rename_i ha
    rw [if_neg ha] at h
    rw [hg.1]
    cases hc : fs.cwd with
    | none => simp [hc] at h
    | some d =>
      simp only [hc] at h ⊢
      split at h
      · rename_i hd
        rw [if_pos (FS.isDirPath_mono (fun _ _ => hg.kindAt) hd)]
        exact FS.resolveFrom_mono (fun _ _ => hg.kindAt) follow _ _ _ _ h
      · simp at h

theorem FS.Grows.resolve (follow : Bool) {path : String} {r : List String × Kind}
    (h : fs.resolve follow path = Except.ok r) : fs'.resolve follow path = Except.ok r := by
  unfold FS.resolve at h ⊢
  split
  · rename_i hp
    rw [if_pos hp] at h
    simp at h
  · rename_i hp
    rw [if_neg hp] at h
    exact hg.resolveElems follow _ h

theorem FS.Grows.Lstat {path : String} {k : Kind} (h : os.Lstat fs path = Except.ok k) :
    os.Lstat fs' path = Except.ok k := by
  unfold os.Lstat at h ⊢
  cases hr : fs.resolve false path with
  | error e => simp [hr] at h
  | ok r =>
    rw [hg.resolve false hr]
    rw [hr] at h
    exact h

theorem FS.Grows.Stat {path : String} {k : Kind} (h : os.Stat fs path = Except.ok k) :
    os.Stat fs' path = Except.ok k := by
  unfold os.Stat at h ⊢
  cases hr : fs.resolve true path with
  | error e => simp [hr] at h
  | ok r =>
    rw [hg.resolve true hr]
    rw [hr] at h
    exact h

theorem FS.Grows.Readlink {path v : String} (h : os.Readlink fs path = Except.ok v) :
    os.Readlink fs' path = Except.ok v := by
  unfold os.Readlink at h ⊢
  cases hr : fs.resolve false path with
  | error e => simp [hr] at h
  | ok r =>
    rw [hg.resolve false hr]
    rw [hr] at h
    exact h

theorem FS.Grows.Getwd {wd : String} (h : os.Getwd fs = Except.ok wd) :
    os.Getwd fs' = Except.ok wd := by
  unfold os.Getwd at h ⊢
  rw [hg.1]
  cases hc : fs.cwd with
  | none => simp [hc] at h
  | some d =>
    simp only [hc] at h ⊢
    split at h
    · rename_i hd
      rw [if_pos (FS.isDirPath_mono (fun _ _ => hg.kindAt) hd)]
      exact h
    · simp at h

theorem FS.Grows.Abs {path a : String} (h : Abs fs path = Except.ok a) :
    Abs fs' path = Except.ok a := by
  unfold filepath.Abs at h ⊢
  split
  · rename_i hp
    rw [if_pos hp] at h
    exact h
  · rename_i hp
    rw [if_neg hp] at h
    cases hw : os.Getwd fs with
    | error e => simp [hw] at h
    | ok wd =>
      rw [hg.Getwd hw]
      rw [hw] at h
      exact h

end Grown

/-! ## Making directories and links -/

theorem FS.resolveElems_append (fs : FS) (follow abs : Bool) {name : String} (hname : Real name)
    {l d : List String} {k : Kind}
    (h : fs.resolveElems true abs l = Except.ok (d, Kind.dir))
    (hk : fs.kindAt (d ++ [name]) = some k) (hf : k.IsSymlink = false ∨ follow = false) :
    fs.resolveElems follow abs (l ++ [name]) = Except.ok (d ++ [name], k) := by
  unfold FS.resolveElems at h ⊢
  split
  · rename_i ha
    rw [if_pos ha] at h
    exact FS.resolveFrom_append fs follow hname _ _ _ _ _ h hk hf
  · rename_i ha
    rw [if_neg ha] at h
    cases hc : fs.cwd with
    | none => simp [hc] at h
    | some c =>
      simp only [hc] at h ⊢
      split
      · rename_i hd
        rw [if_pos hd] at h
        exact FS.resolveFrom_append fs follow hname _ _ _ _ _ h hk hf
      · rename_i hd
        rw [if_neg hd] at h
        simp at h

/-- What `resolveNew` has checked when it succeeds. -/
theorem FS.resolveNew_ok {fs : FS} {path : String} {p : List String} {name : String}
    (h : fs.resolveNew path = Except.ok (p, name)) :
    path ≠ "" ∧ Real name ∧ fs.kindAt (p ++ [name]) = none ∧
      ∃ parent, elements path = parent ++ [name] ∧
        fs.resolveElems true (IsAbs path) parent = Except.ok (p, Kind.dir) := by
  unfold FS.resolveNew at h
  split at h
  · simp at h
  · rename_i hpath
    split at h
    · simp at h
    · rename_i name1 parent hrev
      split at h
      · simp at h
      · rename_i p1 hres
        split at h
        · simp at h
        · rename_i hn1
          split at h
          · simp at h
          · rename_i hn2
            split at h
            · simp at h
            · rename_i hnone
              simp only [Except.ok.injEq, Prod.mk.injEq] at h
              obtain ⟨rfl, rfl⟩ := h
              refine ⟨hpath, ⟨hn1, fun h => hn2 (Or.inl h), fun h => hn2 (Or.inr h)⟩, hnone,
                parent.reverse, ?_, hres⟩
              have := congrArg List.reverse hrev
              simpa using this
      · simp at h

/-- After `os.Symlink` the file system has grown and the new name is the link. -/
theorem Symlink_ok {fs fs2 : FS} {oldname newname : String}
    (h : os.Symlink fs oldname newname = Except.ok fs2) :
    fs.Grows fs2 ∧ os.Lstat fs2 newname = Except.ok (Kind.symlink oldname) ∧
      os.Readlink fs2 newname = Except.ok oldname := by
  unfold os.Symlink at h
  split at h
  · simp at h
  · rename_i p name hnew
    simp only [Except.ok.injEq] at h
    subst h
    obtain ⟨hpath, hname, hnone, parent, hel, hres⟩ := FS.resolveNew_ok hnew
    have hg : fs.Grows (fs.insert (p ++ [name]) (Kind.symlink oldname)) :=
      FS.Grows.insert hnone _
    have hr : (fs.insert (p ++ [name]) (Kind.symlink oldname)).resolve false newname =
        Except.ok (p ++ [name], Kind.symlink oldname) := by
      rw [FS.resolve, if_neg hpath, hel]
      exact FS.resolveElems_append _ false _ hname (hg.resolveElems true _ hres)
        (FS.kindAt_insert fs (by simp) _) (Or.inr rfl)
    refine ⟨hg, ?_, ?_⟩
    · simp [os.Lstat, hr]
    · simp [os.Readlink, hr]

theorem Mkdir_grows {fs fs2 : FS} {path : String} (h : os.Mkdir fs path = Except.ok fs2) :
    fs.Grows fs2 := by
  unfold os.Mkdir at h
  split at h
  · simp at h
  · rename_i p name hnew
    simp only [Except.ok.injEq] at h
    subst h
    exact FS.Grows.insert (FS.resolveNew_ok hnew).2.2.1 _

theorem mkdirAllRev_grows (fs : FS) (l : List String) : fs.Grows (os.mkdirAllRev fs l).1 := by
  induction l with
  | nil => exact FS.Grows.refl fs
  | cons c rest ih =>
    rw [os.mkdirAllRev]
    split
    · split <;> exact FS.Grows.refl fs
    · have hparent : fs.Grows
          (if unsplit rest.reverse = "" then (fs, none) else os.mkdirAllRev fs rest).1 := by
        split
        · exact FS.Grows.refl fs
        · exact ih
      split
      · rename_i fs1 e heq
        rw [heq] at hparent
        exact hparent
      · rename_i fs1 heq
        rw [heq] at hparent
        split
        · rename_i fs2 hmk
          exact hparent.trans (Mkdir_grows hmk)
        · split
          · split <;> exact hparent
          · exact hparent

theorem MkdirAll_grows (fs : FS) (path : String) : fs.Grows (os.MkdirAll fs path).1 :=
  mkdirAllRev_grows fs _

/-- The loop of `Execute` only adds nodes. -/
theorem executeOps_grows (ops : List Operation) : ∀ fs : FS, fs.Grows (executeOps fs ops).1 := by
  induction ops with
  | nil => exact fun fs => FS.Grows.refl fs
  | cons op rest ih =>
    intro fs
    rw [executeOps]
    have h1 := MkdirAll_grows fs (Dir op.Target)
    split
    · rename_i fs1 e heq
      rw [heq] at h1
      exact h1
    · rename_i fs1 heq
      rw [heq] at h1
      split
      · exact h1
      · rename_i fs2 hs
        exact (h1.trans (Symlink_ok hs).1).trans (ih fs2)

/-- After a successful loop of `Execute` the target of every operation is a
symbolic link whose value is the source of the operation. -/
theorem executeOps_linked (ops : List Operation) :
    ∀ (fs fs' : FS), executeOps fs ops = (fs', none) →
      ∀ op ∈ ops, os.Lstat fs' op.Target = Except.ok (Kind.symlink op.Source) ∧
        os.Readlink fs' op.Target = Except.ok op.Source := by
  induction ops with
  | nil => simp
  | cons op rest ih =>
    intro fs fs' h op' hop'
    rw [executeOps] at h
    split at h
    · simp at h
    · split at h
      · simp at h
      · rename_i fs2 hs
        rcases List.mem_cons.1 hop' with hop' | hop'
        · subst hop'
          have hg : fs2.Grows fs' := by
            have := executeOps_grows rest fs2
            rw [h] at this
            exact this
          exact ⟨hg.Lstat (Symlink_ok hs).2.1, hg.Readlink (Symlink_ok hs).2.2⟩
        · exact ih fs2 fs' h op' hop'

/-! ## Planning again after the execution -/

/-- A directory none of whose entries is new has the same entries after the
file system has grown. -/
theorem entries_eq_of_grows {fs fs' : FS} (hg : fs.Grows fs') {d : List String}
    (hno : ∀ kv ∈ fs'.nodes, kv ∉ fs.nodes → ∀ n, kv.1 ≠ d ++ [n]) :
    fs'.entries d = fs.entries d := by
  obtain ⟨hcwd, new, hn, hf⟩ := hg
  have hnew : new.filterMap (fun kv => childName d kv.1) = [] := by
    rw [List.filterMap_eq_nil_iff]
    intro kv hkv
    cases hc : childName d kv.1 with
    | none => rfl
    | some n =>
      exfalso
      have hfresh := hf kv hkv
      rw [lookupNode_eq_none_iff] at hfresh
      refine hno kv ?_ (fun hmem => hfresh kv hmem rfl) n (childName_valid hc).2
      rw [hn]
      exact List.mem_append_left _ hkv
  unfold FS.entries
  rw [hn, List.filterMap_append, hnew, List.nil_append]
  apply List.filterMap_congr
  intro n hn'
  rw [List.mem_dedup, List.mem_filterMap] at hn'
  obtain ⟨kv, hkv, hc⟩ := hn'
  have hkey := (childName_valid hc).2
  have hsome : ∃ k, fs.kindAt (d ++ [n]) = some k := by
    cases hl : lookupNode (d ++ [n]) fs.nodes with
    | none =>
      rw [lookupNode_eq_none_iff] at hl
      exact absurd hkey (hl kv hkv)
    | some k => exact ⟨k, by simp [FS.kindAt, hl]⟩
  obtain ⟨k, hk⟩ := hsome
  have hg' : fs.Grows fs' := ⟨hcwd, new, hn, hf⟩
  rw [hk, hg'.kindAt hk]

theorem ReadDir_eq_of_grows {fs fs' : FS} (hg : fs.Grows fs') {path : String}
    {es : List DirEntry} {d : List String}
    (hres : fs.resolve true path = Except.ok (d, Kind.dir))
    (hno : ∀ kv ∈ fs'.nodes, kv ∉ fs.nodes → ∀ n, kv.1 ≠ d ++ [n])
    (h : os.ReadDir fs path = Except.ok es) : os.ReadDir fs' path = Except.ok es := by
  unfold os.ReadDir at h ⊢
  rw [hres] at h
  rw [hg.resolve true hres]
  simp only [Except.ok.injEq] at h ⊢
  rw [entries_eq_of_grows hg hno, h]

/-- A link that matches still matches after the file system has grown. -/
theorem symlinkMatches_of_grows {fs fs' : FS} (hg : fs.Grows fs') {targetPath sourcePath : String}
    (h : symlinkMatches fs targetPath sourcePath = (true, none)) :
    symlinkMatches fs' targetPath sourcePath = (true, none) := by
  cases hr : os.Readlink fs targetPath with
  | error e => simp [symlinkMatches, hr] at h
  | ok v =>
    rw [symlinkMatches_of_Readlink sourcePath hr] at h
    rw [symlinkMatches_of_Readlink sourcePath (hg.Readlink hr)]
    cases ha : Abs fs (if IsAbs v = true then v else Join [Dir targetPath, v]) with
    | error e => simp [ha] at h
    | ok a =>
      rw [ha] at h
      rw [hg.Abs ha]
      cases hb : Abs fs sourcePath with
      | error e => simp [hb] at h
      | ok b =>
        rw [hb] at h
        rw [hg.Abs hb]
        exact h

/-- A link whose value is the rooted source matches. -/
theorem symlinkMatches_of_linked {fs : FS} {targetPath sourcePath : String}
    (hr : os.Readlink fs targetPath = Except.ok sourcePath) (habs : IsAbs sourcePath = true) :
    symlinkMatches fs targetPath sourcePath = (true, none) := by
  rw [symlinkMatches_of_Readlink sourcePath hr]
  simp [habs, Abs_of_isAbs fs habs]

theorem handleLeaf_of_noop {fs : FS} {src rel targetRoot : String} {s : planState} {k : Kind}
    (hnew : Join [targetRoot, rel] ∉ s.seenTargets)
    (hl : os.Lstat fs (Join [targetRoot, rel]) = Except.ok k) (hk : k.IsSymlink = true)
    (hm : symlinkMatches fs (Join [targetRoot, rel]) src = (true, none)) :
    handleLeaf fs src rel targetRoot s =
      (⟨s.result, Join [targetRoot, rel] :: s.seenTargets⟩, none) := by
  simp [handleLeaf, hnew, detectConflict, hl, hk, hm]

/-- A leaf handled without error and without conflict in a pass whose
operations are all linked in the grown file system is, in that file system,
a link that is already right. -/
theorem handleLeaf_again {fs fs' : FS} (hg : fs.Grows fs') (ops : List Operation)
    (hlinked : ∀ op ∈ ops, os.Lstat fs' op.Target = Except.ok (Kind.symlink op.Source) ∧
      os.Readlink fs' op.Target = Except.ok op.Source)
    {src rel targetRoot : String} {s s1 : planState}
    (h : handleLeaf fs src rel targetRoot s = (s1, none))
    (hc : s1.result.Conflicts = []) (hops : ∀ op ∈ s1.result.Operations, op ∈ ops)
    (hsrc : IsAbs src = true) (s2 : planState) (hseen : s2.seenTargets = s.seenTargets) :
    handleLeaf fs' src rel targetRoot s2 = (⟨s2.result, s1.seenTargets⟩, none) := by
  by_cases hmem : Join [targetRoot, rel] ∈ s.seenTargets
  · exfalso
    simp only [handleLeaf, hmem, if_true, Prod.mk.injEq, and_true] at h
    rw [← h] at hc
    simp at hc
  · have hnew2 : Join [targetRoot, rel] ∉ s2.seenTargets := by rw [hseen]; exact hmem
    simp only [handleLeaf, hmem, if_false] at h
    unfold detectConflict at h
    cases hl : os.Lstat fs (Join [targetRoot, rel]) with
    | error e =>
      rw [hl] at h
      by_cases hne : os.IsNotExist e = true
      · simp only [hne, if_true, Bool.false_eq_true, if_false, Prod.mk.injEq, and_true] at h
        have hop : (⟨src, Join [targetRoot, rel]⟩ : Operation) ∈ ops := by
          apply hops
          rw [← h]
          simp
        obtain ⟨hl', hr'⟩ := hlinked _ hop
        rw [handleLeaf_of_noop hnew2 hl' rfl (symlinkMatches_of_linked hr' hsrc), ← h, hseen]
      · simp [hne] at h
    | ok info =>
      rw [hl] at h
      by_cases hsym : info.IsSymlink = true
      · simp only [hsym, if_true] at h
        rcases hm : symlinkMatches fs (Join [targetRoot, rel]) src with ⟨m, _ | err⟩
        · rw [hm] at h
          cases m
          · exfalso
            simp only [Bool.false_eq_true, if_false, if_true, Prod.mk.injEq, and_true] at h
            rw [← h] at hc
            simp at hc
          · simp only [if_true, Prod.mk.injEq, and_true] at h
            rw [handleLeaf_of_noop hnew2 (hg.Lstat hl) hsym (symlinkMatches_of_grows hg hm),
              ← h, hseen]
        · rw [hm] at h
          simp at h
      · exfalso
        simp only [hsym, Bool.false_eq_true, if_false, if_true, Prod.mk.injEq, and_true] at h
        rw [← h] at hc
        simp at hc

section Again

variable {fs fs' : FS} (hg : fs.Grows fs') (ops : List Operation)
  (hlinked : ∀ op ∈ ops, os.Lstat fs' op.Target = Except.ok (Kind.symlink op.Source) ∧
    os.Readlink fs' op.Target = Except.ok op.Source)
  (targetRoot : String)
include hg hlinked

/-- The loop of `walkDir`, run again in the grown file system on the same
entries, records nothing and claims the same targets. -/
theorem walkEntries_again
    (descend descend' : String → String → planState → Option (planState × Option Error))
    (root rel : String) (hroot : IsAbs root = true)
    (hgrow : ∀ full r s res, descend full r s = some res →
      s.result.Operations <+: res.1.result.Operations ∧
      s.result.Conflicts <+: res.1.result.Conflicts) :
    ∀ (es : List DirEntry),
      (∀ e ∈ es, e.Typ = Kind.dir → ∀ s s1,
        descend (Join [root, e.Name]) (Join [rel, e.Name]) s = some (s1, none) →
        s1.result.Conflicts = [] → (∀ op ∈ s1.result.Operations, op ∈ ops) →
        ∀ s2 : planState, s2.seenTargets = s.seenTargets →
        descend' (Join [root, e.Name]) (Join [rel, e.Name]) s2 =
          some (⟨s2.result, s1.seenTargets⟩, none)) →
      ∀ s s1, walkEntries fs descend root rel targetRoot es s = some (s1, none) →
        s1.result.Conflicts = [] → (∀ op ∈ s1.result.Operations, op ∈ ops) →
        ∀ s2 : planState, s2.seenTargets = s.seenTargets →
        walkEntries fs' descend' root rel targetRoot es s2 =
          some (⟨s2.result, s1.seenTargets⟩, none) := by
  intro es
  induction es with
  | nil =>
    intro _ s s1 h _ _ s2 hseen
    simp only [walkEntries, Option.some.injEq, Prod.mk.injEq, and_true] at h
    subst h
    simp [walkEntries, ← hseen]
  | cons e rest ih =>
    intro hdesc s s1 h hc hops s2 hseen
    have ih' := ih (fun e' he' => hdesc e' (List.mem_cons_of_mem _ he'))
    -- what is recorded after the first entry is still there at the end
    have hrest : ∀ st1, walkEntries fs descend root rel targetRoot rest st1 = some (s1, none) →
        st1.result.Conflicts = [] ∧ ∀ op ∈ st1.result.Operations, op ∈ ops := by
      intro st1 hst1
      have := walkEntries_rel fs targetRoot
        (fun a b => a.result.Operations <+: b.result.Operations ∧
          a.result.Conflicts <+: b.result.Conflicts)
        (fun _ => ⟨List.prefix_refl _, List.prefix_refl _⟩)
        (fun _ _ _ hab hbc => ⟨hab.1.trans hbc.1, hab.2.trans hbc.2⟩)
        descend root rel rest
        (fun e' _ _ s => ⟨(handleLeaf_grows fs _ _ _ s).2.2.1, (handleLeaf_grows fs _ _ _ s).2.2.2⟩)
        (fun e' _ _ s r hd => hgrow _ _ s r hd) st1 _ hst1
      refine ⟨?_, fun op hop => hops op (this.1.subset hop)⟩
      have h2 := this.2
      rw [hc] at h2
      exact List.prefix_nil.1 h2
    have hleafcase : ∀ st1,
        handleLeaf fs (Join [root, e.Name]) (Join [rel, e.Name]) targetRoot s = (st1, none) →
        walkEntries fs descend root rel targetRoot rest st1 = some (s1, none) →
        (match handleLeaf fs' (Join [root, e.Name]) (Join [rel, e.Name]) targetRoot s2 with
          | (st, some err) => some (st, some err)
          | (st, none) => walkEntries fs' descend' root rel targetRoot rest st) =
          some (⟨s2.result, s1.seenTargets⟩, none) := by
      intro st1 hl hst1
      obtain ⟨hc1, hops1⟩ := hrest st1 hst1
      rw [handleLeaf_again hg ops hlinked hl hc1 hops1 (isAbs_Join_cons hroot _) s2 hseen]
      exact ih' st1 s1 hst1 hc hops ⟨s2.result, st1.seenTargets⟩ rfl
    rw [walkEntries] at h ⊢
    split at h
    · rename_i hsym
      rw [if_pos hsym]
      split at h
      · simp at h
      · rename_i st1 heq
        exact hleafcase st1 heq h
    · rename_i hsym
      rw [if_neg hsym]
      split at h
      · rename_i hdir
        rw [if_pos hdir]
        split at h
        · simp at h
        · simp at h
        · rename_i st1 heq
          obtain ⟨hc1, hops1⟩ := hrest st1 h
          rw [hdesc e (List.mem_cons_self _ _) (eq_dir_of_isDir hdir) s st1 heq hc1 hops1 s2 hseen]
          exact ih' st1 s1 h hc hops ⟨s2.result, st1.seenTargets⟩ rfl
      · rename_i hdir
        rw [if_neg hdir]
        split at h
        · simp at h
        · rename_i st1 heq
          exact hleafcase st1 heq h

variable (dirs : List (List String)) (hno : fs.NoNewNodeIn fs' dirs)
include hno

/-- `walkDir`, run again in the grown file system on a directory inside one of
the directories `dirs`, records nothing and claims the same targets. -/
theorem walkDir_again :
    ∀ (fuel : Nat) (root rel : String) (s s1 : planState),
      IsAbs root = true → Clean root = root →
      (∃ d0, fs.resolve true root = Except.ok (d0, Kind.dir) ∧ ∃ d ∈ dirs, d <+: d0) →
      walkDir fs fuel root rel targetRoot s = some (s1, none) →
      s1.result.Conflicts = [] → (∀ op ∈ s1.result.Operations, op ∈ ops) →
      ∀ s2 : planState, s2.seenTargets = s.seenTargets →
      walkDir fs' fuel root rel targetRoot s2 = some (⟨s2.result, s1.seenTargets⟩, none) := by
  intro fuel
  induction fuel with
  | zero =>
    intro root rel s s1 _ _ _ h
    simp [walkDir] at h
  | succ fuel ih =>
    intro root rel s s1 habs hclean hq h hc hops s2 hseen
    obtain ⟨d0, hres, d, hd, hpre⟩ := hq
    rw [walkDir] at h ⊢
    cases hes : os.ReadDir fs root with
    | error e => simp [hes] at h
    | ok es =>
      rw [hes] at h
      have hes' : os.ReadDir fs' root = Except.ok es := by
        refine ReadDir_eq_of_grows hg hres ?_ hes
        intro kv hkv hnew n hkey
        refine hno kv hkv hnew d hd ?_
        rw [hkey]
        exact hpre.trans (List.prefix_append _ _)
      rw [hes']
      simp only at h ⊢
      refine walkEntries_again hg ops hlinked targetRoot _ _ root rel habs
        (fun full r s res hd => ?_) (sortEntries es) ?_ s s1 h hc hops s2 hseen
      · have := walkDir_grows fs targetRoot fuel full r s res hd
        exact ⟨this.2.1, this.2.2⟩
      · intro e he hk s s1 hwd hc1 hops1 s2 hseen2
        have he' : e ∈ es := mem_sortEntries.1 he
        obtain ⟨d1, hd1, hes1⟩ := ReadDir_ok hes
        have hd01 : d1 = d0 := by
          rw [hres] at hd1
          simp only [Except.ok.injEq, Prod.mk.injEq, and_true] at hd1
          exact hd1.symm
        subst hd01
        rw [hes1] at he'
        obtain ⟨hv, hkind⟩ := entries_valid he'
        rw [hk] at hkind
        refine ih _ _ s s1 (isAbs_Join_cons habs _) (Clean_Join_cons (ne_empty_of_isAbs habs) _)
          ⟨d1 ++ [e.Name], ?_, d, hd, hpre.trans (List.prefix_append _ _)⟩ hwd hc1 hops1 s2
          hseen2
        exact FS.resolve_Join_child fs true habs hclean hv hres hkind (Or.inl rfl)

/-- The loop of `BuildPlan`, run again in the grown file system, records nothing. -/
theorem planPackages_again (fuel : Nat) (absDir : String) (habs : IsAbs absDir = true) :
    ∀ (pkgs : List String),
      (∀ pkg ∈ pkgs, ∀ d0, fs.resolve true (Join [absDir, pkg]) = Except.ok (d0, Kind.dir) →
        d0 ∈ dirs) →
      ∀ (s : planState) (res : PlanResult),
        planPackages fs fuel absDir targetRoot pkgs s = some (res, none) →
        res.Conflicts = [] → (∀ op ∈ res.Operations, op ∈ ops) →
        ∀ s2 : planState, s2.seenTargets = s.seenTargets →
        planPackages fs' fuel absDir targetRoot pkgs s2 = some (s2.result, none) := by
  intro pkgs
  induction pkgs with
  | nil =>
    intro _ s res _ _ _ s2 _
    simp [planPackages]
  | cons pkg rest ih =>
    intro hdirs s res h hc hops s2 hseen
    rw [planPackages] at h ⊢
    cases hst : os.Stat fs (Join [absDir, pkg]) with
    | error e => simp [hst] at h
    | ok info =>
      rw [hst] at h
      rw [hg.Stat hst]
      simp only at h ⊢
      split at h
      · simp at h
      · rename_i hisdir
        rw [if_neg hisdir]
        have hinfo : info = Kind.dir := eq_dir_of_isDir (by simpa using hisdir)
        subst hinfo
        split at h
        · simp at h
        · simp at h
        · rename_i st1 heq
          -- the rest of the pass keeps what the package recorded
          obtain ⟨sf, hsf, hgrows⟩ := planPackages_rel fs targetRoot (fun _ _ => True)
            (fun a b => a.result.Operations <+: b.result.Operations ∧
              a.result.Conflicts <+: b.result.Conflicts)
            (fun _ => ⟨List.prefix_refl _, List.prefix_refl _⟩)
            (fun _ _ _ hab hbc => ⟨hab.1.trans hbc.1, hab.2.trans hbc.2⟩)
            (fun _ _ _ _ _ _ _ _ => trivial)
            (fun _ _ _ _ s _ _ _ _ =>
              ⟨(handleLeaf_grows fs _ _ _ s).2.2.1, (handleLeaf_grows fs _ _ _ s).2.2.2⟩)
            fuel absDir rest (fun _ _ _ => trivial) st1 res h
          have hc1 : st1.result.Conflicts = [] := by
            have h2 := hgrows.2
            rw [← hsf, hc] at h2
            exact List.prefix_nil.1 h2
          have hops1 : ∀ op ∈ st1.result.Operations, op ∈ ops := by
            intro op hop
            apply hops
            rw [hsf]
            exact hgrows.1.subset hop
          obtain ⟨d0, hd0⟩ : ∃ d0, fs.resolve true (Join [absDir, pkg]) =
              Except.ok (d0, Kind.dir) := by
            unfold os.Stat at hst
            cases hr : fs.resolve true (Join [absDir, pkg]) with
            | error e => simp [hr] at hst
            | ok r =>
              obtain ⟨d0, k⟩ := r
              rw [hr] at hst
              simp only [Except.ok.injEq] at hst
              exact ⟨d0, by rw [hst]⟩
          have hwalk := walkDir_again hg ops hlinked targetRoot dirs hno fuel
            (Join [absDir, pkg]) "" s st1 (isAbs_Join_cons habs _)
            (Clean_Join_cons (ne_empty_of_isAbs habs) _)
            ⟨d0, hd0, d0, hdirs pkg (List.mem_cons_self _ _) d0 hd0, List.prefix_refl _⟩
            heq hc1 hops1 s2 hseen
          rw [walkPackage, hwalk]
          exact ih (fun p hp => hdirs p (List.mem_cons_of_mem _ hp)) st1 res h hc hops
            ⟨s2.result, st1.seenTargets⟩ rfl

end Again

/-! ## Idempotence -/

/-- C7, as stated, fails: a conflict is found again by the second `BuildPlan`
(`fsDupTaken`), and when the target lies inside a package the links made by
`Execute` are leaves of the package for the second `BuildPlan` (`fsInside`). -/
theorem idempotence_counterexample :
    (BuildPlan fsDupTaken 1 ⟨"/s", "/t", ["a"]⟩ =
        some (⟨[], [⟨"/t/alpha.txt", "target already exists"⟩]⟩, none) ∧
      Execute fsDupTaken ⟨[], [⟨"/t/alpha.txt", "target already exists"⟩]⟩ ⟨false⟩ =
        (fsDupTaken, none)) ∧
    (BuildPlan fsInside 2 ⟨"/s", "/s/p/t", ["p"]⟩ =
        some (⟨[⟨"/s/p/f", "/s/p/t/f"⟩], []⟩, none) ∧
      Execute fsInside ⟨[⟨"/s/p/f", "/s/p/t/f"⟩], []⟩ ⟨false⟩ = (fsInsideAfter, none) ∧
      BuildPlan fsInsideAfter 2 ⟨"/s", "/s/p/t", ["p"]⟩ =
        some (⟨[⟨"/s/p/t/f", "/s/p/t/t/f"⟩], []⟩, none)) ∧
    ¬ ∀ (fs fs' : FS) (fuel : Nat) (opts : Options) (plan : PlanResult),
        BuildPlan fs fuel opts = some (plan, none) →
        Execute fs plan ⟨false⟩ = (fs', none) →
        BuildPlan fs' fuel opts = some (⟨[], []⟩, none) := by
  refine ⟨⟨by decide, by decide⟩, ⟨by decide, by decide, by decide⟩, fun hall => ?_⟩
  have h := hall fsDupTaken fsDupTaken 1 ⟨"/s", "/t", ["a"]⟩
    ⟨[], [⟨"/t/alpha.txt", "target already exists"⟩]⟩ (by decide) (by decide)
  revert h
  decide

theorem mem_packageDirs {fs : FS} {opts : Options} {absDir pkg : String} {d : List String}
    {k : Kind} (hdir : Abs fs opts.Dir = Except.ok absDir) (hpkg : pkg ∈ opts.Packages)
    (h : fs.resolve true (Join [absDir, pkg]) = Except.ok (d, k)) :
    d ∈ packageDirs fs opts := by
  unfold packageDirs
  rw [hdir]
  simp only [List.mem_filterMap]
  exact ⟨pkg, hpkg, by rw [h]⟩

/-- C7, amended: when `BuildPlan` succeeds with no conflict, `Execute` of its
plan with `DryRun` false succeeds, and no node that `Execute` created lies
inside the directory of a requested package, then `BuildPlan` with the same
options on the resulting file system succeeds with no operation and no
conflict. -/
theorem BuildPlan_idempotent (fs fs' : FS) (fuel : Nat) (opts : Options) (plan : PlanResult)
    (hplan : BuildPlan fs fuel opts = some (plan, none))
    (hnoc : plan.Conflicts = [])
    (hexec : Execute fs plan ⟨false⟩ = (fs', none))
    (hout : fs.NoNewNodeIn fs' (packageDirs fs opts)) :
    BuildPlan fs' fuel opts = some (⟨[], []⟩, none) := by
  obtain ⟨absDir, absTarget, hdir, htarget, hstat, hne, hp⟩ := BuildPlan_ok hplan
  have hex : executeOps fs plan.Operations = (fs', none) := by
    simpa [Execute] using hexec
  have hg : fs.Grows fs' := by
    have := executeOps_grows plan.Operations fs
    rw [hex] at this
    exact this
  have hagain := planPackages_again hg plan.Operations
    (executeOps_linked plan.Operations fs fs' hex) absTarget (packageDirs fs opts) hout fuel
    absDir (Abs_isAbs hdir) (sortStrings opts.Packages)
    (fun pkg hpkg d0 hd0 => mem_packageDirs hdir ((sortStrings_perm _).mem_iff.1 hpkg) hd0)
    ⟨⟨[], []⟩, []⟩ plan hp hnoc (fun _ h => h) ⟨⟨[], []⟩, []⟩ rfl
  have hlen : ¬ opts.Packages.length = 0 := by
    intro h
    exact hne (List.length_eq_zero.1 h)
  simp [BuildPlan, hlen, hg.Abs hdir, hg.Stat hstat, hg.Abs htarget, Kind.IsDir, hagain]

theorem BuildPlan_idempotent_witness :
    BuildPlan fsMappingAfter 2 ⟨"/s", "/tmp/target", ["pkg-b", "pkg-a"]⟩ =
      some (⟨[], []⟩, none) :=
  BuildPlan_idempotent fsMapping fsMappingAfter 2 ⟨"/s", "/tmp/target", ["pkg-b", "pkg-a"]⟩
    ⟨[⟨"/s/pkg-a/alpha.txt", "/tmp/target/alpha.txt"⟩,
      ⟨"/s/pkg-a/dir/bravo.txt", "/tmp/target/dir/bravo.txt"⟩,
      ⟨"/s/pkg-a/zeta.txt", "/tmp/target/zeta.txt"⟩,
      ⟨"/s/pkg-b/echo.txt", "/tmp/target/echo.txt"⟩], []⟩
    (by decide) rfl (by decide) (by decide)

/-! ## The bound on the depth of the recursion -/

theorem length_le_foldr_max (l : List (List String × Kind)) {kv : List String × Kind}
    (h : kv ∈ l) : kv.1.length ≤ (l.map (fun kv => kv.1.length)).foldr max 0 := by
  induction l with
  | nil => simp at h
  | cons x rest ih =>
    simp only [List.map_cons, List.foldr_cons]
    rcases List.mem_cons.1 h with h | h
    · rw [h]
      exact le_max_left _ _
    · exact le_trans (ih h) (le_max_right _ _)

theorem length_le_depth_of_mem {fs : FS} {kv : List String × Kind} (h : kv ∈ fs.nodes) :
    kv.1.length ≤ fs.depth :=
  length_le_foldr_max fs.nodes h

theorem length_le_depth_of_kindAt {fs : FS} {p : List String} {k : Kind}
    (h : fs.kindAt p = some k) : p.length ≤ fs.depth := by
  unfold FS.kindAt at h
  split at h
  · rename_i hp
    rw [hp]
    exact Nat.zero_le _
  · cases hl : lookupNode p fs.nodes with
    | none => simp [hl] at h
    | some k' =>
      have : ¬ ∀ kv ∈ fs.nodes, kv.1 ≠ p := by
        rw [← lookupNode_eq_none_iff, hl]
        simp
      push_neg at this
      obtain ⟨kv, hkv, hkey⟩ := this
      rw [← hkey]
      exact length_le_depth_of_mem hkv

/-- The loop of `walkDir` gives a result when the recursive calls it makes do. -/
theorem walkEntries_isSome (fs : FS)
    (descend : String → String → planState → Option (planState × Option Error))
    (root rel targetRoot : String) :
    ∀ (es : List DirEntry),
      (∀ e ∈ es, e.Typ = Kind.dir → ∀ s,
        ∃ r, descend (Join [root, e.Name]) (Join [rel, e.Name]) s = some r) →
      ∀ s, ∃ r, walkEntries fs descend root rel targetRoot es s = some r := by
  intro es
  induction es with
  | nil => exact fun _ s => ⟨_, rfl⟩
  | cons e rest ih =>
    intro hdesc s
    have ih' := ih (fun e' he' => hdesc e' (List.mem_cons_of_mem _ he'))
    rw [walkEntries]
    split
    · split
      · exact ⟨_, rfl⟩
      · exact ih' _
    · split
      · rename_i hdir
        obtain ⟨r, hr⟩ := hdesc e (List.mem_cons_self _ _) (eq_dir_of_isDir hdir) s
        rw [hr]
        obtain ⟨st1, _ | err⟩ := r
        · exact ih' _
        · exact ⟨_, rfl⟩
      · split
        · exact ⟨_, rfl⟩
        · exact ih' _

/-- `walkDir` gives a result for a directory when the bound on the depth of the
recursion exceeds the depth of the file system below that directory. -/
theorem walkDir_isSome (fs : FS) (targetRoot : String) :
    ∀ (fuel : Nat) (root rel : String) (s : planState) (d : List String),
      IsAbs root = true → Clean root = root →
      fs.resolve true root = Except.ok (d, Kind.dir) →
      fs.depth < fuel + d.length → (fs.kindAt d = some Kind.dir ∨ 0 < fuel) →
      ∃ r, walkDir fs fuel root rel targetRoot s = some r := by
  intro fuel
  induction fuel with
  | zero =>
    intro root rel s d _ _ _ hdepth hkey
    rcases hkey with hkey | hkey
    · have := length_le_depth_of_kindAt hkey
      omega
    · omega
  | succ fuel ih =>
    intro root rel s d habs hclean hres hdepth _
    rw [walkDir]
    cases hes : os.ReadDir fs root with
    | error e => exact ⟨_, rfl⟩
    | ok es =>
      simp only
      apply walkEntries_isSome
      intro e he hk s
      have he' : e ∈ es := mem_sortEntries.1 he
      obtain ⟨d1, hd1, hes1⟩ := ReadDir_ok hes
      have hd01 : d1 = d := by
        rw [hres] at hd1
        simp only [Except.ok.injEq, Prod.mk.injEq, and_true] at hd1
        exact hd1.symm
      subst hd01
      rw [hes1] at he'
      obtain ⟨hv, hkind⟩ := entries_valid he'
      rw [hk] at hkind
      refine ih _ _ s (d1 ++ [e.Name]) (isAbs_Join_cons habs _)
        (Clean_Join_cons (ne_empty_of_isAbs habs) _)
        (FS.resolve_Join_child fs true habs hclean hv hres hkind (Or.inl rfl)) ?_ (Or.inl hkind)
      simp only [List.length_append, List.length_singleton]
      omega

theorem planPackages_isSome (fs : FS) (absDir targetRoot : String) (habs : IsAbs absDir = true)
    (fuel : Nat) (hfuel : fs.depth < fuel) :
    ∀ (pkgs : List String) (s : planState),
      ∃ r, planPackages fs fuel absDir targetRoot pkgs s = some r := by
  intro pkgs
  induction pkgs with
  | nil => exact fun s => ⟨_, rfl⟩
  | cons pkg rest ih =>
    intro s
    rw [planPackages]
    cases hst : os.Stat fs (Join [absDir, pkg]) with
    | error e => exact ⟨_, rfl⟩
    | ok info =>
      simp only
      split
      · exact ⟨_, rfl⟩
      · rename_i hisdir
        have hinfo : info = Kind.dir := eq_dir_of_isDir (by simpa using hisdir)
        subst hinfo
        obtain ⟨d0, hd0⟩ : ∃ d0, fs.resolve true (Join [absDir, pkg]) =
            Except.ok (d0, Kind.dir) := by
          unfold os.Stat at hst
          cases hr : fs.resolve true (Join [absDir, pkg]) with
          | error e => simp [hr] at hst
          | ok r =>
            obtain ⟨d0, k⟩ := r
            rw [hr] at hst
            simp only [Except.ok.injEq] at hst
            exact ⟨d0, by rw [hst]⟩
        obtain ⟨r, hr⟩ := walkDir_isSome fs targetRoot fuel (Join [absDir, pkg]) "" s d0
          (isAbs_Join_cons habs _) (Clean_Join_cons (ne_empty_of_isAbs habs) _) hd0
          (by omega) (Or.inr (by omega))
        rw [walkPackage, hr]
        obtain ⟨st1, _ | err⟩ := r
        · exact ih _
        · exact ⟨_, rfl⟩

/-- `BuildPlan` returns (a plan or an error) when the bound on the depth of the
recursion exceeds the depth of the file system. -/
theorem BuildPlan_isSome (fs : FS) (opts : Options) (fuel : Nat) (hfuel : fs.depth < fuel) :
    ∃ r, BuildPlan fs fuel opts = some r := by
  unfold BuildPlan
  split
  · exact ⟨_, rfl⟩
  · split
    · exact ⟨_, rfl⟩
    · rename_i absDir hdir
      split
      · exact ⟨_, rfl⟩
      · split
        · exact ⟨_, rfl⟩
        · split
          · exact ⟨_, rfl⟩
          · exact planPackages_isSome fs absDir _ (Abs_isAbs hdir) fuel hfuel _ _

/-! ## A larger bound gives the same result -/

theorem walkEntries_mono_descend (fs : FS)
    (descend descend' : String → String → planState → Option (planState × Option Error))
    (root rel targetRoot : String)
    (h : ∀ full r s res, descend full r s = some res → descend' full r s = some res) :
    ∀ (es : List DirEntry) (s : planState) (res : planState × Option Error),
      walkEntries fs descend root rel targetRoot es s = some res →
      walkEntries fs descend' root rel targetRoot es s = some res := by
  intro es
  induction es with
  | nil =>
    intro s res hw
    simpa [walkEntries] using hw
  | cons e rest ih =>
    intro s res hw
    rw [walkEntries] at hw ⊢
    split
    · rename_i hsym
      rw [if_pos hsym] at hw
      split at hw
      · exact hw
      · exact ih _ _ hw
    · rename_i hsym
      rw [if_neg hsym] at hw
      split
      · rename_i hdir
        rw [if_pos hdir] at hw
        split at hw
        · simp at hw
        · rename_i heq
          rw [h _ _ _ _ heq]
          exact hw
        · rename_i heq
          rw [h _ _ _ _ heq]
          exact ih _ _ hw
      · rename_i hdir
        rw [if_neg hdir] at hw
        split at hw
        · exact hw
        · exact ih _ _ hw

theorem walkDir_mono (fs : FS) (targetRoot : String) :
    ∀ (fuel : Nat) (root rel : String) (s : planState) (res : planState × Option Error),
      walkDir fs fuel root rel targetRoot s = some res →
      walkDir fs (fuel + 1) root rel targetRoot s = some res := by
  intro fuel
  induction fuel with
  | zero =>
    intro root rel s res h
    simp [walkDir] at h
  | succ fuel ih =>
    intro root rel s res h
    rw [walkDir] at h ⊢
    cases hes : os.ReadDir fs root with
    | error e =>
      rw [hes] at h
      exact h
    | ok es =>
      rw [hes] at h
      simp only at h ⊢
      exact walkEntries_mono_descend fs _ _ root rel targetRoot
        (fun full r s res hd => ih full r s res hd) _ _ _ h

theorem walkDir_mono_le (fs : FS) (targetRoot : String) {fuel fuel' : Nat} (hle : fuel ≤ fuel')
    (root rel : String) (s : planState) (res : planState × Option Error)
    (h : walkDir fs fuel root rel targetRoot s = some res) :
    walkDir fs fuel' root rel targetRoot s = some res := by
  induction hle with
  | refl => exact h
  | step _ ih => exact walkDir_mono fs targetRoot _ _ _ _ _ ih

theorem planPackages_mono (fs : FS) (absDir targetRoot : String) {fuel fuel' : Nat}
    (hle : fuel ≤ fuel') :
    ∀ (pkgs : List String) (s : planState) (res : PlanResult × Option Error),
      planPackages fs fuel absDir targetRoot pkgs s = some res →
      planPackages fs fuel' absDir targetRoot pkgs s = some res := by
  intro pkgs
  induction pkgs with
  | nil =>
    intro s res h
    simpa [planPackages] using h
  | cons pkg rest ih =>
    intro s res h
    rw [planPackages] at h ⊢
    cases hst : os.Stat fs (Join [absDir, pkg]) with
    | error e =>
      rw [hst] at h
      exact h
    | ok info =>
      rw [hst] at h
      simp only at h ⊢
      split
      · rename_i hd
        rw [if_pos hd] at h
        exact h
      · rename_i hd
        rw [if_neg hd] at h
        rw [walkPackage] at h ⊢
        split at h
        · simp at h
        · rename_i heq
          rw [walkDir_mono_le fs targetRoot hle _ _ _ _ heq]
          exact h
        · rename_i heq
          rw [walkDir_mono_le fs targetRoot hle _ _ _ _ heq]
          exact ih _ _ h

/-- A result of `BuildPlan` does not depend on the bound that gave it. -/
theorem BuildPlan_mono (fs : FS) (opts : Options) {fuel fuel' : Nat} (hle : fuel ≤ fuel')
    {res : PlanResult × Option Error} (h : BuildPlan fs fuel opts = some res) :
    BuildPlan fs fuel' opts = some res := by
  unfold BuildPlan at h ⊢
  by_cases h0 : opts.Packages.length = 0
  · rw [if_pos h0] at h ⊢
    exact h
  · rw [if_neg h0] at h ⊢
    cases hdir : Abs fs opts.Dir with
    | error e =>
      rw [hdir] at h
      exact h
    | ok absDir =>
      rw [hdir] at h
      simp only at h ⊢
      cases hst : os.Stat fs absDir with
      | error e =>
        rw [hst] at h
        exact h
      | ok info =>
        rw [hst] at h
        simp only at h ⊢
        by_cases hd : (!info.IsDir) = true
        · rw [if_pos hd] at h ⊢
          exact h
        · rw [if_neg hd] at h ⊢
          cases ht : Abs fs opts.Target with
          | error e =>
            rw [ht] at h
            exact h
          | ok absTarget =>
            rw [ht] at h
            exact planPackages_mono fs _ _ hle _ _ _ h

/-! ## Validation -/

/-- An error of the loop of `BuildPlan` comes with the empty plan. -/
theorem planPackages_error_empty (fs : FS) (fuel : Nat) (absDir absTarget : String) :
    ∀ (pkgs : List String) (s : planState) (res : PlanResult) (err : Error),
      planPackages fs fuel absDir absTarget pkgs s = some (res, some err) → res = ⟨[], []⟩ := by
  intro pkgs
  induction pkgs with
  | nil =>
    intro s res err h
    simp [planPackages] at h
  | cons pkg rest ih =>
    intro s res err h
    rw [planPackages] at h
    split at h
    · simp only [Option.some.injEq, Prod.mk.injEq] at h
      exact h.1.symm
    · split at h
      · simp only [Option.some.injEq, Prod.mk.injEq] at h
        exact h.1.symm
      · split at h
        · simp at h
        · simp only [Option.some.injEq, Prod.mk.injEq] at h
          exact h.1.symm
        · exact ih _ _ _ h

/-- An error of `BuildPlan` comes with the empty plan. -/
theorem BuildPlan_error_empty {fs : FS} {fuel : Nat} {opts : Options} {res : PlanResult}
    {err : Error} (h : BuildPlan fs fuel opts = some (res, some err)) : res = ⟨[], []⟩ := by
  unfold BuildPlan at h
  split at h
  · simp only [Option.some.injEq, Prod.mk.injEq] at h
    exact h.1.symm
  · split at h
    · simp only [Option.some.injEq, Prod.mk.injEq] at h
      exact h.1.symm
    · split at h
      · simp only [Option.some.injEq, Prod.mk.injEq] at h
        exact h.1.symm
      · split at h
        · simp only [Option.some.injEq, Prod.mk.injEq] at h
          exact h.1.symm
        · split at h
          · simp only [Option.some.injEq, Prod.mk.injEq] at h
            exact h.1.symm
          · exact planPackages_error_empty fs fuel _ _ _ _ _ _ h

/-- The loop of `BuildPlan` over packages one of which is not a directory
ends with an error, whatever the packages before it gave. -/
theorem planPackages_bad_package (fs : FS) (fuel : Nat) (absDir absTarget : String)
    {bad : String} (hbad : os.Stat fs (Join [absDir, bad]) ≠ Except.ok Kind.dir) :
    ∀ (pkgs : List String), bad ∈ pkgs → ∀ (s : planState) (r : PlanResult × Option Error),
      planPackages fs fuel absDir absTarget pkgs s = some r → ∃ err, r.2 = some err := by
  intro pkgs
  induction pkgs with
  | nil =>
    intro hmem
    simp at hmem
  | cons pkg rest ih =>
    intro hmem s r h
    rw [planPackages] at h
    cases hst : os.Stat fs (Join [absDir, pkg]) with
    | error e =>
      rw [hst] at h
      simp only [Option.some.injEq] at h
      exact ⟨_, by rw [← h]⟩
    | ok info =>
      rw [hst] at h
      simp only at h
      split at h
      · simp only [Option.some.injEq] at h
        exact ⟨_, by rw [← h]⟩
      · rename_i hisdir
        have hinfo : info = Kind.dir := eq_dir_of_isDir (by simpa using hisdir)
        subst hinfo
        have hne : pkg ≠ bad := by
          intro hpb
          rw [hpb] at hst
          exact hbad hst
        have hrest : bad ∈ rest := by
          rcases List.mem_cons.1 hmem with hm | hm
          · exact absurd hm.symm hne
          · exact hm
        split at h
        · simp at h
        · simp only [Option.some.injEq] at h
          exact ⟨_, by rw [← h]⟩
        · exact ih hrest _ _ h

/-- C11: an error of `BuildPlan` comes with the empty plan; `BuildPlan` returns
an error and the empty plan when the package list is empty, when the stow
directory is not an existing directory, and (with a bound above the depth of
the file system) when one of the packages is not an existing directory, also
when packages before it in sorted order gave operations or conflicts. -/
theorem BuildPlan_fail_fast (fs : FS) (fuel : Nat) (opts : Options) :
    (∀ res err, BuildPlan fs fuel opts = some (res, some err) → res = ⟨[], []⟩) ∧
    (opts.Packages = [] →
      BuildPlan fs fuel opts =
        some (⟨[], []⟩, some (Error.msg "at least one package is required"))) ∧
    (∀ absDir, Abs fs opts.Dir = Except.ok absDir →
      os.Stat fs absDir ≠ Except.ok Kind.dir →
      ∃ err, BuildPlan fs fuel opts = some (⟨[], []⟩, some err)) ∧
    (fs.depth < fuel → ∀ absDir, Abs fs opts.Dir = Except.ok absDir →
      ∀ pkg ∈ opts.Packages, os.Stat fs (Join [absDir, pkg]) ≠ Except.ok Kind.dir →
      ∃ err, BuildPlan fs fuel opts = some (⟨[], []⟩, some err)) := by
  refine ⟨fun res err h => BuildPlan_error_empty h, ?_, ?_, ?_⟩
  · intro h
    simp [BuildPlan, h]
  · intro absDir hdir hst
    unfold BuildPlan
    by_cases h0 : opts.Packages.length = 0
    · rw [if_pos h0]
      exact ⟨_, rfl⟩
    · rw [if_neg h0, hdir]
      simp only
      cases hs : os.Stat fs absDir with
      | error e => exact ⟨_, rfl⟩
      | ok info =>
        simp only
        cases info with
        | dir => exact absurd hs hst
        | file c => simp [Kind.IsDir]
        | symlink v => simp [Kind.IsDir]
  · intro hfuel absDir hdir pkg hpkg hst
    obtain ⟨⟨res, e⟩, hr⟩ := BuildPlan_isSome fs opts fuel hfuel
    have herr : ∃ err, e = some err := by
      have hr' := hr
      unfold BuildPlan at hr'
      by_cases h0 : opts.Packages.length = 0
      · rw [if_pos h0] at hr'
        simp only [Option.some.injEq, Prod.mk.injEq] at hr'
        exact ⟨_, hr'.2.symm⟩
      · rw [if_neg h0, hdir] at hr'
        simp only at hr'
        split at hr'
        · simp only [Option.some.injEq, Prod.mk.injEq] at hr'
          exact ⟨_, hr'.2.symm⟩
        · split at hr'
          · simp only [Option.some.injEq, Prod.mk.injEq] at hr'
            exact ⟨_, hr'.2.symm⟩
          · split at hr'
            · simp only [Option.some.injEq, Prod.mk.injEq] at hr'
              exact ⟨_, hr'.2.symm⟩
            · exact planPackages_bad_package fs fuel absDir _ hst _
                ((sortStrings_perm _).mem_iff.2 hpkg) _ _ hr'
    obtain ⟨err, rfl⟩ := herr
    rw [BuildPlan_error_empty hr] at hr
    exact ⟨err, hr⟩

/-- The package `pkg-a` of `fsMapping` gives three operations, and the plan
is empty all the same when the package `zz` does not exist. -/
theorem BuildPlan_fail_fast_witness :
    BuildPlan fsMapping 2 ⟨"/s", "/tmp/target", ["pkg-a"]⟩ =
      some (⟨[⟨"/s/pkg-a/alpha.txt", "/tmp/target/alpha.txt"⟩,
              ⟨"/s/pkg-a/dir/bravo.txt", "/tmp/target/dir/bravo.txt"⟩,
              ⟨"/s/pkg-a/zeta.txt", "/tmp/target/zeta.txt"⟩], []⟩, none) ∧
    BuildPlan fsMapping 5 ⟨"/s", "/tmp/target", ["zz", "pkg-a"]⟩ =
      some (⟨[], []⟩, some (Error.PathError "/s/zz" (Error.sys Errno.ENOENT))) ∧
    ∃ err, BuildPlan fsMapping 5 ⟨"/s", "/tmp/target", ["zz", "pkg-a"]⟩ =
      some (⟨[], []⟩, some err) :=
  ⟨by decide, by decide,
   (BuildPlan_fail_fast fsMapping 5 ⟨"/s", "/tmp/target", ["zz", "pkg-a"]⟩).2.2.2 (by decide)
     "/s" (by decide) "zz" (by decide) (by decide)⟩

/-! ## Directories made by `MkdirAll` -/

/-- A walk that does not follow a final symbolic link and ends at something
else is the walk that follows it. -/
theorem FS.walk_follow (fs : FS) :
    ∀ (l cur : List String),
      (∀ p k, fs.walk false cur l = Walk.done p k → k.IsSymlink = false →
        fs.walk true cur l = Walk.done p k) ∧
      (∀ c l1, fs.walk false cur l = Walk.link c l1 → fs.walk true cur l = Walk.link c l1) := by
  intro l
  induction l with
  | nil =>
    intro cur
    constructor
    · intro p k h _
      simpa [FS.walk] using h
    · intro c l1 h
      simp [FS.walk] at h
  | cons x rest ih =>
    intro cur
    rw [FS.walk, FS.walk]
    split
    · exact ih cur
    · split
      · exact ih _
      · cases hk : fs.kindAt (cur ++ [x]) with
        | none => simp
        | some k =>
          cases k with
          | dir => exact ih _
          | file s =>
            constructor
            · intro p k h _
              exact h
            · intro c l1 h
              exact h
          | symlink v =>
            simp only [and_true, Bool.true_eq_false, and_false, if_false]
            constructor
            · intro p k h hs
              split at h
              · simp only [Walk.done.injEq] at h
                rw [← h.2] at hs
                simp [Kind.IsSymlink] at hs
              · split at h <;> simp at h
            · intro c l1 h
              split at h
              · simp at h
              · exact h

theorem FS.resolveFrom_follow (fs : FS) :
    ∀ (budget : Nat) (cur l p : List String) (k : Kind),
      fs.resolveFrom false budget cur l = Except.ok (p, k) → k.IsSymlink = false →
      fs.resolveFrom true budget cur l = Except.ok (p, k) := by
  intro budget
  induction budget with
  | zero =>
    intro cur l p k h
    simp [FS.resolveFrom] at h
  | succ budget ih =>
    intro cur l p k h hs
    rw [FS.resolveFrom] at h ⊢
    cases hw : fs.walk false cur l with
    | done p1 k1 =>
      rw [hw] at h
      simp only [Except.ok.injEq, Prod.mk.injEq] at h
      obtain ⟨rfl, rfl⟩ := h
      rw [(FS.walk_follow fs l cur).1 _ _ hw hs]
    | fail e =>
      rw [hw] at h
      simp at h
    | link c l1 =>
      rw [hw] at h
      rw [(FS.walk_follow fs l cur).2 _ _ hw]
      exact ih _ _ _ _ h hs

/-- What `Lstat` finds at a path, a symbolic link apart, is what `Stat` finds. -/
theorem Stat_of_Lstat {fs : FS} {path : String} {k : Kind}
    (h : os.Lstat fs path = Except.ok k) (hs : k.IsSymlink = false) :
    os.Stat fs path = Except.ok k := by
  unfold os.Lstat at h
  unfold os.Stat
  cases hr : fs.resolve false path with
  | error e => simp [hr] at h
  | ok r =>
    obtain ⟨p, k1⟩ := r
    rw [hr] at h
    simp only [Except.ok.injEq] at h
    subst h
    have : fs.resolve true path = Except.ok (p, k1) := by
      unfold FS.resolve at hr ⊢
      split
      · rename_i hp
        rw [if_pos hp] at hr
        simp at hr
      · rename_i hp
        rw [if_neg hp] at hr
        unfold FS.resolveElems at hr ⊢
        split
        · rename_i ha
          rw [if_pos ha] at hr
          exact FS.resolveFrom_follow fs _ _ _ _ _ hr hs
        · rename_i ha
          rw [if_neg ha] at hr
          cases hc : fs.cwd with
          | none => simp [hc] at hr
          | some d =>
            simp only [hc] at hr ⊢
            split
            · rename_i hd
              rw [if_pos hd] at hr
              exact FS.resolveFrom_follow fs _ _ _ _ _ hr hs
            · rename_i hd
              rw [if_neg hd] at hr
              simp at hr
    rw [this]

/-- The path `Mkdir` was given denotes a directory afterwards. -/
theorem Mkdir_ok {fs fs2 : FS} {path : String} (h : os.Mkdir fs path = Except.ok fs2) :
    os.Stat fs2 path = Except.ok Kind.dir := by
  unfold os.Mkdir at h
  split at h
  · simp at h
  · rename_i p name hnew
    simp only [Except.ok.injEq] at h
    subst h
    obtain ⟨hpath, hname, hnone, parent, hel, hres⟩ := FS.resolveNew_ok hnew
    have hg : fs.Grows (fs.insert (p ++ [name]) Kind.dir) := FS.Grows.insert hnone _
    have hr : (fs.insert (p ++ [name]) Kind.dir).resolve true path =
        Except.ok (p ++ [name], Kind.dir) := by
      rw [FS.resolve, if_neg hpath, hel]
      exact FS.resolveElems_append _ true _ hname (hg.resolveElems true _ hres)
        (FS.kindAt_insert fs (by simp) _) (Or.inl rfl)
    simp [os.Stat, hr]

theorem mkdirAllRev_ok {fs fs1 : FS} {c : String} {rest : List String}
    (h : os.mkdirAllRev fs (c :: rest) = (fs1, none)) :
    os.Stat fs1 (unsplit (c :: rest).reverse) = Except.ok Kind.dir := by
  rw [os.mkdirAllRev] at h
  split at h
  · rename_i k hst
    split at h
    · rename_i hk
      simp only [Prod.mk.injEq, and_true] at h
      subst h
      rw [hst, eq_dir_of_isDir hk]
    · simp at h
  · split at h
    · simp at h
    · rename_i fs1a hparent
      split at h
      · rename_i fs2 hmk
        simp only [Prod.mk.injEq, and_true] at h
        subst h
        exact Mkdir_ok hmk
      · split at h
        · rename_i k hl
          split at h
          · rename_i hk
            simp only [Prod.mk.injEq, and_true] at h
            subst h
            have hkd := eq_dir_of_isDir hk
            subst hkd
            exact Stat_of_Lstat hl rfl
          · simp at h
        · simp at h

/-- The path `MkdirAll` was given denotes a directory when no error is returned. -/
theorem MkdirAll_ok {fs fs1 : FS} {path : String} (h : os.MkdirAll fs path = (fs1, none)) :
    os.Stat fs1 path = Except.ok Kind.dir := by
  unfold os.MkdirAll at h
  cases hl : (elements path).reverse with
  | nil =>
    have := elements_ne_nil path
    simp at hl
    exact absurd hl this
  | cons c rest =>
    rw [hl] at h
    have := mkdirAllRev_ok h
    rw [← hl, List.reverse_reverse, unsplit_elements] at this
    exact this

/-! ## The directories above a path -/

/-- A walk along `l` and one more element that does not fail has walked
along `l` through directories, or has met the same symbolic link there. -/
theorem FS.walk_prefix (fs : FS) (follow : Bool) (c : String) :
    ∀ (l cur : List String),
      (∀ p k, fs.walk follow cur (l ++ [c]) = Walk.done p k →
        ∃ d, fs.walk true cur l = Walk.done d Kind.dir) ∧
      (∀ c1 l1, fs.walk follow cur (l ++ [c]) = Walk.link c1 l1 →
        (∃ d, fs.walk true cur l = Walk.done d Kind.dir) ∨
          ∃ l2, fs.walk true cur l = Walk.link c1 l2 ∧ l1 = l2 ++ [c]) := by
  intro l
  induction l with
  | nil =>
    intro cur
    exact ⟨fun _ _ _ => ⟨cur, by simp [FS.walk]⟩, fun _ _ _ => Or.inl ⟨cur, by simp [FS.walk]⟩⟩
  | cons x rest ih =>
    intro cur
    rw [List.cons_append, FS.walk, FS.walk]
    split
    · exact ih cur
    · split
      · exact ih _
      · cases hk : fs.kindAt (cur ++ [x]) with
        | none => simp
        | some k =>
          cases k with
          | dir => exact ih _
          | file s => simp
          | symlink v =>
            simp only [List.append_eq_nil, List.cons_ne_self, and_false, false_and, if_false,
              Bool.true_eq_false]
            constructor
            · intro p k h
              split at h <;> simp at h
            · intro c1 l1 h
              right
              split at h
              · simp only [Walk.link.injEq] at h
                exact ⟨_, by rw [if_pos (by assumption), h.1], by
                  rw [← h.2, List.append_assoc]⟩
              · simp only [Walk.link.injEq] at h
                exact ⟨_, by rw [if_neg (by assumption), h.1], by
                  rw [← h.2, List.append_assoc]⟩

theorem FS.resolveFrom_prefix (fs : FS) (follow : Bool) (c : String) :
    ∀ (budget : Nat) (cur l : List String) (r : List String × Kind),
      fs.resolveFrom follow budget cur (l ++ [c]) = Except.ok r →
      ∃ d, fs.resolveFrom true budget cur l = Except.ok (d, Kind.dir) := by
  intro budget
  induction budget with
  | zero =>
    intro cur l r h
    simp [FS.resolveFrom] at h
  | succ budget ih =>
    intro cur l r h
    rw [FS.resolveFrom] at h
    rw [FS.resolveFrom]
    cases hw : fs.walk follow cur (l ++ [c]) with
    | done p k =>
      obtain ⟨d, hd⟩ := (FS.walk_prefix fs follow c l cur).1 _ _ hw
      exact ⟨d, by rw [hd]⟩
    | fail e =>
      rw [hw] at h
      simp at h
    | link c1 l1 =>
      rw [hw] at h
      rcases (FS.walk_prefix fs follow c l cur).2 _ _ hw with ⟨d, hd⟩ | ⟨l2, hl2, rfl⟩
      · exact ⟨d, by rw [hd]⟩
      · rw [hl2]
        exact ih _ _ _ h

/-- A path that can be resolved leads through a directory up to its last element. -/
theorem FS.resolveElems_prefix (fs : FS) (follow abs : Bool) (c : String) (l : List String)
    (r : List String × Kind) (h : fs.resolveElems follow abs (l ++ [c]) = Except.ok r) :
    ∃ d, fs.resolveElems true abs l = Except.ok (d, Kind.dir) := by
  unfold FS.resolveElems at h ⊢
  split
  · rename_i ha
    rw [if_pos ha] at h
    exact FS.resolveFrom_prefix fs follow c _ _ _ _ h
  · rename_i ha
    rw [if_neg ha] at h
    cases hc : fs.cwd with
    | none => simp [hc] at h
    | some d =>
      simp only [hc] at h ⊢
      split
      · rename_i hd
        rw [if_pos hd] at h
        exact FS.resolveFrom_prefix fs follow c _ _ _ _ h
      · rename_i hd
        rw [if_neg hd] at h
        simp at h

/-- The empty list of elements denotes a directory, if anything. -/
theorem FS.resolveElems_nil {fs : FS} {follow abs : Bool} {r : List String × Kind}
    (h : fs.resolveElems follow abs [] = Except.ok r) : r.2 = Kind.dir := by
  unfold FS.resolveElems at h
  split at h
  · simp only [FS.resolveFrom, FS.walk, Except.ok.injEq] at h
    rw [← h]
  · cases hc : fs.cwd with
    | none => simp [hc] at h
    | some d =>
      simp only [hc] at h
      split at h
      · simp only [FS.resolveFrom, FS.walk, Except.ok.injEq] at h
        rw [← h]
      · simp at h

namespace filepath

theorem Dir_render_nil (rooted : Bool) : Dir (render rooted []) = render rooted [] := by
  cases rooted <;> decide

/-- The parent of a clean path: the last element is taken away. -/
theorem Dir_render_cons {rooted : Bool} {top : String} {rest : List String}
    (hn : Normal rooted (top :: rest)) (hs : ∀ x ∈ top :: rest, NoSep x) :
    Dir (render rooted (top :: rest)) = render rooted rest := by
  have hnr : Normal rooted rest := hn.1
  have hsr : ∀ x ∈ rest, NoSep x := fun x hx => hs x (List.mem_cons_of_mem _ hx)
  have hfold : ∀ pre : List String, (∀ x ∈ pre, x = "") →
      cleanElements rooted (pre ++ (rest.reverse ++ [""])) = rest := by
    intro pre hpre
    have h1 : pre.foldl (cleanStep rooted) [] = [] := by
      clear hn hs
      induction pre with
      | nil => rfl
      | cons a t ih =>
        have ha : a = "" := hpre a (List.mem_cons_self _ _)
        subst ha
        rw [List.foldl_cons]
        simp only [cleanStep, true_or, if_true]
        exact ih (fun x hx => hpre x (List.mem_cons_of_mem _ hx))
    simp only [cleanElements, List.foldl_append, h1, foldl_cleanStep_reverse hnr,
      List.foldl_cons, List.foldl_nil, cleanStep, true_or, if_true]
  cases rooted with
  | true =>
    have hel : elements (render true (top :: rest)) = ("" :: rest.reverse) ++ [top] := by
      rw [elements_render_true hs]
      simp
    unfold Dir
    rw [hel, List.dropLast_concat]
    have hq : ("" :: rest.reverse) ++ [""] = "" :: (rest.reverse ++ [""]) := rfl
    have hns : ∀ x ∈ "" :: (rest.reverse ++ [""]), NoSep x := by
      intro x hx
      simp only [List.mem_cons, List.mem_append, List.mem_reverse, List.mem_singleton,
        List.not_mem_nil, or_false] at hx
      rcases hx with rfl | hx | rfl
      · simp [NoSep]
      · exact hsr x hx
      · simp [NoSep]
    have hdata : (unsplit ("" :: (rest.reverse ++ [""]))).data =
        '/' :: joinSep ((rest.reverse ++ [""]).map String.data) := by
      unfold unsplit
      rw [List.map_cons, joinSep_cons_of_ne_nil _ (by simp)]
      rfl
    have habs : IsAbs (unsplit ("" :: (rest.reverse ++ [""]))) = true := by
      unfold IsAbs
      rw [hdata]
      simp
    have hne : unsplit ("" :: (rest.reverse ++ [""])) ≠ "" := ne_empty_of_isAbs habs
    rw [hq, Clean_eq_render, if_neg hne, habs, elements_unsplit (by simp) hns]
    have := hfold [""] (by simp)
    rw [List.singleton_append] at this
    rw [this]
  | false =>
    have hel : elements (render false (top :: rest)) = rest.reverse ++ [top] := by
      simp only [render, Bool.false_eq_true, if_false]
      rw [elements_unsplit (by simp) (fun x hx => hs x (List.mem_reverse.1 hx))]
      simp
    unfold Dir
    rw [hel, List.dropLast_concat]
    cases hrev : rest.reverse with
    | nil =>
      have : rest = [] := by simpa using hrev
      subst this
      decide
    | cons x l =>
      have hx : x ∈ rest := by
        rw [← List.mem_reverse, hrev]
        exact List.mem_cons_self _ _
      have hxne : x ≠ "" := ne_empty_of_normal hnr x hx
      have hns : ∀ y ∈ x :: (l ++ [""]), NoSep y := by
        intro y hy
        rw [← List.cons_append, ← hrev] at hy
        simp only [List.mem_append, List.mem_reverse, List.mem_singleton] at hy
        rcases hy with hy | rfl
        · exact hsr y hy
        · simp [NoSep]
      rw [List.cons_append, Clean_eq_render, if_neg (unsplit_ne_empty hxne),
        isAbs_unsplit_of_head hxne (hsr x hx), elements_unsplit (by simp) hns]
      have := hfold [] (by simp)
      rw [List.nil_append, hrev, List.cons_append] at this
      rw [this]

end filepath

/-- A clean path denotes what its elements denote. -/
theorem FS.resolve_render_elems (fs : FS) (follow : Bool) {rooted : Bool} {out : List String}
    (hn : Normal rooted out) (hs : ∀ x ∈ out, NoSep x) :
    fs.resolve follow (render rooted out) = fs.resolveElems follow rooted out.reverse := by
  cases rooted with
  | true =>
    rw [FS.resolve_render fs follow hs]
    simp [FS.resolveElems]
  | false =>
    cases out with
    | nil =>
      have h1 : render false [] = "." := rfl
      have h2 : elements "." = ["."] := by decide
      have h3 : IsAbs "." = false := by decide
      rw [h1, FS.resolve, if_neg (by decide), h2, h3]
      simp [FS.resolveElems, FS.resolveFrom, FS.walk]
    | cons top rest =>
      obtain ⟨hne, habs, _⟩ := render_spec hn hs
      rw [FS.resolve, if_neg hne, habs]
      simp only [render, Bool.false_eq_true, if_false]
      rw [elements_unsplit (by simp) (fun x hx => hs x (List.mem_reverse.1 hx))]

/-- The parent of a clean path that denotes something denotes a directory. -/
theorem Stat_Dir {fs : FS} {path : String} {k : Kind} (hclean : Clean path = path)
    (h : os.Stat fs path = Except.ok k) : os.Stat fs (Dir path) = Except.ok Kind.dir := by
  have hne : path ≠ "" := by
    rw [← hclean]
    exact Clean_ne_empty path
  have hr := Clean_eq_render path
  rw [if_neg hne, hclean] at hr
  have hn := cleanElements_normal (IsAbs path) (elements path)
  have hs := cleanElements_noSep (IsAbs path) path
  generalize cleanElements (IsAbs path) (elements path) = out at hr hn hs
  have hres : ∃ r, fs.resolve true path = Except.ok r := by
    unfold os.Stat at h
    cases hx : fs.resolve true path with
    | error e => simp [hx] at h
    | ok r => exact ⟨r, rfl⟩
  obtain ⟨r, hres⟩ := hres
  rw [hr, FS.resolve_render_elems fs true hn hs] at hres
  cases out with
  | nil =>
    have hk := FS.resolveElems_nil hres
    rw [hr, Dir_render_nil]
    unfold os.Stat
    rw [FS.resolve_render_elems fs true hn hs, hres]
    obtain ⟨p, k1⟩ := r
    simp only at hk
    subst hk
    rfl
  | cons top rest =>
    rw [List.reverse_cons] at hres
    obtain ⟨d, hd⟩ := FS.resolveElems_prefix fs true _ top _ r hres
    rw [hr, Dir_render_cons hn hs]
    unfold os.Stat
    rw [FS.resolve_render_elems fs true hn.1 (fun x hx => hs x (List.mem_cons_of_mem _ hx)), hd]

theorem Clean_Dir (path : String) : Clean (Dir path) = Dir path := by
  unfold Dir
  exact Clean_Clean _

/-- Every directory above a path whose parent is a directory is one. -/
theorem Stat_Dir_iterate {fs : FS} {path : String}
    (h : os.Stat fs (Dir path) = Except.ok Kind.dir) :
    ∀ n : Nat, os.Stat fs (Dir^[n + 1] path) = Except.ok Kind.dir ∧
      Clean (Dir^[n + 1] path) = Dir^[n + 1] path := by
  intro n
  induction n with
  | zero => exact ⟨h, Clean_Dir path⟩
  | succ n ih =>
    rw [Function.iterate_succ_apply']
    exact ⟨Stat_Dir ih.2 ih.1, Clean_Dir _⟩

/-! ## What `Execute` leaves behind -/

/-- After the loop of `Execute` has ended without an error the parent of the
target of every operation is a directory. -/
theorem executeOps_parents (ops : List Operation) :
    ∀ (fs fs' : FS), executeOps fs ops = (fs', none) →
      ∀ op ∈ ops, os.Stat fs' (Dir op.Target) = Except.ok Kind.dir := by
  induction ops with
  | nil => simp
  | cons op rest ih =>
    intro fs fs' h op' hop'
    rw [executeOps] at h
    split at h
    · simp at h
    · rename_i fs1 hmk
      split at h
      · simp at h
      · rename_i fs2 hsl
        rcases List.mem_cons.1 hop' with rfl | hmem
        · have h1 := MkdirAll_ok hmk
          have h2 := (Symlink_ok hsl).1
          have h3 := executeOps_grows rest fs2
          rw [h] at h3
          exact FS.Grows.Stat h3 (FS.Grows.Stat h2 h1)
        · exact ih fs2 fs' h op' hmem

/-- C13: after `Execute` without `DryRun` has returned no error, the target of
every operation is a symbolic link whose value is the source of the operation,
and the parent of the target, its parent, and so on are directories; no node
the file system had has been taken away or replaced. -/
theorem Execute_postcondition (fs fs' : FS) (plan : PlanResult)
    (h : Execute fs plan ⟨false⟩ = (fs', none)) :
    fs.Grows fs' ∧
    ∀ op ∈ plan.Operations,
      os.Lstat fs' op.Target = Except.ok (Kind.symlink op.Source) ∧
      os.Readlink fs' op.Target = Except.ok op.Source ∧
      ∀ n : Nat, os.Stat fs' (Dir^[n + 1] op.Target) = Except.ok Kind.dir := by
  have he : executeOps fs plan.Operations = (fs', none) := by
    simpa [Execute] using h
  refine ⟨?_, ?_⟩
  · have := executeOps_grows plan.Operations fs
    rw [he] at this
    exact this
  · intro op hop
    obtain ⟨h1, h2⟩ := executeOps_linked plan.Operations fs fs' he op hop
    exact ⟨h1, h2, fun n => (Stat_Dir_iterate (executeOps_parents _ fs fs' he op hop) n).1⟩

/-- The plan for `fsNested` is executed: `/t/nested` is made and the link is
put into it. -/
theorem Execute_postcondition_witness :
    BuildPlan fsNested 3 ⟨"/s", "/t", ["pkg"]⟩ =
      some (⟨[⟨"/s/pkg/nested/alpha.txt", "/t/nested/alpha.txt"⟩], []⟩, none) ∧
    os.Stat fsNested "/t/nested" = Except.error Errno.ENOENT ∧
    os.Stat fsNestedAfter "/t/nested" = Except.ok Kind.dir ∧
    (fsNested.Grows fsNestedAfter ∧
      ∀ op ∈ ([⟨"/s/pkg/nested/alpha.txt", "/t/nested/alpha.txt"⟩] : List Operation),
        os.Lstat fsNestedAfter op.Target = Except.ok (Kind.symlink op.Source) ∧
        os.Readlink fsNestedAfter op.Target = Except.ok op.Source ∧
        ∀ n : Nat, os.Stat fsNestedAfter (Dir^[n + 1] op.Target) = Except.ok Kind.dir) :=
  ⟨by decide, by decide, by decide,
   Execute_postcondition fsNested fsNestedAfter
     ⟨[⟨"/s/pkg/nested/alpha.txt", "/t/nested/alpha.txt"⟩], []⟩ (by decide)⟩

/-- An error of the loop of `Execute` comes from the first operation that
fails: the operations before it have been carried out, and the ones after it
play no part. -/
theorem executeOps_error (ops : List Operation) :
    ∀ (fs fs' : FS) (err : Error), executeOps fs ops = (fs', some err) →
      ∃ pre op post fs1, ops = pre ++ op :: post ∧ executeOps fs pre = (fs1, none) ∧
        (∃ e, err = Error.OpError op.Target (Error.sys e) ∧
          ((os.MkdirAll fs1 (Dir op.Target)).2 = some e ∨
            ((os.MkdirAll fs1 (Dir op.Target)).2 = none ∧
              os.Symlink (os.MkdirAll fs1 (Dir op.Target)).1 op.Source op.Target =
                Except.error e))) ∧
        fs' = (os.MkdirAll fs1 (Dir op.Target)).1 ∧
        ∀ post1, executeOps fs (pre ++ op :: post1) = (fs', some err) := by
  induction ops with
  | nil =>
    intro fs fs' err h
    simp [executeOps] at h
  | cons op rest ih =>
    intro fs fs' err h
    rw [executeOps] at h
    cases hmk : os.MkdirAll fs (Dir op.Target) with
    | mk fs1 oe =>
      rw [hmk] at h
      cases oe with
      | some e =>
        simp only [Prod.mk.injEq, Option.some.injEq] at h
        obtain ⟨rfl, rfl⟩ := h
        refine ⟨[], op, rest, fs, rfl, rfl, ⟨e, rfl, Or.inl (by rw [hmk])⟩, by rw [hmk], ?_⟩
        intro post1
        rw [List.nil_append, executeOps, hmk]
      | none =>
        simp only at h
        cases hsl : os.Symlink fs1 op.Source op.Target with
        | error e =>
          rw [hsl] at h
          simp only [Prod.mk.injEq, Option.some.injEq] at h
          obtain ⟨rfl, rfl⟩ := h
          refine ⟨[], op, rest, fs, rfl, rfl,
            ⟨e, rfl, Or.inr ⟨by rw [hmk], by rw [hmk]; exact hsl⟩⟩, by rw [hmk], ?_⟩
          intro post1
          rw [List.nil_append, executeOps, hmk]
          simp only [hsl]
        | ok fs2 =>
          rw [hsl] at h
          simp only at h
          obtain ⟨pre, op1, post, fs3, hops, hpre, herr, hfs, hpost⟩ := ih fs2 fs' err h
          refine ⟨op :: pre, op1, post, fs3, by rw [hops]; rfl, ?_, herr, hfs, ?_⟩
          · rw [executeOps, hmk]
            simp only [hsl]
            exact hpre
          · intro post1
            rw [List.cons_append, executeOps, hmk]
            simp only [hsl]
            exact hpost post1

/-- C14: when `Execute` without `DryRun` returns an error, the operations are
`pre ++ op :: post` where every operation of `pre` has been carried out without
an error, the making of the parent directory of `op` or of its link has failed
with the cause `e`, and the error is an `OpError` with the target of `op`; the
links of the operations of `pre` are there afterwards, nothing has been done
after the failure, and the operations after `op` play no part in the outcome. -/
theorem Execute_abort (fs fs' : FS) (plan : PlanResult) (err : Error)
    (h : Execute fs plan ⟨false⟩ = (fs', some err)) :
    ∃ pre op post fs1, plan.Operations = pre ++ op :: post ∧
      executeOps fs pre = (fs1, none) ∧
      (∃ e, err = Error.OpError op.Target (Error.sys e) ∧
        ((os.MkdirAll fs1 (Dir op.Target)).2 = some e ∨
          ((os.MkdirAll fs1 (Dir op.Target)).2 = none ∧
            os.Symlink (os.MkdirAll fs1 (Dir op.Target)).1 op.Source op.Target =
              Except.error e))) ∧
      fs' = (os.MkdirAll fs1 (Dir op.Target)).1 ∧
      (∀ o ∈ pre, os.Lstat fs' o.Target = Except.ok (Kind.symlink o.Source) ∧
        os.Readlink fs' o.Target = Except.ok o.Source) ∧
      ∀ post1 cs, Execute fs ⟨pre ++ op :: post1, cs⟩ ⟨false⟩ = (fs', some err) := by
  have he : executeOps fs plan.Operations = (fs', some err) := by
    simpa [Execute] using h
  obtain ⟨pre, op, post, fs1, hops, hpre, herr, hfs, hpost⟩ := executeOps_error _ fs fs' err he
  refine ⟨pre, op, post, fs1, hops, hpre, herr, hfs, ?_, ?_⟩
  · intro o ho
    obtain ⟨h1, h2⟩ := executeOps_linked pre fs fs1 hpre o ho
    have hg : fs1.Grows fs' := by
      rw [hfs]
      exact MkdirAll_grows fs1 _
    exact ⟨FS.Grows.Lstat hg h1, FS.Grows.Readlink hg h2⟩
  · intro post1 cs
    simpa [Execute] using hpost post1

/-- In `fsConflict` the second of three operations fails, its target being
taken: the first link is there afterwards, the third is not. -/
theorem Execute_abort_witness :
    os.Lstat (fsConflict.insert ["t", "one"] (Kind.symlink "/s/pkg/alpha.txt")) "/t/three" =
      Except.error Errno.ENOENT ∧
    ∃ pre op post fs1,
      ([⟨"/s/pkg/alpha.txt", "/t/one"⟩, ⟨"/s/pkg/beta.txt", "/t/alpha.txt"⟩,
        ⟨"/s/pkg/gamma.txt", "/t/three"⟩] : List Operation) = pre ++ op :: post ∧
      executeOps fsConflict pre = (fs1, none) ∧
      (∃ e, Error.OpError "/t/alpha.txt" (Error.sys Errno.EEXIST) =
          Error.OpError op.Target (Error.sys e) ∧
        ((os.MkdirAll fs1 (Dir op.Target)).2 = some e ∨
          ((os.MkdirAll fs1 (Dir op.Target)).2 = none ∧
            os.Symlink (os.MkdirAll fs1 (Dir op.Target)).1 op.Source op.Target =
              Except.error e))) ∧
      fsConflict.insert ["t", "one"] (Kind.symlink "/s/pkg/alpha.txt") =
        (os.MkdirAll fs1 (Dir op.Target)).1 ∧
      (∀ o ∈ pre,
        os.Lstat (fsConflict.insert ["t", "one"] (Kind.symlink "/s/pkg/alpha.txt")) o.Target =
          Except.ok (Kind.symlink o.Source) ∧
        os.Readlink (fsConflict.insert ["t", "one"] (Kind.symlink "/s/pkg/alpha.txt")) o.Target =
          Except.ok o.Source) ∧
      ∀ post1 cs, Execute fsConflict ⟨pre ++ op :: post1, cs⟩ ⟨false⟩ =
        (fsConflict.insert ["t", "one"] (Kind.symlink "/s/pkg/alpha.txt"),
          some (Error.OpError "/t/alpha.txt" (Error.sys Errno.EEXIST))) :=
  ⟨by decide,
   Execute_abort fsConflict (fsConflict.insert ["t", "one"] (Kind.symlink "/s/pkg/alpha.txt"))
     ⟨[⟨"/s/pkg/alpha.txt", "/t/one"⟩, ⟨"/s/pkg/beta.txt", "/t/alpha.txt"⟩,
       ⟨"/s/pkg/gamma.txt", "/t/three"⟩], []⟩
     (Error.OpError "/t/alpha.txt" (Error.sys Errno.EEXIST)) (by decide)⟩

/-- C15: `Execute` with `DryRun` returns no error and leaves the file system
as it was, whatever the plan. -/
theorem Execute_dryRun (fs : FS) (plan : PlanResult) :
    Execute fs plan ⟨true⟩ = (fs, none) := by
  simp [Execute]

/-- With `DryRun` the plan for `fsMapping` is not carried out and the target
`/tmp/target` is not made; without `DryRun` it is made. -/
theorem Execute_dryRun_witness :
    Execute fsMapping
        ⟨[⟨"/s/pkg-a/alpha.txt", "/tmp/target/alpha.txt"⟩,
          ⟨"/s/pkg-a/dir/bravo.txt", "/tmp/target/dir/bravo.txt"⟩,
          ⟨"/s/pkg-a/zeta.txt", "/tmp/target/zeta.txt"⟩,
          ⟨"/s/pkg-b/echo.txt", "/tmp/target/echo.txt"⟩], []⟩ ⟨true⟩ = (fsMapping, none) ∧
    os.Stat fsMapping "/tmp/target" = Except.error Errno.ENOENT ∧
    Execute fsMapping
        ⟨[⟨"/s/pkg-a/alpha.txt", "/tmp/target/alpha.txt"⟩,
          ⟨"/s/pkg-a/dir/bravo.txt", "/tmp/target/dir/bravo.txt"⟩,
          ⟨"/s/pkg-a/zeta.txt", "/tmp/target/zeta.txt"⟩,
          ⟨"/s/pkg-b/echo.txt", "/tmp/target/echo.txt"⟩], []⟩ ⟨false⟩ = (fsMappingAfter, none) ∧
    os.Stat fsMappingAfter "/tmp/target" = Except.ok Kind.dir :=
  ⟨Execute_dryRun fsMapping _, by decide, by decide, by decide⟩

/-! ## Conflicts and `Execute` -/

/-- A conflict `handleLeaf` records, a duplicate apart, is at a path where
`Lstat` finds something. -/
theorem handleLeaf_conflicts_exist (fs : FS) (src rel targetRoot : String) (s : planState)
    (hs : ∀ c ∈ s.result.Conflicts, c.Reason = "duplicate target planned" ∨
      ∃ k, os.Lstat fs c.Target = Except.ok k) :
    ∀ c ∈ (handleLeaf fs src rel targetRoot s).1.result.Conflicts,
      c.Reason = "duplicate target planned" ∨ ∃ k, os.Lstat fs c.Target = Except.ok k := by
  intro c hc
  have hnew : ∀ (info : Kind) (reason : String),
      os.Lstat fs (Join [targetRoot, rel]) = Except.ok info →
      (c ∈ s.result.Conflicts ∨ c = ⟨Join [targetRoot, rel], reason⟩) →
      c.Reason = "duplicate target planned" ∨ ∃ k, os.Lstat fs c.Target = Except.ok k := by
    intro info reason hl hmem
    rcases hmem with hmem | rfl
    · exact hs c hmem
    · exact Or.inr ⟨info, hl⟩
  by_cases hmem : Join [targetRoot, rel] ∈ s.seenTargets
  · simp only [handleLeaf, hmem, if_true, List.mem_append, List.mem_singleton] at hc
    rcases hc with hc | rfl
    · exact hs c hc
    · exact Or.inl rfl
  · cases hl : os.Lstat fs (Join [targetRoot, rel]) with
    | error e =>
      by_cases hne : os.IsNotExist e = true
      · simp [handleLeaf, hmem, detectConflict, hl, hne] at hc
        exact hs c hc
      · simp [handleLeaf, hmem, detectConflict, hl, hne] at hc
        exact hs c hc
    | ok info =>
      cases hsym : info.IsSymlink with
      | false =>
        simp [handleLeaf, hmem, detectConflict, hl, hsym] at hc
        exact hnew info _ hl hc
      | true =>
        cases hm : symlinkMatches fs (Join [targetRoot, rel]) src with
        | mk matched oe =>
          cases oe with
          | some err =>
            simp [handleLeaf, hmem, detectConflict, hl, hsym, hm] at hc
            exact hs c hc
          | none =>
            cases matched with
            | true =>
              simp [handleLeaf, hmem, detectConflict, hl, hsym, hm] at hc
              exact hs c hc
            | false =>
              simp [handleLeaf, hmem, detectConflict, hl, hsym, hm] at hc
              exact hnew info _ hl hc

/-- C16: `Execute` on a plan returned by `BuildPlan` leaves what is at the
target of a conflict with the reason `target already exists` or `symlink points
elsewhere` as it was: `Lstat` finds the same file with the same content, the
same symbolic link with the same value, or a directory, as before.  It leaves
every path that denoted something as it was, and its outcome does not depend on
the conflicts of the plan. -/
theorem Execute_conflicts_untouched (fs : FS) (fuel : Nat) (opts : Options) (res : PlanResult)
    (h : BuildPlan fs fuel opts = some (res, none)) :
    (∀ c ∈ res.Conflicts,
      c.Reason = "target already exists" ∨ c.Reason = "symlink points elsewhere" →
      ∃ k, os.Lstat fs c.Target = Except.ok k ∧
        os.Lstat (Execute fs res ⟨false⟩).1 c.Target = Except.ok k) ∧
    (∀ path k, os.Lstat fs path = Except.ok k →
      os.Lstat (Execute fs res ⟨false⟩).1 path = Except.ok k) ∧
    (∀ cs o, Execute fs ⟨res.Operations, cs⟩ o = Execute fs res o) := by
  have hg : fs.Grows (Execute fs res ⟨false⟩).1 := by
    simp only [Execute, Bool.false_eq_true, if_false]
    exact executeOps_grows _ fs
  refine ⟨?_, fun path k hk => FS.Grows.Lstat hg hk, fun cs o => rfl⟩
  intro c hc hreason
  obtain ⟨absDir, absTarget, _, _, _, _, hp⟩ := BuildPlan_ok h
  obtain ⟨s, hres, hs⟩ := planPackages_rel fs absTarget (fun _ _ => True)
    (fun a b => (∀ c ∈ a.result.Conflicts, c.Reason = "duplicate target planned" ∨
        ∃ k, os.Lstat fs c.Target = Except.ok k) →
      ∀ c ∈ b.result.Conflicts, c.Reason = "duplicate target planned" ∨
        ∃ k, os.Lstat fs c.Target = Except.ok k)
    (fun _ h => h) (fun _ _ _ hab hbc h => hbc (hab h)) (fun _ _ _ _ _ _ _ _ => trivial)
    (fun _ _ _ _ s _ _ _ _ hs => handleLeaf_conflicts_exist fs _ _ _ s hs)
    fuel absDir (sortStrings opts.Packages) (fun _ _ _ => trivial) _ res hp
  rw [hres] at hc
  rcases hs (by simp) c hc with hdup | ⟨k, hk⟩
  · rcases hreason with hr | hr <;> rw [hr] at hdup <;> exact absurd hdup (by decide)
  · exact ⟨k, hk, FS.Grows.Lstat hg hk⟩

/-- The plan for `fsConflict` has two conflicts and one operation; after
`Execute` the file and the link at the targets of the conflicts are as before. -/
theorem Execute_conflicts_untouched_witness :
    os.Lstat (Execute fsConflict
        ⟨[⟨"/s/pkg/gamma.txt", "/t/gamma.txt"⟩],
         [⟨"/t/alpha.txt", "target already exists"⟩,
          ⟨"/t/beta.txt", "symlink points elsewhere"⟩]⟩ ⟨false⟩).1 "/t/gamma.txt" =
      Except.ok (Kind.symlink "/s/pkg/gamma.txt") ∧
    ((∀ c ∈ ([⟨"/t/alpha.txt", "target already exists"⟩,
          ⟨"/t/beta.txt", "symlink points elsewhere"⟩] : List Conflict),
      c.Reason = "target already exists" ∨ c.Reason = "symlink points elsewhere" →
      ∃ k, os.Lstat fsConflict c.Target = Except.ok k ∧
        os.Lstat (Execute fsConflict
          ⟨[⟨"/s/pkg/gamma.txt", "/t/gamma.txt"⟩],
           [⟨"/t/alpha.txt", "target already exists"⟩,
            ⟨"/t/beta.txt", "symlink points elsewhere"⟩]⟩ ⟨false⟩).1 c.Target = Except.ok k) ∧
    (∀ path k, os.Lstat fsConflict path = Except.ok k →
      os.Lstat (Execute fsConflict
        ⟨[⟨"/s/pkg/gamma.txt", "/t/gamma.txt"⟩],
         [⟨"/t/alpha.txt", "target already exists"⟩,
          ⟨"/t/beta.txt", "symlink points elsewhere"⟩]⟩ ⟨false⟩).1 path = Except.ok k) ∧
    (∀ cs o, Execute fsConflict ⟨[⟨"/s/pkg/gamma.txt", "/t/gamma.txt"⟩], cs⟩ o =
      Execute fsConflict
        ⟨[⟨"/s/pkg/gamma.txt", "/t/gamma.txt"⟩],
         [⟨"/t/alpha.txt", "target already exists"⟩,
          ⟨"/t/beta.txt", "symlink points elsewhere"⟩]⟩ o)) :=
  ⟨by decide,
   Execute_conflicts_untouched fsConflict 2 ⟨"/s", "/t", ["pkg"]⟩
     ⟨[⟨"/s/pkg/gamma.txt", "/t/gamma.txt"⟩],
      [⟨"/t/alpha.txt", "target already exists"⟩,
       ⟨"/t/beta.txt", "symlink points elsewhere"⟩]⟩ (by decide)⟩

/-! ## The errors returned -/

/-- An error of `handleLeaf` is a `PathError` at the target path. -/
theorem handleLeaf_error {fs : FS} {src rel targetRoot : String} {s s1 : planState}
    {err : Error} (h : handleLeaf fs src rel targetRoot s = (s1, some err)) :
    ∃ cause, err = Error.PathError (Join [targetRoot, rel]) cause := by
  by_cases hmem : Join [targetRoot, rel] ∈ s.seenTargets
  · simp [handleLeaf, hmem] at h
  · cases hl : os.Lstat fs (Join [targetRoot, rel]) with
    | error e =>
      by_cases hne : os.IsNotExist e = true
      · simp [handleLeaf, hmem, detectConflict, hl, hne] at h
      · simp [handleLeaf, hmem, detectConflict, hl, hne] at h
        exact ⟨_, h.2.symm⟩
    | ok info =>
      cases hsym : info.IsSymlink with
      | false => simp [handleLeaf, hmem, detectConflict, hl, hsym] at h
      | true =>
        cases hm : symlinkMatches fs (Join [targetRoot, rel]) src with
        | mk matched oe =>
          cases oe with
          | some e1 =>
            simp [handleLeaf, hmem, detectConflict, hl, hsym, hm] at h
            exact ⟨_, h.2.symm⟩
          | none =>
            cases matched <;> simp [handleLeaf, hmem, detectConflict, hl, hsym, hm] at h

theorem walkEntries_error (fs : FS)
    (descend : String → String → planState → Option (planState × Option Error))
    (root rel targetRoot : String) (htarget : IsAbs targetRoot = true) :
    ∀ (es : List DirEntry),
      (∀ e ∈ es, ∀ s s1 err,
        descend (Join [root, e.Name]) (Join [rel, e.Name]) s = some (s1, some err) →
        ∃ p cause, err = Error.PathError p cause ∧ IsAbs p = true) →
      ∀ s s1 err, walkEntries fs descend root rel targetRoot es s = some (s1, some err) →
        ∃ p cause, err = Error.PathError p cause ∧ IsAbs p = true := by
  intro es
  induction es with
  | nil =>
    intro _ s s1 err h
    simp [walkEntries] at h
  | cons entry rest ih =>
    intro hd s s1 err h
    have ihr := ih (fun e he => hd e (List.mem_cons_of_mem _ he))
    have hleaf : ∀ r : planState × Option Error,
        handleLeaf fs (Join [root, entry.Name]) (Join [rel, entry.Name]) targetRoot s = r →
        (match r with
          | (state1, some err) => some (state1, some err)
          | (state1, none) => walkEntries fs descend root rel targetRoot rest state1) =
          some (s1, some err) →
        ∃ p cause, err = Error.PathError p cause ∧ IsAbs p = true := by
      intro r hr hm
      obtain ⟨st, oe⟩ := r
      cases oe with
      | some e1 =>
        simp only [Option.some.injEq, Prod.mk.injEq] at hm
        obtain ⟨_, rfl⟩ := hm
        obtain ⟨cause, hc⟩ := handleLeaf_error hr
        exact ⟨_, cause, hc, isAbs_Join_cons htarget _⟩
      | none => exact ihr _ _ _ hm
    rw [walkEntries] at h
    split at h
    · exact hleaf _ rfl h
    · split at h
      · split at h
        · simp at h
        · rename_i st e1 hdesc
          simp only [Option.some.injEq, Prod.mk.injEq] at h
          obtain ⟨rfl, rfl⟩ := h
          exact hd entry (List.mem_cons_self _ _) _ _ _ hdesc
        · exact ihr _ _ _ h
      · exact hleaf _ rfl h

/-- An error of `walkDir` below an absolute directory, for an absolute target,
is a `PathError` with an absolute path. -/
theorem walkDir_error (fs : FS) (targetRoot : String) (htarget : IsAbs targetRoot = true) :
    ∀ (fuel : Nat) (root rel : String) (s s1 : planState) (err : Error),
      IsAbs root = true → walkDir fs fuel root rel targetRoot s = some (s1, some err) →
      ∃ p cause, err = Error.PathError p cause ∧ IsAbs p = true := by
  intro fuel
  induction fuel with
  | zero =>
    intro root rel s s1 err _ h
    simp [walkDir] at h
  | succ fuel ih =>
    intro root rel s s1 err hroot h
    rw [walkDir] at h
    split at h
    · simp only [Option.some.injEq, Prod.mk.injEq] at h
      exact ⟨_, _, h.2.symm, hroot⟩
    · exact walkEntries_error fs _ root rel targetRoot htarget _
        (fun e _ s2 s3 err2 hdesc => ih _ _ _ _ _ (isAbs_Join_cons hroot _) hdesc) _ _ _ h

theorem planPackages_error (fs : FS) (fuel : Nat) (absDir absTarget : String)
    (hdir : IsAbs absDir = true) (htarget : IsAbs absTarget = true) :
    ∀ (pkgs : List String) (s : planState) (res : PlanResult) (err : Error),
      planPackages fs fuel absDir absTarget pkgs s = some (res, some err) →
      ∃ p cause, err = Error.PathError p cause ∧ IsAbs p = true := by
  intro pkgs
  induction pkgs with
  | nil =>
    intro s res err h
    simp [planPackages] at h
  | cons pkg rest ih =>
    intro s res err h
    rw [planPackages] at h
    split at h
    · simp only [Option.some.injEq, Prod.mk.injEq] at h
      exact ⟨_, _, h.2.symm, isAbs_Join_cons hdir _⟩
    · split at h
      · simp only [Option.some.injEq, Prod.mk.injEq] at h
        exact ⟨_, _, h.2.symm, isAbs_Join_cons hdir _⟩
      · split at h
        · simp at h
        · rename_i st e1 hw
          simp only [Option.some.injEq, Prod.mk.injEq] at h
          obtain ⟨_, rfl⟩ := h
          exact walkDir_error fs absTarget htarget fuel _ _ _ _ _ (isAbs_Join_cons hdir _) hw
        · exact ih _ _ _ h

/-- The absolute form of a path is not found only for a path that is not absolute. -/
theorem isAbs_of_Abs_error {fs : FS} {path : String} {e : Errno}
    (h : Abs fs path = Except.error e) : IsAbs path = false := by
  cases hp : IsAbs path with
  | false => rfl
  | true =>
    rw [Abs_of_isAbs fs hp] at h
    simp at h

/-- C12, as stated, fails: the error of `BuildPlan` for an empty list of
packages and the error of `DefaultTarget` for the empty string are plain
messages, and the paths of the `PathError` of `BuildPlan` for a relative stow
directory without a working directory, and of the `OpError` of `Execute` for a
relative target, are not absolute. -/
theorem errors_carry_path_counterexample :
    BuildPlan fsMapping 5 ⟨"/s", "/tmp/target", []⟩ =
      some (⟨[], []⟩, some (Error.msg "at least one package is required")) ∧
    DefaultTarget fsMapping "" = ("", some (Error.msg "dir is required")) ∧
    BuildPlan fsNoCwd 5 ⟨"s", "/t", ["pkg"]⟩ =
      some (⟨[], []⟩, some (Error.PathError "s" (Error.sys Errno.ENOENT))) ∧
    Execute fsMapping ⟨[⟨"/s/pkg-a/alpha.txt", "tmp"⟩], []⟩ ⟨false⟩ =
      (fsMapping, some (Error.OpError "tmp" (Error.sys Errno.EEXIST))) ∧
    ¬ ((∀ (fs : FS) (fuel : Nat) (opts : Options) (res : PlanResult) (err : Error),
          BuildPlan fs fuel opts = some (res, some err) → err.HasAbsPath = true) ∨
       (∀ (fs fs' : FS) (plan : PlanResult) (o : ExecuteOptions) (err : Error),
          Execute fs plan o = (fs', some err) → err.HasAbsPath = true) ∨
       (∀ (fs : FS) (dir p : String) (err : Error),
          DefaultTarget fs dir = (p, some err) → err.HasAbsPath = true)) := by
  refine ⟨by decide, by decide, by decide, by decide, ?_⟩
  rintro (h | h | h)
  · exact absurd (h fsMapping 5 ⟨"/s", "/tmp/target", []⟩ ⟨[], []⟩
      (Error.msg "at least one package is required") (by decide)) (by decide)
  · exact absurd (h fsMapping fsMapping ⟨[⟨"/s/pkg-a/alpha.txt", "tmp"⟩], []⟩ ⟨false⟩
      (Error.OpError "tmp" (Error.sys Errno.EEXIST)) (by decide)) (by decide)
  · exact absurd (h fsMapping "" "" (Error.msg "dir is required") (by decide)) (by decide)

/-- C12, amended: an error of `BuildPlan` is the plain message for an empty
list of packages, a `PathError` with the stow directory or the target as given
(a path that is not absolute) when its absolute form is not found, or a
`PathError` with an absolute path.  An error of `Execute` is an `OpError` with
the target of an operation of the plan and the error of a system call, and the
target is absolute when the plan was returned by `BuildPlan`.  An error of
`DefaultTarget` is a plain message or the error of finding the absolute form,
and comes with the empty path. -/
theorem errors_carry_path (fs : FS) (fuel : Nat) (opts : Options) :
    (∀ res err, BuildPlan fs fuel opts = some (res, some err) →
      (opts.Packages = [] ∧ err = Error.msg "at least one package is required") ∨
      (∃ e, Abs fs opts.Dir = Except.error e ∧ IsAbs opts.Dir = false ∧
        err = Error.PathError opts.Dir (Error.sys e)) ∨
      (∃ e, Abs fs opts.Target = Except.error e ∧ IsAbs opts.Target = false ∧
        err = Error.PathError opts.Target (Error.sys e)) ∨
      (∃ p cause, err = Error.PathError p cause ∧ IsAbs p = true)) ∧
    (∀ plan o fs' err, Execute fs plan o = (fs', some err) →
      ∃ op ∈ plan.Operations, ∃ e, err = Error.OpError op.Target (Error.sys e)) ∧
    (∀ res, BuildPlan fs fuel opts = some (res, none) →
      ∀ o fs' err, Execute fs res o = (fs', some err) → err.HasAbsPath = true) ∧
    (∀ dir p err, DefaultTarget fs dir = (p, some err) →
      p = "" ∧ ((dir = "" ∧ err = Error.msg "dir is required") ∨
        ∃ e, Abs fs dir = Except.error e ∧ err = Error.sys e)) := by
  have hexec : ∀ (plan : PlanResult) (o : ExecuteOptions) (fs' : FS) (err : Error),
      Execute fs plan o = (fs', some err) →
      ∃ op ∈ plan.Operations, ∃ e, err = Error.OpError op.Target (Error.sys e) := by
    intro plan o fs' err h
    unfold Execute at h
    split at h
    · simp at h
    · obtain ⟨pre, op, post, fs1, hops, _, ⟨e, he, _⟩, _, _⟩ := executeOps_error _ fs fs' err h
      exact ⟨op, by rw [hops]; simp, e, he⟩
  refine ⟨?_, hexec, ?_, ?_⟩
  · intro res err h
    unfold BuildPlan at h
    split at h
    · rename_i h0
      simp only [Option.some.injEq, Prod.mk.injEq] at h
      exact Or.inl ⟨List.length_eq_zero.1 h0, h.2.symm⟩
    · split at h
      · rename_i e hd
        simp only [Option.some.injEq, Prod.mk.injEq] at h
        exact Or.inr (Or.inl ⟨e, hd, isAbs_of_Abs_error hd, h.2.symm⟩)
      · rename_i absDir hd
        have hda := Abs_isAbs hd
        split at h
        · simp only [Option.some.injEq, Prod.mk.injEq] at h
          exact Or.inr (Or.inr (Or.inr ⟨_, _, h.2.symm, hda⟩))
        · split at h
          · simp only [Option.some.injEq, Prod.mk.injEq] at h
            exact Or.inr (Or.inr (Or.inr ⟨_, _, h.2.symm, hda⟩))
          · split at h
            · rename_i e ht
              simp only [Option.some.injEq, Prod.mk.injEq] at h
              exact Or.inr (Or.inr (Or.inl ⟨e, ht, isAbs_of_Abs_error ht, h.2.symm⟩))
            · rename_i absTarget ht
              exact Or.inr (Or.inr (Or.inr
                (planPackages_error fs fuel absDir absTarget hda (Abs_isAbs ht) _ _ _ _ h)))
  · intro res h o fs' err he
    obtain ⟨op, hop, e, rfl⟩ := hexec res o fs' err he
    obtain ⟨_, _, _, _, hops, _⟩ := BuildPlan_leaves h
    obtain ⟨_, _, _, _, ht⟩ := hops op hop
    exact ht
  · intro dir p err h
    unfold DefaultTarget at h
    split at h
    · rename_i hd
      simp only [Prod.mk.injEq, Option.some.injEq] at h
      exact ⟨h.1.symm, Or.inl ⟨hd, h.2.symm⟩⟩
    · split at h
      · rename_i e ha
        simp only [Prod.mk.injEq, Option.some.injEq] at h
        exact ⟨h.1.symm, Or.inr ⟨e, ha, h.2.symm⟩⟩
      · simp at h

/-- The plan for `fsMapping` and the package `zz`, which does not exist, is
refused with a `PathError` whose path is absolute. -/
theorem errors_carry_path_witness :
    BuildPlan fsMapping 5 ⟨"/s", "/tmp/target", ["zz"]⟩ =
      some (⟨[], []⟩, some (Error.PathError "/s/zz" (Error.sys Errno.ENOENT))) ∧
    (((["zz"] : List String) = [] ∧ Error.PathError "/s/zz" (Error.sys Errno.ENOENT) =
        Error.msg "at least one package is required") ∨
      (∃ e, Abs fsMapping "/s" = Except.error e ∧ IsAbs "/s" = false ∧
        Error.PathError "/s/zz" (Error.sys Errno.ENOENT) = Error.PathError "/s" (Error.sys e)) ∨
      (∃ e, Abs fsMapping "/tmp/target" = Except.error e ∧ IsAbs "/tmp/target" = false ∧
        Error.PathError "/s/zz" (Error.sys Errno.ENOENT) =
          Error.PathError "/tmp/target" (Error.sys e)) ∨
      (∃ p cause, Error.PathError "/s/zz" (Error.sys Errno.ENOENT) = Error.PathError p cause ∧
        IsAbs p = true)) :=
  ⟨by decide,
   (errors_carry_path fsMapping 5 ⟨"/s", "/tmp/target", ["zz"]⟩).1 ⟨[], []⟩
     (Error.PathError "/s/zz" (Error.sys Errno.ENOENT)) (by decide)⟩

/-! ## The default target -/

/-- C18: for a directory that is not the empty string and whose absolute form
is found, `DefaultTarget` returns the parent of the absolute form and no error;
for the empty string it returns the empty path and an error. -/
theorem DefaultTarget_spec (fs : FS) :
    (∀ dir absDir, dir ≠ "" → Abs fs dir = Except.ok absDir →
      DefaultTarget fs dir = (Dir absDir, none)) ∧
    DefaultTarget fs "" = ("", some (Error.msg "dir is required")) := by
  refine ⟨?_, by simp [DefaultTarget]⟩
  intro dir absDir hne ha
  simp [DefaultTarget, hne, ha]

/-- The default target for the stow directory `/s/pkg-a` is `/s`, and for the
relative path `s/pkg-a`, the working directory being the root, as well. -/
theorem DefaultTarget_spec_witness :
    DefaultTarget fsMapping "/s/pkg-a" = (Dir "/s/pkg-a", none) ∧
    Dir "/s/pkg-a" = "/s" ∧
    DefaultTarget fsMapping "s/pkg-a" = ("/s", none) :=
  ⟨(DefaultTarget_spec fsMapping).1 "/s/pkg-a" "/s/pkg-a" (by decide) (by decide),
   by decide, by decide⟩

/-! ## Planning makes no change -/

/-- Calls that only read leave the file system as it is. -/
theorem foldl_effect_of_isRead (fs : FS) :
    ∀ t : List Syscall, (∀ c ∈ t, c.IsRead = true) → t.foldl Syscall.effect fs = fs := by
  intro t
  induction t with
  | nil => intro _; rfl
  | cons c rest ih =>
    intro h
    have hc := h c (List.mem_cons_self _ _)
    rw [List.foldl_cons]
    have : Syscall.effect fs c = fs := by
      cases c <;> first | rfl | simp [Syscall.IsRead] at hc
    rw [this]
    exact ih (fun c hc => h c (List.mem_cons_of_mem _ hc))

theorem Abs_traced (fs : FS) (path : String) :
    (traced.Abs fs path).1 = Abs fs path ∧ ∀ c ∈ (traced.Abs fs path).2, c.IsRead = true := by
  unfold traced.Abs filepath.Abs
  split
  · simp
  · cases os.Getwd fs <;> simp [Syscall.IsRead]

theorem symlinkMatches_traced (fs : FS) (targetPath sourcePath : String) :
    (traced.symlinkMatches fs targetPath sourcePath).1 = symlinkMatches fs targetPath sourcePath ∧
      ∀ c ∈ (traced.symlinkMatches fs targetPath sourcePath).2, c.IsRead = true := by
  unfold traced.symlinkMatches symlinkMatches
  cases os.Readlink fs targetPath with
  | error e => simp [Syscall.IsRead]
  | ok v =>
    simp only
    obtain ⟨h1, h2⟩ := Abs_traced fs
      (if (!IsAbs v) = true then Join [Dir targetPath, v] else v)
    obtain ⟨h3, h4⟩ := Abs_traced fs sourcePath
    rw [← h1, ← h3]
    cases ha : traced.Abs fs (if (!IsAbs v) = true then Join [Dir targetPath, v] else v) with
    | mk r1 t1 =>
      rw [ha] at h2
      cases hb : traced.Abs fs sourcePath with
      | mk r2 t2 =>
        rw [hb] at h4
        simp only at h2 h4
        cases r1 with
        | error e =>
          refine ⟨rfl, ?_⟩
          intro c hc
          simp only [List.mem_cons] at hc
          rcases hc with rfl | hc
          · rfl
          · exact h2 c hc
        | ok a =>
          cases r2 with
          | error e =>
            refine ⟨rfl, ?_⟩
            intro c hc
            simp only [List.mem_cons, List.mem_append] at hc
            rcases hc with rfl | hc | hc
            · rfl
            · exact h2 c hc
            · exact h4 c hc
          | ok b =>
            refine ⟨rfl, ?_⟩
            intro c hc
            simp only [List.mem_cons, List.mem_append] at hc
            rcases hc with rfl | hc | hc
            · rfl
            · exact h2 c hc
            · exact h4 c hc

theorem detectConflict_traced (fs : FS) (targetPath sourcePath : String) :
    (traced.detectConflict fs targetPath sourcePath).1 = detectConflict fs targetPath sourcePath ∧
      ∀ c ∈ (traced.detectConflict fs targetPath sourcePath).2, c.IsRead = true := by
  unfold traced.detectConflict detectConflict
  cases os.Lstat fs targetPath with
  | error e =>
    simp only
    split <;> simp [Syscall.IsRead]
  | ok info =>
    simp only
    split
    · obtain ⟨h1, h2⟩ := symlinkMatches_traced fs targetPath sourcePath
      rw [← h1]
      cases hm : traced.symlinkMatches fs targetPath sourcePath with
      | mk r t =>
        rw [hm] at h2
        simp only at h2
        have hreads : ∀ c ∈ Syscall.lstat targetPath :: t, c.IsRead = true := by
          intro c hc
          simp only [List.mem_cons] at hc
          rcases hc with rfl | hc
          · rfl
          · exact h2 c hc
        obtain ⟨matched, oe⟩ := r
        cases oe with
        | some err => exact ⟨rfl, hreads⟩
        | none =>
          cases matched with
          | true => exact ⟨rfl, hreads⟩
          | false => exact ⟨rfl, hreads⟩
    · simp [Syscall.IsRead]

theorem handleLeaf_traced (fs : FS) (src rel targetRoot : String) (s : planState) :
    (traced.handleLeaf fs src rel targetRoot s).1 = handleLeaf fs src rel targetRoot s ∧
      ∀ c ∈ (traced.handleLeaf fs src rel targetRoot s).2, c.IsRead = true := by
  unfold traced.handleLeaf handleLeaf
  simp only
  split
  · simp
  · obtain ⟨h1, h2⟩ := detectConflict_traced fs (Join [targetRoot, rel]) src
    rw [← h1]
    cases hd : traced.detectConflict fs (Join [targetRoot, rel]) src with
    | mk r t =>
      rw [hd] at h2
      simp only at h2
      obtain ⟨conflict, reason, noop, oe⟩ := r
      cases oe with
      | some err => exact ⟨rfl, h2⟩
      | none =>
        simp only
        cases noop with
        | true => exact ⟨rfl, h2⟩
        | false =>
          cases conflict with
          | true => exact ⟨rfl, h2⟩
          | false => exact ⟨rfl, h2⟩

theorem isRead_append {t t1 : List Syscall} (h : ∀ c ∈ t, c.IsRead = true)
    (h1 : ∀ c ∈ t1, c.IsRead = true) : ∀ c ∈ t ++ t1, c.IsRead = true :=
  fun c hc => (List.mem_append.1 hc).elim (h c) (h1 c)

theorem walkEntries_traced (fs : FS)
    (descendT : String → String → planState →
      Option ((planState × Option Error) × List Syscall))
    (descend : String → String → planState → Option (planState × Option Error))
    (root rel targetRoot : String) :
    ∀ (es : List DirEntry),
      (∀ e ∈ es, ∀ s,
        (descendT (Join [root, e.Name]) (Join [rel, e.Name]) s).map Prod.fst =
          descend (Join [root, e.Name]) (Join [rel, e.Name]) s ∧
        ∀ r, descendT (Join [root, e.Name]) (Join [rel, e.Name]) s = some r →
          ∀ c ∈ r.2, c.IsRead = true) →
      ∀ (s : planState) (t : List Syscall), (∀ c ∈ t, c.IsRead = true) →
        (traced.walkEntries fs descendT root rel targetRoot es s t).map Prod.fst =
          walkEntries fs descend root rel targetRoot es s ∧
        ∀ r, traced.walkEntries fs descendT root rel targetRoot es s t = some r →
          ∀ c ∈ r.2, c.IsRead = true := by
  intro es
  induction es with
  | nil =>
    intro _ s t ht
    refine ⟨rfl, ?_⟩
    intro r hr
    simp only [traced.walkEntries, Option.some.injEq] at hr
    rw [← hr]
    exact ht
  | cons entry rest ih =>
    intro hd s t ht
    have ihr := ih (fun e he => hd e (List.mem_cons_of_mem _ he))
    have hleaf :
        (Option.map Prod.fst
          (match traced.handleLeaf fs (Join [root, entry.Name]) (Join [rel, entry.Name])
              targetRoot s with
          | ((state1, some err), t1) => some ((state1, some err), t ++ t1)
          | ((state1, none), t1) =>
            traced.walkEntries fs descendT root rel targetRoot rest state1 (t ++ t1)) =
          match handleLeaf fs (Join [root, entry.Name]) (Join [rel, entry.Name])
              targetRoot s with
          | (state1, some err) => some (state1, some err)
          | (state1, none) => walkEntries fs descend root rel targetRoot rest state1) ∧
        ∀ r,
          (match traced.handleLeaf fs (Join [root, entry.Name]) (Join [rel, entry.Name])
              targetRoot s with
          | ((state1, some err), t1) => some ((state1, some err), t ++ t1)
          | ((state1, none), t1) =>
            traced.walkEntries fs descendT root rel targetRoot rest state1 (t ++ t1)) = some r →
          ∀ c ∈ r.2, c.IsRead = true := by
      obtain ⟨h1, h2⟩ := handleLeaf_traced fs (Join [root, entry.Name]) (Join [rel, entry.Name])
        targetRoot s
      rw [← h1]
      cases hh : traced.handleLeaf fs (Join [root, entry.Name]) (Join [rel, entry.Name])
          targetRoot s with
      | mk r1 t1 =>
        rw [hh] at h2
        simp only at h2
        obtain ⟨st, oe⟩ := r1
        cases oe with
        | some err =>
          refine ⟨rfl, ?_⟩
          intro r hr
          simp only [Option.some.injEq] at hr
          rw [← hr]
          exact isRead_append ht h2
        | none => exact ihr st (t ++ t1) (isRead_append ht h2)
    rw [traced.walkEntries, walkEntries]
    split
    · exact hleaf
    · split
      · obtain ⟨h1, h2⟩ := hd entry (List.mem_cons_self _ _) s
        rw [← h1]
        cases hdesc : descendT (Join [root, entry.Name]) (Join [rel, entry.Name]) s with
        | none => exact ⟨rfl, fun r hr => by simp at hr⟩
        | some r1 =>
          have h3 := h2 r1 hdesc
          obtain ⟨⟨st, oe⟩, t1⟩ := r1
          simp only at h3
          cases oe with
          | some err =>
            refine ⟨rfl, ?_⟩
            intro r hr
            simp only [Option.some.injEq] at hr
            rw [← hr]
            exact isRead_append ht h3
          | none => exact ihr st (t ++ t1) (isRead_append ht h3)
      · exact hleaf

theorem walkDir_traced (fs : FS) (targetRoot : String) :
    ∀ (fuel : Nat) (root rel : String) (s : planState),
      (traced.walkDir fs fuel root rel targetRoot s).map Prod.fst =
        walkDir fs fuel root rel targetRoot s ∧
      ∀ r, traced.walkDir fs fuel root rel targetRoot s = some r →
        ∀ c ∈ r.2, c.IsRead = true := by
  intro fuel
  induction fuel with
  | zero =>
    intro root rel s
    exact ⟨rfl, fun r hr => by simp [traced.walkDir] at hr⟩
  | succ fuel ih =>
    intro root rel s
    rw [traced.walkDir, walkDir]
    cases os.ReadDir fs root with
    | error e =>
      refine ⟨rfl, ?_⟩
      intro r hr
      simp only [Option.some.injEq] at hr
      rw [← hr]
      simp [Syscall.IsRead]
    | ok entries =>
      exact walkEntries_traced fs _ _ root rel targetRoot _ (fun e _ s1 => ih _ _ s1) s _
        (by simp [Syscall.IsRead])

theorem planPackages_traced (fs : FS) (fuel : Nat) (absDir absTarget : String) :
    ∀ (pkgs : List String) (s : planState) (t : List Syscall), (∀ c ∈ t, c.IsRead = true) →
      (traced.planPackages fs fuel absDir absTarget pkgs s t).map Prod.fst =
        planPackages fs fuel absDir absTarget pkgs s ∧
      ∀ r, traced.planPackages fs fuel absDir absTarget pkgs s t = some r →
        ∀ c ∈ r.2, c.IsRead = true := by
  intro pkgs
  induction pkgs with
  | nil =>
    intro s t ht
    refine ⟨rfl, ?_⟩
    intro r hr
    simp only [traced.planPackages, Option.some.injEq] at hr
    rw [← hr]
    exact ht
  | cons pkg rest ih =>
    intro s t ht
    have hstat : ∀ c ∈ t ++ [Syscall.stat (Join [absDir, pkg])], c.IsRead = true :=
      isRead_append ht (by simp [Syscall.IsRead])
    rw [traced.planPackages, planPackages]
    cases os.Stat fs (Join [absDir, pkg]) with
    | error e =>
      refine ⟨rfl, ?_⟩
      intro r hr
      simp only [Option.some.injEq] at hr
      rw [← hr]
      exact hstat
    | ok info =>
      simp only
      split
      · refine ⟨rfl, ?_⟩
        intro r hr
        simp only [Option.some.injEq] at hr
        rw [← hr]
        exact hstat
      · obtain ⟨h1, h2⟩ := walkDir_traced fs absTarget fuel (Join [absDir, pkg]) "" s
        unfold traced.walkPackage walkPackage
        rw [← h1]
        cases hw : traced.walkDir fs fuel (Join [absDir, pkg]) "" absTarget s with
        | none => exact ⟨rfl, fun r hr => by simp at hr⟩
        | some r1 =>
          have h3 := h2 r1 hw
          obtain ⟨⟨st, oe⟩, t1⟩ := r1
          simp only at h3
          have hreads : ∀ c ∈ t ++ Syscall.stat (Join [absDir, pkg]) :: t1, c.IsRead = true :=
            isRead_append ht (by
              intro c hc
              simp only [List.mem_cons] at hc
              rcases hc with rfl | hc
              · rfl
              · exact h3 c hc)
          cases oe with
          | some err =>
            refine ⟨rfl, ?_⟩
            intro r hr
            simp only [Option.some.injEq] at hr
            rw [← hr]
            exact hreads
          | none => exact ih st _ hreads

/-- The plan and the error of `traced.BuildPlan` are those of `BuildPlan`, and
the calls it makes only read the file system. -/
theorem BuildPlan_traced (fs : FS) (fuel : Nat) (opts : Options) :
    (traced.BuildPlan fs fuel opts).map Prod.fst = BuildPlan fs fuel opts ∧
      ∀ r, traced.BuildPlan fs fuel opts = some r → ∀ c ∈ r.2, c.IsRead = true := by
  unfold traced.BuildPlan BuildPlan
  split
  · refine ⟨rfl, ?_⟩
    intro r hr
    simp only [Option.some.injEq] at hr
    rw [← hr]
    simp
  · obtain ⟨h1, h2⟩ := Abs_traced fs opts.Dir
    rw [← h1]
    cases ha : traced.Abs fs opts.Dir with
    | mk r1 t1 =>
      rw [ha] at h2
      simp only at h2
      cases r1 with
      | error e =>
        refine ⟨rfl, ?_⟩
        intro r hr
        simp only [Option.some.injEq] at hr
        rw [← hr]
        exact h2
      | ok absDir =>
        simp only
        have hstat : ∀ c ∈ t1 ++ [Syscall.stat absDir], c.IsRead = true :=
          isRead_append h2 (by simp [Syscall.IsRead])
        cases os.Stat fs absDir with
        | error e =>
          refine ⟨rfl, ?_⟩
          intro r hr
          simp only [Option.some.injEq] at hr
          rw [← hr]
          exact hstat
        | ok info =>
          simp only
          split
          · refine ⟨rfl, ?_⟩
            intro r hr
            simp only [Option.some.injEq] at hr
            rw [← hr]
            exact hstat
          · obtain ⟨h3, h4⟩ := Abs_traced fs opts.Target
            rw [← h3]
            cases hb : traced.Abs fs opts.Target with
            | mk r2 t2 =>
              rw [hb] at h4
              simp only at h4
              have hreads : ∀ c ∈ t1 ++ Syscall.stat absDir :: t2, c.IsRead = true :=
                isRead_append h2 (by
                  intro c hc
                  simp only [List.mem_cons] at hc
                  rcases hc with rfl | hc
                  · rfl
                  · exact h4 c hc)
              cases r2 with
              | error e =>
                refine ⟨rfl, ?_⟩
                intro r hr
                simp only [Option.some.injEq] at hr
                rw [← hr]
                exact hreads
              | ok absTarget => exact planPackages_traced fs fuel absDir absTarget _ _ _ hreads

/-! ## Planning for a target that does not exist -/

theorem FS.walk_append_fail (fs : FS) (follow : Bool) (name : String) :
    ∀ (l cur : List String) (e : Errno), fs.walk true cur l = Walk.fail e →
      fs.walk follow cur (l ++ [name]) = Walk.fail e := by
  intro l
  induction l with
  | nil =>
    intro cur e h
    simp [FS.walk] at h
  | cons c rest ih =>
    intro cur e h
    rw [List.cons_append]
    rw [FS.walk] at h
    rw [FS.walk]
    split
    · rename_i hc
      rw [if_pos hc] at h
      exact ih _ _ h
    · rename_i hc
      rw [if_neg hc] at h
      split
      · rename_i hdd
        rw [if_pos hdd] at h
        exact ih _ _ h
      · rename_i hdd
        rw [if_neg hdd] at h
        cases hk : fs.kindAt (cur ++ [c]) with
        | none =>
          rw [hk] at h
          exact h
        | some k =>
          rw [hk] at h
          cases k with
          | dir => exact ih _ _ h
          | file s =>
            simp only at h
            simp only [List.append_eq_nil, List.cons_ne_self, and_false, if_false]
            split at h
            · simp at h
            · exact h
          | symlink v =>
            simp only [Bool.true_eq_false, and_false, if_false] at h
            split at h <;> simp at h

/-- A path that cannot be resolved cannot be resolved with one more element. -/
theorem FS.resolveFrom_append_error (fs : FS) (follow : Bool) (name : String) :
    ∀ (budget : Nat) (cur l : List String) (e : Errno),
      fs.resolveFrom true budget cur l = Except.error e →
      fs.resolveFrom follow budget cur (l ++ [name]) = Except.error e := by
  intro budget
  induction budget with
  | zero =>
    intro cur l e h
    simpa [FS.resolveFrom] using h
  | succ budget ih =>
    intro cur l e h
    rw [FS.resolveFrom] at h
    rw [FS.resolveFrom]
    cases hw : fs.walk true cur l with
    | done p k =>
      rw [hw] at h
      simp at h
    | fail e1 =>
      rw [hw] at h
      rw [FS.walk_append_fail fs follow name l cur e1 hw]
      exact h
    | link cur1 l1 =>
      rw [hw] at h
      rw [FS.walk_append_link fs follow name l cur cur1 l1 hw]
      exact ih _ _ _ h

theorem FS.resolveFrom_append_names_error (fs : FS) (follow : Bool) (budget : Nat)
    (cur : List String) (e : Errno) :
    ∀ (names l : List String), names ≠ [] →
      fs.resolveFrom true budget cur l = Except.error e →
      fs.resolveFrom follow budget cur (l ++ names) = Except.error e := by
  intro names
  induction names with
  | nil =>
    intro l hne
    exact absurd rfl hne
  | cons n rest ih =>
    intro l _ h
    cases rest with
    | nil => exact FS.resolveFrom_append_error fs follow n budget cur l e h
    | cons n2 rest2 =>
      have h1 := FS.resolveFrom_append_error fs true n budget cur l e h
      have h2 := ih (l ++ [n]) (by simp) h1
      rw [List.append_assoc] at h2
      exact h2

/-- Below a path that `Stat` does not find `Lstat` finds nothing. -/
theorem Lstat_below_missing {fs : FS} {a : String} {e : Errno} {names : List String}
    (habs : IsAbs a = true) (hclean : Clean a = a) (hst : os.Stat fs a = Except.error e)
    (hne : names ≠ []) (hv : ∀ n ∈ names, validName n = true) :
    os.Lstat fs (Join [a, unsplit names]) = Except.error e := by
  have hane := ne_empty_of_isAbs habs
  have hs := cleanElements_noSep true a
  have hreal : ∀ x ∈ names, Real x := fun x hx => real_of_validName (hv x hx)
  have hj : Join [a, unsplit names] =
      render true (names.reverse ++ cleanElements true (elements a)) := by
    rw [Join_cons_of_ne hane, Clean_eq_render, if_neg (unsplit_pair_ne_empty _ _),
      isAbs_unsplit_pair hane, habs, elements_unsplit_pair,
      elements_unsplit hne (fun x hx => validName_noSep (hv x hx))]
    unfold cleanElements
    rw [List.foldl_append, foldl_cleanStep_real true hreal]
  have hns : ∀ x ∈ names.reverse ++ cleanElements true (elements a), NoSep x := by
    intro x hx
    rcases List.mem_append.1 hx with hx | hx
    · exact validName_noSep (hv x (List.mem_reverse.1 hx))
    · exact hs x hx
  have hra : fs.resolve true a = Except.error e := by
    unfold os.Stat at hst
    cases hr : fs.resolve true a with
    | error e1 =>
      rw [hr] at hst
      simp only [Except.error.injEq] at hst
      rw [hst]
    | ok r =>
      rw [hr] at hst
      simp at hst
  rw [eq_render_of_Clean habs hclean, FS.resolve_render fs true hs] at hra
  unfold os.Lstat
  rw [hj, FS.resolve_render fs false hns, List.reverse_append, List.reverse_reverse,
    FS.resolveFrom_append_names_error fs false _ _ e names _ hne hra]

/-- A leaf whose target `Lstat` does not find is handled without an error,
and no conflict is recorded for it except a duplicate. -/
theorem handleLeaf_of_missing {fs : FS} {src rel targetRoot : String} (s : planState)
    (h : os.Lstat fs (Join [targetRoot, rel]) = Except.error Errno.ENOENT) :
    (handleLeaf fs src rel targetRoot s).2 = none := by
  by_cases hmem : Join [targetRoot, rel] ∈ s.seenTargets
  · simp [handleLeaf, hmem]
  · simp [handleLeaf, hmem, detectConflict, h, os.IsNotExist]

theorem walkEntries_noerr (fs : FS)
    (descend : String → String → planState → Option (planState × Option Error))
    (root rel targetRoot : String) :
    ∀ (es : List DirEntry),
      (∀ e ∈ es, e.Typ.IsDir = false → ∀ s,
        (handleLeaf fs (Join [root, e.Name]) (Join [rel, e.Name]) targetRoot s).2 = none) →
      (∀ e ∈ es, e.Typ = Kind.dir → ∀ s r,
        descend (Join [root, e.Name]) (Join [rel, e.Name]) s = some r → r.2 = none) →
      ∀ s r, walkEntries fs descend root rel targetRoot es s = some r → r.2 = none := by
  intro es
  induction es with
  | nil =>
    intro _ _ s r h
    simp only [walkEntries, Option.some.injEq] at h
    rw [← h]
  | cons entry rest ih =>
    intro hleaf hdesc s r h
    have ihr := ih (fun e he => hleaf e (List.mem_cons_of_mem _ he))
      (fun e he => hdesc e (List.mem_cons_of_mem _ he))
    have hl : entry.Typ.IsDir = false →
        (match handleLeaf fs (Join [root, entry.Name]) (Join [rel, entry.Name])
            targetRoot s with
          | (state1, some err) => some (state1, some err)
          | (state1, none) => walkEntries fs descend root rel targetRoot rest state1) =
          some r → r.2 = none := by
      intro hk hm
      have h2 := hleaf entry (List.mem_cons_self _ _) hk s
      cases hh : handleLeaf fs (Join [root, entry.Name]) (Join [rel, entry.Name])
          targetRoot s with
      | mk st oe =>
        rw [hh] at h2 hm
        simp only at h2
        subst h2
        exact ihr _ _ hm
    rw [walkEntries] at h
    split at h
    · rename_i hsym
      exact hl (isDir_eq_false_of_isSymlink hsym) h
    · split at h
      · rename_i hdir
        split at h
        · simp at h
        · rename_i st err hd
          have := hdesc entry (List.mem_cons_self _ _) (eq_dir_of_isDir hdir) s _ hd
          simp at this
        · exact ihr _ _ h
      · rename_i hdir
        exact hl (by simpa using hdir) h

/-- The walk of a directory ends without an error when every directory it
comes to can be read and every leaf is handled without an error. -/
theorem walkDir_noerr (fs : FS) (targetRoot : String)
    (hread : ∀ root : String, IsAbs root = true → Clean root = root →
      ∀ (es : List DirEntry) (e : DirEntry), os.ReadDir fs root = Except.ok es → e ∈ es →
      e.Typ = Kind.dir → ∃ es1, os.ReadDir fs (Join [root, e.Name]) = Except.ok es1)
    (hleaf : ∀ names : List String, names ≠ [] → (∀ n ∈ names, validName n = true) →
      ∀ src s, (handleLeaf fs src (unsplit names) targetRoot s).2 = none) :
    ∀ (fuel : Nat) (root rel : String) (s : planState) (r : planState × Option Error)
      (names : List String),
      IsAbs root = true → Clean root = root →
      (∃ es, os.ReadDir fs root = Except.ok es) →
      (∀ n ∈ names, validName n = true) → rel = joinNames "" names →
      walkDir fs fuel root rel targetRoot s = some r → r.2 = none := by
  intro fuel
  induction fuel with
  | zero =>
    intro root rel s r names _ _ _ _ _ h
    simp [walkDir] at h
  | succ fuel ih =>
    intro root rel s r names habs hclean hes hv hrel h
    obtain ⟨es, hes⟩ := hes
    rw [walkDir, hes] at h
    simp only at h
    have hnames : ∀ e ∈ sortEntries es,
        (∀ n ∈ names ++ [e.Name], validName n = true) ∧
          Join [rel, e.Name] = unsplit (names ++ [e.Name]) := by
      intro e he
      have hval := ReadDir_valid hes (mem_sortEntries.1 he)
      have hv2 : ∀ n ∈ names ++ [e.Name], validName n = true := by
        intro n hn
        rcases List.mem_append.1 hn with hn | hn
        · exact hv n hn
        · simp only [List.mem_singleton] at hn
          rw [hn]
          exact hval
      refine ⟨hv2, ?_⟩
      rw [hrel, ← joinNames_append, joinNames_empty (by simp) hv2]
    refine walkEntries_noerr fs _ root rel targetRoot _ ?_ ?_ s r h
    · intro e he _ s1
      rw [(hnames e he).2]
      exact hleaf _ (by simp) (hnames e he).1 _ _
    · intro e he hk s1 r1 hd
      exact ih _ _ s1 r1 (names ++ [e.Name]) (isAbs_Join_cons habs _)
        (Clean_Join_cons (ne_empty_of_isAbs habs) _)
        (hread root habs hclean es e hes (mem_sortEntries.1 he) hk)
        (hnames e he).1
        (by rw [hrel, ← joinNames_append]) hd

theorem planPackages_noerr (fs : FS) (fuel : Nat) (absDir absTarget : String)
    (habs : IsAbs absDir = true)
    (hread : ∀ root : String, IsAbs root = true → Clean root = root →
      ∀ (es : List DirEntry) (e : DirEntry), os.ReadDir fs root = Except.ok es → e ∈ es →
      e.Typ = Kind.dir → ∃ es1, os.ReadDir fs (Join [root, e.Name]) = Except.ok es1)
    (hleaf : ∀ names : List String, names ≠ [] → (∀ n ∈ names, validName n = true) →
      ∀ src s, (handleLeaf fs src (unsplit names) absTarget s).2 = none) :
    ∀ (pkgs : List String),
      (∀ pkg ∈ pkgs, os.Stat fs (Join [absDir, pkg]) = Except.ok Kind.dir ∧
        ∃ es, os.ReadDir fs (Join [absDir, pkg]) = Except.ok es) →
      ∀ (s : planState) (r : PlanResult × Option Error),
        planPackages fs fuel absDir absTarget pkgs s = some r → r.2 = none := by
  intro pkgs
  induction pkgs with
  | nil =>
    intro _ s r h
    simp only [planPackages, Option.some.injEq] at h
    rw [← h]
  | cons pkg rest ih =>
    intro hpk s r h
    obtain ⟨hst, hrd⟩ := hpk pkg (List.mem_cons_self _ _)
    rw [planPackages, hst] at h
    simp only [Kind.IsDir, Bool.not_true, Bool.false_eq_true, if_false] at h
    cases hw : walkPackage fs fuel (Join [absDir, pkg]) absTarget s with
    | none =>
      rw [hw] at h
      simp at h
    | some r1 =>
      have hr1 := walkDir_noerr fs absTarget hread hleaf fuel (Join [absDir, pkg]) "" s r1 []
        (isAbs_Join_cons habs _) (Clean_Join_cons (ne_empty_of_isAbs habs) _) hrd
        (by simp) rfl hw
      obtain ⟨st, oe⟩ := r1
      simp only at hr1
      subst hr1
      rw [hw] at h
      exact ih (fun p hp => hpk p (List.mem_cons_of_mem _ hp)) _ _ h

/-- In a file system of the model a directory that `ReadDir` lists can be read,
and so can a path that `Stat` finds to be a directory. -/
theorem ReadDir_child {fs : FS} {root : String} {es : List DirEntry} {e : DirEntry}
    (habs : IsAbs root = true) (hclean : Clean root = root)
    (hes : os.ReadDir fs root = Except.ok es) (he : e ∈ es) (hk : e.Typ = Kind.dir) :
    ∃ es1, os.ReadDir fs (Join [root, e.Name]) = Except.ok es1 := by
  obtain ⟨d, hres, hes1⟩ := ReadDir_ok hes
  rw [hes1] at he
  obtain ⟨hval, hkind⟩ := entries_valid he
  rw [hk] at hkind
  have := FS.resolve_Join_child fs true habs hclean hval hres hkind (Or.inl rfl)
  exact ⟨fs.entries (d ++ [e.Name]), by simp [os.ReadDir, this]⟩

theorem ReadDir_of_Stat {fs : FS} {path : String} (h : os.Stat fs path = Except.ok Kind.dir) :
    ∃ es, os.ReadDir fs path = Except.ok es := by
  unfold os.Stat at h
  cases hr : fs.resolve true path with
  | error e => simp [hr] at h
  | ok r =>
    obtain ⟨d, k⟩ := r
    rw [hr] at h
    simp only [Except.ok.injEq] at h
    subst h
    exact ⟨fs.entries d, by simp [os.ReadDir, hr]⟩

/-- C17: `BuildPlan` makes no change: the system calls it makes, whether it
returns a plan or an error, are calls of `Getwd`, `Stat`, `Lstat`, `Readlink`
and `ReadDir`, which only read, so that the file system after them is the file
system before them (a target that does not exist before does not exist after);
with a bound above the depth of the file system it does return.  And the target
need not exist: when the stow directory and the packages are directories,
`ReadDir` returns the entries of the packages and of every directory it lists,
and `Lstat` reports that nothing exists at the paths below the target,
`BuildPlan` returns a plan and no error. -/
theorem BuildPlan_no_change (fs : FS) (fuel : Nat) (opts : Options) :
    (traced.BuildPlan fs fuel opts).map Prod.fst = BuildPlan fs fuel opts ∧
    (∀ r t, traced.BuildPlan fs fuel opts = some (r, t) →
      (∀ c ∈ t, c.IsRead = true) ∧ t.foldl Syscall.effect fs = fs) ∧
    (fs.depth < fuel → ∃ r t, traced.BuildPlan fs fuel opts = some (r, t)) ∧
    (fs.depth < fuel → opts.Packages ≠ [] → ∀ absDir absTarget,
      Abs fs opts.Dir = Except.ok absDir → Abs fs opts.Target = Except.ok absTarget →
      os.Stat fs absDir = Except.ok Kind.dir →
      (∀ pkg ∈ opts.Packages, os.Stat fs (Join [absDir, pkg]) = Except.ok Kind.dir ∧
        ∃ es, os.ReadDir fs (Join [absDir, pkg]) = Except.ok es) →
      (∀ root : String, IsAbs root = true → Clean root = root →
        ∀ (es : List DirEntry) (e : DirEntry), os.ReadDir fs root = Except.ok es → e ∈ es →
        e.Typ = Kind.dir → ∃ es1, os.ReadDir fs (Join [root, e.Name]) = Except.ok es1) →
      (∀ names : List String, names ≠ [] → (∀ n ∈ names, validName n = true) →
        os.Lstat fs (Join [absTarget, unsplit names]) = Except.error Errno.ENOENT) →
      ∃ res, BuildPlan fs fuel opts = some (res, none)) := by
  obtain ⟨hmap, hreads⟩ := BuildPlan_traced fs fuel opts
  refine ⟨hmap, ?_, ?_, ?_⟩
  · intro r t h
    have := hreads _ h
    exact ⟨this, foldl_effect_of_isRead fs t this⟩
  · intro hfuel
    obtain ⟨r, hr⟩ := BuildPlan_isSome fs opts fuel hfuel
    rw [← hmap] at hr
    cases ht : traced.BuildPlan fs fuel opts with
    | none => simp [ht] at hr
    | some x => exact ⟨x.1, x.2, rfl⟩
  · intro hfuel hpk absDir absTarget hdir htarget hsd hpkgs hread hmiss
    obtain ⟨r, hr⟩ := BuildPlan_isSome fs opts fuel hfuel
    have hr2 := hr
    unfold BuildPlan at hr2
    have h0 : ¬ opts.Packages.length = 0 := fun h => hpk (List.length_eq_zero.1 h)
    rw [if_neg h0, hdir] at hr2
    simp only [hsd, Kind.IsDir, Bool.not_true, Bool.false_eq_true, if_false, htarget] at hr2
    have hnone := planPackages_noerr fs fuel absDir absTarget (Abs_isAbs hdir) hread
      (fun names hne hv src s => handleLeaf_of_missing s (hmiss names hne hv))
      (sortStrings opts.Packages)
      (fun pkg hp => hpkgs pkg ((sortStrings_perm _).mem_iff.1 hp)) _ r hr2
    obtain ⟨res, oe⟩ := r
    simp only at hnone
    subst hnone
    exact ⟨res, hr⟩

/-- The plan for the two packages of `fsMapping` is made with ten calls that
only read; the target `/tmp/target` does not exist, before and after. -/
theorem BuildPlan_no_change_witness :
    os.Stat fsMapping "/tmp/target" = Except.error Errno.ENOENT ∧
    ((∀ c ∈ [Syscall.stat "/s", Syscall.stat "/s/pkg-a", Syscall.readdir "/s/pkg-a",
        Syscall.lstat "/tmp/target/alpha.txt", Syscall.readdir "/s/pkg-a/dir",
        Syscall.lstat "/tmp/target/dir/bravo.txt", Syscall.lstat "/tmp/target/zeta.txt",
        Syscall.stat "/s/pkg-b", Syscall.readdir "/s/pkg-b",
        Syscall.lstat "/tmp/target/echo.txt"], c.IsRead = true) ∧
      [Syscall.stat "/s", Syscall.stat "/s/pkg-a", Syscall.readdir "/s/pkg-a",
        Syscall.lstat "/tmp/target/alpha.txt", Syscall.readdir "/s/pkg-a/dir",
        Syscall.lstat "/tmp/target/dir/bravo.txt", Syscall.lstat "/tmp/target/zeta.txt",
        Syscall.stat "/s/pkg-b", Syscall.readdir "/s/pkg-b",
        Syscall.lstat "/tmp/target/echo.txt"].foldl Syscall.effect fsMapping = fsMapping) ∧
    BuildPlan fsMapping 5 ⟨"/s", "/tmp/target", ["pkg-b", "pkg-a"]⟩ =
      some (⟨[⟨"/s/pkg-a/alpha.txt", "/tmp/target/alpha.txt"⟩,
        ⟨"/s/pkg-a/dir/bravo.txt", "/tmp/target/dir/bravo.txt"⟩,
        ⟨"/s/pkg-a/zeta.txt", "/tmp/target/zeta.txt"⟩,
        ⟨"/s/pkg-b/echo.txt", "/tmp/target/echo.txt"⟩], []⟩, none) ∧
    ∃ res, BuildPlan fsMapping 5 ⟨"/s", "/tmp/target", ["pkg-b", "pkg-a"]⟩ = some (res, none) :=
  ⟨by decide,
   (BuildPlan_no_change fsMapping 5 ⟨"/s", "/tmp/target", ["pkg-b", "pkg-a"]⟩).2.1
     (⟨[⟨"/s/pkg-a/alpha.txt", "/tmp/target/alpha.txt"⟩,
        ⟨"/s/pkg-a/dir/bravo.txt", "/tmp/target/dir/bravo.txt"⟩,
        ⟨"/s/pkg-a/zeta.txt", "/tmp/target/zeta.txt"⟩,
        ⟨"/s/pkg-b/echo.txt", "/tmp/target/echo.txt"⟩], []⟩, none) _ (by decide),
   by decide,
   (BuildPlan_no_change fsMapping 5 ⟨"/s", "/tmp/target", ["pkg-b", "pkg-a"]⟩).2.2.2
     (by decide) (by decide) "/s" "/tmp/target" (by decide) (by decide) (by decide)
     (fun pkg hpkg => by
       have hst : os.Stat fsMapping (Join ["/s", pkg]) = Except.ok Kind.dir := by
         revert pkg
         decide
       exact ⟨hst, ReadDir_of_Stat hst⟩)
     (fun root habs hclean es e hes he hk => ReadDir_child habs hclean hes he hk)
     (fun names hne hv =>
       Lstat_below_missing (by decide) (by decide) (by decide) hne hv)⟩

/-! ## The order in which leaves are visited -/

theorem walkEntries_visits (fs : FS)
    (descend : String → String → planState → Option (planState × Option Error))
    (root rel targetRoot : String) (L : DirEntry → List (List String)) :
    ∀ (es : List DirEntry),
      (∀ e ∈ es, ∀ s s1,
        descend (Join [root, e.Name]) (Join [rel, e.Name]) s = some (s1, none) →
        s1 = (L e).foldl (fun st names =>
          (handleLeaf fs (joinNames (Join [root, e.Name]) names)
            (joinNames (Join [rel, e.Name]) names) targetRoot st).1) s) →
      ∀ s s1, walkEntries fs descend root rel targetRoot es s = some (s1, none) →
        s1 = (es.flatMap (fun e =>
            if e.Typ.IsDir then (L e).map (fun t => e.Name :: t) else [[e.Name]])).foldl
          (fun st names =>
            (handleLeaf fs (joinNames root names) (joinNames rel names) targetRoot st).1) s := by
  intro es
  induction es with
  | nil =>
    intro _ s s1 h
    simp only [walkEntries, Option.some.injEq, Prod.mk.injEq, and_true] at h
    rw [← h]
    rfl
  | cons entry rest ih =>
    intro hd s s1 h
    have ihr := ih (fun e he => hd e (List.mem_cons_of_mem _ he))
    have hleaf : entry.Typ.IsDir = false →
        (match handleLeaf fs (Join [root, entry.Name]) (Join [rel, entry.Name])
            targetRoot s with
          | (state1, some err) => some (state1, some err)
          | (state1, none) => walkEntries fs descend root rel targetRoot rest state1) =
          some (s1, none) →
        s1 = ((entry :: rest).flatMap (fun e =>
            if e.Typ.IsDir then (L e).map (fun t => e.Name :: t) else [[e.Name]])).foldl
          (fun st names =>
            (handleLeaf fs (joinNames root names) (joinNames rel names) targetRoot st).1) s := by
      intro hk hm
      rw [List.flatMap_cons, List.foldl_append, hk]
      simp only [Bool.false_eq_true, if_false, List.foldl_cons, List.foldl_nil]
      cases hh : handleLeaf fs (Join [root, entry.Name]) (Join [rel, entry.Name])
          targetRoot s with
      | mk st oe =>
        rw [hh] at hm
        cases oe with
        | some err => simp at hm
        | none =>
          have := ihr _ _ hm
          simp only [joinNames, List.foldl_cons, List.foldl_nil, hh]
          exact this
    rw [walkEntries] at h
    split at h
    · rename_i hsym
      exact hleaf (isDir_eq_false_of_isSymlink hsym) h
    · split at h
      · rename_i hdir
        split at h
        · simp at h
        · simp at h
        · rename_i st hdesc
          have h1 := hd entry (List.mem_cons_self _ _) s st hdesc
          have h2 := ihr _ _ h
          rw [List.flatMap_cons, List.foldl_append, hdir]
          simp only [if_true, List.foldl_map]
          rw [h2, h1]
          rfl
      · rename_i hdir
        exact hleaf (by simpa using hdir) h

/-- The state after `walkDir` is the state after `handleLeaf` on every leaf of
`dfsLeaves`, in that order. -/
theorem walkDir_visits (fs : FS) (targetRoot : String) :
    ∀ (fuel : Nat) (root rel : String) (s s1 : planState),
      walkDir fs fuel root rel targetRoot s = some (s1, none) →
      s1 = (dfsLeaves fs fuel root).foldl (fun st names =>
        (handleLeaf fs (joinNames root names) (joinNames rel names) targetRoot st).1) s := by
  intro fuel
  induction fuel with
  | zero =>
    intro root rel s s1 h
    simp [walkDir] at h
  | succ fuel ih =>
    intro root rel s s1 h
    rw [walkDir] at h
    rw [dfsLeaves]
    cases hes : os.ReadDir fs root with
    | error e =>
      rw [hes] at h
      simp at h
    | ok es =>
      rw [hes] at h
      exact walkEntries_visits fs _ root rel targetRoot
        (fun e => dfsLeaves fs fuel (Join [root, e.Name])) _
        (fun e _ s2 s3 hd => ih _ _ _ _ hd) s s1 h

/-- The leaves of `dfsLeaves` are in strictly ascending order, compared name
by name, and are made of names of directory entries. -/
theorem dfsLeaves_sorted (fs : FS) :
    ∀ (fuel : Nat) (root : String),
      (dfsLeaves fs fuel root).Pairwise (List.Lex strLt) ∧
      ∀ t ∈ dfsLeaves fs fuel root, t ≠ [] ∧ ∀ n ∈ t, validName n = true := by
  intro fuel
  induction fuel with
  | zero =>
    intro root
    simp [dfsLeaves]
  | succ fuel ih =>
    intro root
    rw [dfsLeaves]
    cases hes : os.ReadDir fs root with
    | error e => simp
    | ok es =>
      simp only
      have hhead : ∀ e ∈ sortEntries es, ∀ x ∈ (if e.Typ.IsDir = true then
            (dfsLeaves fs fuel (Join [root, e.Name])).map (fun t => e.Name :: t)
          else [[e.Name]]), ∃ t, x = e.Name :: t ∧ ∀ n ∈ t, validName n = true := by
        intro e _ x hx
        split at hx
        · obtain ⟨t, ht, rfl⟩ := List.mem_map.1 hx
          exact ⟨t, rfl, ((ih _).2 t ht).2⟩
        · simp only [List.mem_singleton] at hx
          exact ⟨[], hx, by simp⟩
      constructor
      · rw [List.pairwise_flatMap]
        constructor
        · intro e _
          split
          · rw [List.pairwise_map]
            exact (ih _).1.imp (fun h => List.Lex.cons h)
          · simp
        · refine (sortEntries_pairwise hes).imp_of_mem ?_
          intro a b ha hb hab x hx y hy
          obtain ⟨t, rfl, _⟩ := hhead a ha x hx
          obtain ⟨t', rfl, _⟩ := hhead b hb y hy
          exact List.Lex.rel hab
      · intro t ht
        obtain ⟨e, he, hx⟩ := List.mem_flatMap.1 ht
        obtain ⟨t', rfl, hv⟩ := hhead e he t hx
        refine ⟨by simp, ?_⟩
        intro n hn
        rcases List.mem_cons.1 hn with rfl | hn
        · exact ReadDir_valid hes (mem_sortEntries.1 he)
        · exact hv n hn

/-- C19: the state after `walkPackage` has ended without an error is the state
after `handleLeaf` on the leaves of the package in the order of `dfsLeaves`, the
depth-first pre-order walk with the entries of every directory in ascending
order of their names; the leaves of that walk are in strictly ascending order
when compared name by name, and the relative path of a leaf is the string of
its names. -/
theorem walkPackage_traversal (fs : FS) (fuel : Nat) (pkgPath targetRoot : String)
    (s s1 : planState) (h : walkPackage fs fuel pkgPath targetRoot s = some (s1, none)) :
    s1 = (dfsLeaves fs fuel pkgPath).foldl (fun st names =>
        (handleLeaf fs (joinNames pkgPath names) (joinNames "" names) targetRoot st).1) s ∧
    (dfsLeaves fs fuel pkgPath).Pairwise (List.Lex strLt) ∧
    ∀ names ∈ dfsLeaves fs fuel pkgPath,
      names ≠ [] ∧ (∀ n ∈ names, validName n = true) ∧ joinNames "" names = unsplit names := by
  refine ⟨walkDir_visits fs targetRoot fuel pkgPath "" s s1 h, (dfsLeaves_sorted fs fuel pkgPath).1,
    ?_⟩
  intro names hn
  obtain ⟨hne, hv⟩ := (dfsLeaves_sorted fs fuel pkgPath).2 names hn
  exact ⟨hne, hv, joinNames_empty hne hv⟩

/-- The leaves of the package `pkg-a` of `fsMapping` are visited in the order
`alpha.txt`, `dir/bravo.txt`, `zeta.txt`. -/
theorem walkPackage_traversal_witness :
    dfsLeaves fsMapping 2 "/s/pkg-a" = [["alpha.txt"], ["dir", "bravo.txt"], ["zeta.txt"]] ∧
    ((⟨⟨[⟨"/s/pkg-a/alpha.txt", "/tmp/target/alpha.txt"⟩,
          ⟨"/s/pkg-a/dir/bravo.txt", "/tmp/target/dir/bravo.txt"⟩,
          ⟨"/s/pkg-a/zeta.txt", "/tmp/target/zeta.txt"⟩], []⟩,
        ["/tmp/target/zeta.txt", "/tmp/target/dir/bravo.txt", "/tmp/target/alpha.txt"]⟩ :
          planState) =
      (dfsLeaves fsMapping 2 "/s/pkg-a").foldl (fun st names =>
        (handleLeaf fsMapping (joinNames "/s/pkg-a" names) (joinNames "" names) "/tmp/target"
          st).1) ⟨⟨[], []⟩, []⟩ ∧
    (dfsLeaves fsMapping 2 "/s/pkg-a").Pairwise (List.Lex strLt) ∧
    ∀ names ∈ dfsLeaves fsMapping 2 "/s/pkg-a",
      names ≠ [] ∧ (∀ n ∈ names, validName n = true) ∧ joinNames "" names = unsplit names) :=
  ⟨by decide,
   walkPackage_traversal fsMapping 2 "/s/pkg-a" "/tmp/target" ⟨⟨[], []⟩, []⟩ _ (by decide)⟩

/-! ## The leaf rule -/

/-- A loop of `walkDir` that ends without an error has descended into every
entry that is a directory, without an error. -/
theorem walkEntries_descended (fs : FS)
    (descend : String → String → planState → Option (planState × Option Error))
    (root rel targetRoot : String) :
    ∀ (es : List DirEntry) (s s1 : planState),
      walkEntries fs descend root rel targetRoot es s = some (s1, none) →
      ∀ e ∈ es, e.Typ = Kind.dir →
        ∃ st st1, descend (Join [root, e.Name]) (Join [rel, e.Name]) st = some (st1, none) := by
  intro es
  induction es with
  | nil =>
    intro s s1 _ e he
    simp at he
  | cons entry rest ih =>
    intro s s1 h e he hk
    have hrest : ∀ st, walkEntries fs descend root rel targetRoot rest st = some (s1, none) →
        e ∈ rest →
        ∃ st st1, descend (Join [root, e.Name]) (Join [rel, e.Name]) st = some (st1, none) :=
      fun st hst hmem => ih st s1 hst e hmem hk
    have hleaf : entry.Typ.IsDir = false →
        (match handleLeaf fs (Join [root, entry.Name]) (Join [rel, entry.Name])
            targetRoot s with
          | (state1, some err) => some (state1, some err)
          | (state1, none) => walkEntries fs descend root rel targetRoot rest state1) =
          some (s1, none) →
        ∃ st st1, descend (Join [root, e.Name]) (Join [rel, e.Name]) st = some (st1, none) := by
      intro hnd hm
      have hmem : e ∈ rest := by
        rcases List.mem_cons.1 he with rfl | hmem
        · rw [hk] at hnd
          simp [Kind.IsDir] at hnd
        · exact hmem
      cases hh : handleLeaf fs (Join [root, entry.Name]) (Join [rel, entry.Name])
          targetRoot s with
      | mk st oe =>
        rw [hh] at hm
        cases oe with
        | some err => simp at hm
        | none => exact hrest st hm hmem
    rw [walkEntries] at h
    split at h
    · rename_i hsym
      exact hleaf (isDir_eq_false_of_isSymlink hsym) h
    · split at h
      · split at h
        · simp at h
        · simp at h
        · rename_i st hd
          rcases List.mem_cons.1 he with rfl | hmem
          · exact ⟨s, st, hd⟩
          · exact hrest st h hmem
      · rename_i hdir
        exact hleaf (by simpa using hdir) h

/-- Every leaf of `dfsLeaves` is reached through directories and is not one. -/
theorem isLeafOf_of_mem_dfsLeaves (fs : FS) :
    ∀ (fuel : Nat) (root : String) (names : List String),
      names ∈ dfsLeaves fs fuel root → isLeafOf fs root names = true := by
  intro fuel
  induction fuel with
  | zero =>
    intro root names h
    simp [dfsLeaves] at h
  | succ fuel ih =>
    intro root names h
    rw [dfsLeaves] at h
    cases hes : os.ReadDir fs root with
    | error e =>
      rw [hes] at h
      simp at h
    | ok es =>
      rw [hes] at h
      obtain ⟨e, he, hx⟩ := List.mem_flatMap.1 h
      have he' : e ∈ es := mem_sortEntries.1 he
      split at hx
      · rename_i hdir
        obtain ⟨t, ht, rfl⟩ := List.mem_map.1 hx
        have hne := ((dfsLeaves_sorted fs fuel _).2 t ht).1
        obtain ⟨m, rest, rfl⟩ := List.exists_cons_of_ne_nil hne
        rw [isLeafOf, hes]
        simp only [Bool.and_eq_true, List.any_eq_true, decide_eq_true_eq]
        exact ⟨⟨e, he', rfl, hdir⟩, ih _ _ ht⟩
      · rename_i hdir
        simp only [List.mem_singleton] at hx
        subst hx
        rw [isLeafOf, hes]
        simp only [List.any_eq_true, Bool.and_eq_true, decide_eq_true_eq, Bool.not_eq_true']
        exact ⟨e, he', rfl, by simpa using hdir⟩

/-- After a walk that ended without an error every leaf that is reached
through directories is among the leaves of `dfsLeaves`. -/
theorem mem_dfsLeaves_of_isLeafOf (fs : FS) (targetRoot : String) :
    ∀ (fuel : Nat) (root rel : String) (s s1 : planState) (names : List String),
      walkDir fs fuel root rel targetRoot s = some (s1, none) →
      isLeafOf fs root names = true → names ∈ dfsLeaves fs fuel root := by
  intro fuel
  induction fuel with
  | zero =>
    intro root rel s s1 names h
    simp [walkDir] at h
  | succ fuel ih =>
    intro root rel s s1 names h hleaf
    rw [walkDir] at h
    rw [dfsLeaves]
    cases hes : os.ReadDir fs root with
    | error e =>
      rw [hes] at h
      simp at h
    | ok es =>
      rw [hes] at h
      simp only at h ⊢
      rw [List.mem_flatMap]
      cases names with
      | nil => simp [isLeafOf] at hleaf
      | cons n t =>
        cases t with
        | nil =>
          rw [isLeafOf, hes] at hleaf
          simp only [List.any_eq_true, Bool.and_eq_true, decide_eq_true_eq,
            Bool.not_eq_true'] at hleaf
          obtain ⟨e, he, rfl, hnd⟩ := hleaf
          refine ⟨e, mem_sortEntries.2 he, ?_⟩
          rw [hnd]
          simp
        | cons m rest =>
          rw [isLeafOf, hes] at hleaf
          simp only [Bool.and_eq_true, List.any_eq_true, decide_eq_true_eq] at hleaf
          obtain ⟨⟨e, he, rfl, hdir⟩, hsub⟩ := hleaf
          obtain ⟨st, st1, hd⟩ := walkEntries_descended fs _ root rel targetRoot _ s s1 h e
            (mem_sortEntries.2 he) (eq_dir_of_isDir hdir)
          refine ⟨e, mem_sortEntries.2 he, ?_⟩
          rw [hdir]
          simp only [if_true, List.mem_map]
          exact ⟨m :: rest, ih _ _ st st1 _ hd hsub, rfl⟩

theorem dfsLeaves_nodup (fs : FS) (fuel : Nat) (root : String) :
    (dfsLeaves fs fuel root).Nodup := by
  refine (dfsLeaves_sorted fs fuel root).1.imp ?_
  intro a b hab
  exact List.Lex.to_ne (hab.imp (fun x y (hxy : strLt x y) hxe => by
    subst hxe
    exact lt_irrefl (α := List Char) _ hxy))

/-- C9: when `walkPackage` has ended without an error, the leaves it has
handled are the leaves of `dfsLeaves`, each handled by one call of `handleLeaf`,
and these are the paths below the package directory that lead through entries
that are directories (not symbolic links) to an entry that is a file or a
symbolic link, whatever it points to: a directory is descended into and is not
handled as a leaf, and nothing below a file or a symbolic link is visited.
In a plan returned by `BuildPlan` no source of an operation is a directory, and
every conflict is at the target of a leaf that is not a directory. -/
theorem walkPackage_leaf_rule (fs : FS) (fuel : Nat) (pkgPath targetRoot : String)
    (s s1 : planState) (h : walkPackage fs fuel pkgPath targetRoot s = some (s1, none)) :
    (∀ names, names ∈ dfsLeaves fs fuel pkgPath ↔ isLeafOf fs pkgPath names = true) ∧
    (dfsLeaves fs fuel pkgPath).Nodup ∧
    s1 = (dfsLeaves fs fuel pkgPath).foldl (fun st names =>
        (handleLeaf fs (joinNames pkgPath names) (joinNames "" names) targetRoot st).1) s ∧
    (∀ (opts : Options) (res : PlanResult),
      BuildPlan fs fuel opts = some (res, none) →
      (∀ op ∈ res.Operations, ∃ k, os.Lstat fs op.Source = Except.ok k ∧ k.IsDir = false) ∧
      (∀ c ∈ res.Conflicts, ∃ absDir absTarget source rel,
        IsLeafPath fs absDir opts.Packages source rel ∧ c.Target = Join [absTarget, rel])) := by
  refine ⟨fun names => ⟨isLeafOf_of_mem_dfsLeaves fs fuel pkgPath names,
      mem_dfsLeaves_of_isLeafOf fs targetRoot fuel pkgPath "" s s1 names h⟩,
    dfsLeaves_nodup fs fuel pkgPath, walkDir_visits fs targetRoot fuel pkgPath "" s s1 h, ?_⟩
  intro opts res hb
  obtain ⟨absDir, absTarget, _, _, hops, hcs⟩ := BuildPlan_leaves hb
  refine ⟨fun op hop => ?_, fun c hc => ?_⟩
  · obtain ⟨_, ⟨_, _, _, _, _, _, _, k, hk⟩, _⟩ := hops op hop
    exact ⟨k, hk⟩
  · obtain ⟨source, rel, hleaf, htarget, _⟩ := hcs c hc
    exact ⟨absDir, absTarget, source, rel, hleaf, htarget⟩

/-- In `fsLinkDir` the directory `d` is walked and gives the leaf `d/f`, and
the link `link` to a directory is one leaf: `d` is not a leaf, and `link/inner`,
below the link, is not visited. -/
theorem walkPackage_leaf_rule_witness :
    dfsLeaves fsLinkDir 2 "/s/p" = [["d", "f"], ["link"]] ∧
    isLeafOf fsLinkDir "/s/p" ["d"] = false ∧
    isLeafOf fsLinkDir "/s/p" ["link", "inner"] = false ∧
    os.Stat fsLinkDir "/s/p/link" = Except.ok Kind.dir ∧
    BuildPlan fsLinkDir 2 ⟨"/s", "/t", ["p"]⟩ =
      some (⟨[⟨"/s/p/d/f", "/t/d/f"⟩, ⟨"/s/p/link", "/t/link"⟩], []⟩, none) ∧
    ((∀ names, names ∈ dfsLeaves fsLinkDir 2 "/s/p" ↔ isLeafOf fsLinkDir "/s/p" names = true) ∧
     (dfsLeaves fsLinkDir 2 "/s/p").Nodup ∧
     (⟨⟨[⟨"/s/p/d/f", "/t/d/f"⟩, ⟨"/s/p/link", "/t/link"⟩], []⟩,
        ["/t/link", "/t/d/f"]⟩ : planState) =
      (dfsLeaves fsLinkDir 2 "/s/p").foldl (fun st names =>
        (handleLeaf fsLinkDir (joinNames "/s/p" names) (joinNames "" names) "/t" st).1)
        ⟨⟨[], []⟩, []⟩ ∧
     (∀ (opts : Options) (res : PlanResult),
       BuildPlan fsLinkDir 2 opts = some (res, none) →
       (∀ op ∈ res.Operations,
         ∃ k, os.Lstat fsLinkDir op.Source = Except.ok k ∧ k.IsDir = false) ∧
       (∀ c ∈ res.Conflicts, ∃ absDir absTarget source rel,
         IsLeafPath fsLinkDir absDir opts.Packages source rel ∧
         c.Target = Join [absTarget, rel]))) :=
  ⟨by decide, by decide, by decide, by decide, by decide,
   walkPackage_leaf_rule fsLinkDir 2 "/s/p" "/t" ⟨⟨[], []⟩, []⟩ _ (by decide)⟩

/-! ## The exit code -/

/-- C20, as stated, fails: for the command line `-n -d "" pkg` the exit code is
2, although a package is given, `BuildPlan` for the stow directory `""` and the
package returns no error whatever the target, and `Execute` with `DryRun`
returns no error whatever the plan: `DefaultTarget` has returned an error, and
neither `BuildPlan` nor `Execute` is called. -/
theorem exit_code_counterexample :
    cmd.run fsBare 2 ⟨true, false, "", "", "", "", ["pkg"]⟩ = some (fsBare, 2) ∧
    (∀ target, BuildPlan fsBare 2 ⟨"", target, ["pkg"]⟩ = some (⟨[], []⟩, none)) ∧
    (∀ plan, Execute fsBare plan ⟨true⟩ = (fsBare, none)) ∧
    ¬ ∀ (fs fs' : FS) (fuel : Nat) (cl : cmd.CommandLine) (code : Int),
        cmd.run fs fuel cl = some (fs', code) → code = 2 →
        cl.packages = [] ∨
        (∃ target res err,
          BuildPlan fs fuel ⟨if cl.dirLong ≠ "" then cl.dirLong else cl.dir, target,
            cl.packages⟩ = some (res, some err)) ∨
        (∃ plan fs1 err,
          Execute fs plan ⟨cl.dryRunShort || cl.dryRunLong⟩ = (fs1, some err)) := by
  have hplan : ∀ target, BuildPlan fsBare 2 ⟨"", target, ["pkg"]⟩ = some (⟨[], []⟩, none) := by
    intro target
    have h1 : Abs fsBare "" = Except.ok "/" := by decide
    have h2 : os.Stat fsBare "/" = Except.ok Kind.dir := by decide
    have h3 : os.Stat fsBare (Join ["/", "pkg"]) = Except.ok Kind.dir := by decide
    have h4 : os.ReadDir fsBare (Join ["/", "pkg"]) = Except.ok [] := by decide
    have h5 : sortStrings ["pkg"] = ["pkg"] := by decide
    have h6 : ∃ a, Abs fsBare target = Except.ok a := by
      unfold filepath.Abs
      split
      · exact ⟨_, rfl⟩
      · have : os.Getwd fsBare = Except.ok "/" := by decide
        rw [this]
        exact ⟨_, rfl⟩
    obtain ⟨a, ha⟩ := h6
    unfold BuildPlan
    simp only [List.length_singleton, one_ne_zero, if_false, h1, h2, Kind.IsDir, Bool.not_true,
      Bool.false_eq_true, ha, h5]
    simp [planPackages, h3, Kind.IsDir, walkPackage, walkDir, h4, sortEntries, walkEntries]
  have hexec : ∀ plan, Execute fsBare plan ⟨true⟩ = (fsBare, none) := by
    intro plan
    simp [Execute]
  refine ⟨by decide, hplan, hexec, ?_⟩
  intro hall
  rcases hall fsBare fsBare 2 ⟨true, false, "", "", "", "", ["pkg"]⟩ 2 (by decide) rfl with
    h | ⟨target, res, err, h⟩ | ⟨plan, fs1, err, h⟩
  · simp at h
  · have := hplan target
    simp only [ne_eq, not_true_eq_false, if_false] at h
    rw [this] at h
    simp at h
  · have := hexec plan
    simp only [Bool.or_false] at h
    rw [this] at h
    simp at h

/-- C20, amended: with a bound above the depth of the file system `run`
returns.  It returns 2 and leaves the file system as it is when no target comes
from the flags or from the stow directory and `DefaultTarget` returns an error;
otherwise, with the target from the flags or the default target, it returns 2
and leaves the file system as it is when no package is given or `BuildPlan`
returns an error; otherwise the whole plan is passed to `Execute`, and it
returns 2 when `Execute` returns an error, 1 when `Execute` returns no error
and the plan has a conflict, and 0 when `Execute` returns no error and the plan
has none. -/
theorem run_exit_code (fs : FS) (fuel : Nat) (cl : cmd.CommandLine) (stowDir : String)
    (hdir : stowDir = if cl.dirLong ≠ "" then cl.dirLong else cl.dir) :
    (fs.depth < fuel → ∃ fs1 code, cmd.run fs fuel cl = some (fs1, code)) ∧
    (cmd.resolveTarget fs stowDir cl.target cl.targetLong = "" →
      ∀ p err, DefaultTarget fs stowDir = (p, some err) →
      cmd.run fs fuel cl = some (fs, 2)) ∧
    (∀ stowTarget,
      (cmd.resolveTarget fs stowDir cl.target cl.targetLong = stowTarget ∧ stowTarget ≠ "") ∨
        (cmd.resolveTarget fs stowDir cl.target cl.targetLong = "" ∧
          DefaultTarget fs stowDir = (stowTarget, none)) →
      (cl.packages = [] → cmd.run fs fuel cl = some (fs, 2)) ∧
      (∀ res err, BuildPlan fs fuel ⟨stowDir, stowTarget, cl.packages⟩ = some (res, some err) →
        cmd.run fs fuel cl = some (fs, 2)) ∧
      (∀ plan, BuildPlan fs fuel ⟨stowDir, stowTarget, cl.packages⟩ = some (plan, none) →
        (∀ fs1 err, Execute fs plan ⟨cl.dryRunShort || cl.dryRunLong⟩ = (fs1, some err) →
          cmd.run fs fuel cl = some (fs1, 2)) ∧
        (∀ fs1, Execute fs plan ⟨cl.dryRunShort || cl.dryRunLong⟩ = (fs1, none) →
          (plan.Conflicts ≠ [] → cmd.run fs fuel cl = some (fs1, 1)) ∧
          (plan.Conflicts = [] → cmd.run fs fuel cl = some (fs1, 0))))) := by
  subst hdir
  refine ⟨?_, ?_, ?_⟩
  · intro hfuel
    unfold cmd.run
    simp only
    split
    · exact ⟨_, _, rfl⟩
    · rename_i stowTarget _
      split
      · exact ⟨_, _, rfl⟩
      · obtain ⟨r, hr⟩ := BuildPlan_isSome fs
          ⟨if cl.dirLong ≠ "" then cl.dirLong else cl.dir, stowTarget, cl.packages⟩ fuel hfuel
        rw [hr]
        obtain ⟨plan, oe⟩ := r
        cases oe with
        | some err => exact ⟨_, _, rfl⟩
        | none =>
          simp only
          split
          · exact ⟨_, _, rfl⟩
          · split <;> exact ⟨_, _, rfl⟩
  · intro h0 p err hdt
    unfold cmd.run
    simp only [h0, if_true, hdt]
    rfl
  · intro stowTarget hst
    have hsel : (if cmd.resolveTarget fs (if cl.dirLong ≠ "" then cl.dirLong else cl.dir)
          cl.target cl.targetLong = "" then
          DefaultTarget fs (if cl.dirLong ≠ "" then cl.dirLong else cl.dir)
        else (cmd.resolveTarget fs (if cl.dirLong ≠ "" then cl.dirLong else cl.dir)
          cl.target cl.targetLong, none)) = (stowTarget, none) := by
      rcases hst with ⟨h1, h2⟩ | ⟨h1, h2⟩
      · rw [h1, if_neg h2]
      · rw [h1, if_pos rfl, h2]
    refine ⟨?_, ?_, ?_⟩
    · intro hp
      unfold cmd.run
      simp only [hsel, hp, List.length_nil, if_true]
      rfl
    · intro res err hb
      unfold cmd.run
      simp only [hsel]
      split
      · rfl
      · rw [hb]
        rfl
    · intro plan hb
      have hne : ¬ cl.packages.length = 0 := by
        intro h
        have := (BuildPlan_ok hb).choose_spec.choose_spec.2.2.2.1
        exact this (List.length_eq_zero.1 h)
      refine ⟨?_, ?_⟩
      · intro fs1 err he
        unfold cmd.run
        simp only [hsel, if_neg hne, hb, he]
        rfl
      · intro fs1 he
        refine ⟨?_, ?_⟩
        · intro hc
          have hlen : plan.Conflicts.length > 0 := List.length_pos.2 hc
          unfold cmd.run
          simp only [hsel, if_neg hne, hb, he, if_pos hlen]
          rfl
        · intro hc
          have hlen : ¬ plan.Conflicts.length > 0 := by simp [hc]
          unfold cmd.run
          simp only [hsel, if_neg hne, hb, he, if_neg hlen]
          rfl

/-- The exit code is 1 for the package of `fsConflict`, whose plan has
conflicts, 0 for the package `pkg-a` of `fsMapping`, whose plan has none, and 2
when no package is given. -/
theorem run_exit_code_witness :
    cmd.run fsConflict 4 ⟨true, false, "/s", "", "/t", "", ["pkg"]⟩ = some (fsConflict, 1) ∧
    (cmd.run fsConflict 4 ⟨false, false, "/s", "", "/t", "", ["pkg"]⟩).map Prod.snd = some 1 ∧
    (cmd.run fsMapping 5 ⟨false, false, "/s", "", "", "/tmp/target", ["pkg-a"]⟩).map Prod.snd =
      some 0 ∧
    cmd.run fsMapping 5 ⟨true, false, "/s", "", "", "/tmp/target", ["pkg-a"]⟩ =
      some (fsMapping, 0) ∧
    cmd.run fsMapping 5 ⟨false, false, "/s", "", "", "/tmp/target", []⟩ = some (fsMapping, 2) ∧
    (∃ fs1 code, cmd.run fsConflict 4 ⟨true, false, "/s", "", "/t", "", ["pkg"]⟩ =
      some (fs1, code)) :=
  ⟨by decide, by decide, by decide, by decide, by decide,
   (run_exit_code fsConflict 4 ⟨true, false, "/s", "", "/t", "", ["pkg"]⟩ "/s" (by decide)).1
     (by decide)⟩

/-! ## A leaf and a directory of the same name -/

/-- C22: there is a file system in which one package has a leaf `x`, another
has a directory `x` with a leaf `y`, and the target is empty, for which
`BuildPlan` (with a bound above the depth of the file system) returns two
operations, with the targets `x` and `x/y` below the target, and no conflict,
and `Execute` of that plan without `DryRun` returns an `OpError` for the second
target after it has made the link of the first operation. -/
theorem prefix_collision_undetected :
    ∃ (fs fs' : FS) (fuel : Nat) (opts : Options) (op1 op2 : Operation) (cause : Error),
      fs.depth < fuel ∧
      os.Lstat fs (Join [opts.Dir, "a", "x"]) = Except.ok (Kind.file "data") ∧
      os.Lstat fs (Join [opts.Dir, "b", "x"]) = Except.ok Kind.dir ∧
      os.Lstat fs (Join [opts.Dir, "b", "x", "y"]) = Except.ok (Kind.file "data") ∧
      os.ReadDir fs opts.Target = Except.ok [] ∧
      opts.Packages = ["a", "b"] ∧
      BuildPlan fs fuel opts = some (⟨[op1, op2], []⟩, none) ∧
      op1 = ⟨Join [opts.Dir, "a", "x"], Join [opts.Target, "x"]⟩ ∧
      op2 = ⟨Join [opts.Dir, "b", "x", "y"], Join [opts.Target, "x", "y"]⟩ ∧
      Execute fs ⟨[op1, op2], []⟩ ⟨false⟩ = (fs', some (Error.OpError op2.Target cause)) ∧
      os.Lstat fs op1.Target = Except.error Errno.ENOENT ∧
      os.Lstat fs' op1.Target = Except.ok (Kind.symlink op1.Source) ∧
      fs' = fsPrefixAfter ∧ cause = Error.sys Errno.ENOTDIR :=
  ⟨fsPrefix, fsPrefixAfter, 5, ⟨"/s", "/t", ["a", "b"]⟩, ⟨"/s/a/x", "/t/x"⟩,
    ⟨"/s/b/x/y", "/t/x/y"⟩, Error.sys Errno.ENOTDIR,
    by decide, by decide, by decide, by decide, by decide, rfl, by decide, by decide, by decide,
    by decide, by decide, by decide, rfl, rfl⟩

/-! ## Where `Execute` makes nodes -/

theorem Mkdir_located {fs fs2 : FS} {path : String} (h : os.Mkdir fs path = Except.ok fs2) :
    ∃ p name parent, fs2 = fs.insert (p ++ [name]) Kind.dir ∧ Real name ∧
      fs.kindAt (p ++ [name]) = none ∧ elements path = parent ++ [name] ∧
      fs.resolveElems true (IsAbs path) parent = Except.ok (p, Kind.dir) := by
  unfold os.Mkdir at h
  split at h
  · simp at h
  · rename_i p name hnew
    simp only [Except.ok.injEq] at h
    obtain ⟨_, hname, hnone, parent, hel, hres⟩ := FS.resolveNew_ok hnew
    exact ⟨p, name, parent, h.symm, hname, hnone, hel, hres⟩

theorem Symlink_located {fs fs2 : FS} {oldname newname : String}
    (h : os.Symlink fs oldname newname = Except.ok fs2) :
    ∃ p name parent, fs2 = fs.insert (p ++ [name]) (Kind.symlink oldname) ∧ Real name ∧
      fs.kindAt (p ++ [name]) = none ∧ elements newname = parent ++ [name] ∧
      fs.resolveElems true (IsAbs newname) parent = Except.ok (p, Kind.dir) ∧ newname ≠ "" := by
  unfold os.Symlink at h
  split at h
  · simp at h
  · rename_i p name hnew
    simp only [Except.ok.injEq] at h
    obtain ⟨hne, hname, hnone, parent, hel, hres⟩ := FS.resolveNew_ok hnew
    exact ⟨p, name, parent, h.symm, hname, hnone, hel, hres, hne⟩

theorem FS.resolveElems_cons_empty (fs : FS) (follow : Bool) (l : List String) :
    fs.resolveElems follow true ("" :: l) = fs.resolveElems follow true l := by
  simp only [FS.resolveElems, if_true, FS.resolveFrom, FS.walk_cons_empty]

theorem isAbs_unsplit_empty_cons {m : List String} (hm : m ≠ []) :
    IsAbs (unsplit ("" :: m)) = true := by
  have hdata : (unsplit ("" :: m)).data = '/' :: joinSep (m.map String.data) := by
    unfold unsplit
    rw [List.map_cons, joinSep_cons_of_ne_nil _ (by simpa using hm)]
    rfl
  unfold IsAbs
  rw [hdata]
  simp

/-- A rooted path given by its elements denotes what the elements denote. -/
theorem FS.resolve_unsplit_rooted (fs : FS) (follow : Bool) {m : List String} (hm : m ≠ [])
    (hs : ∀ x ∈ m, NoSep x) :
    fs.resolve follow (unsplit ("" :: m)) = fs.resolveElems follow true m := by
  have habs := isAbs_unsplit_empty_cons hm
  have hns : ∀ x ∈ "" :: m, NoSep x := by
    intro x hx
    rcases List.mem_cons.1 hx with rfl | hx
    · simp [NoSep]
    · exact hs x hx
  rw [FS.resolve, if_neg (ne_empty_of_isAbs habs), habs, elements_unsplit (by simp) hns,
    FS.resolveElems_cons_empty]

/-- The directories `MkdirAll` makes for a clean rooted path lie on the way to
the directory the path denotes afterwards. -/
theorem mkdirAllRev_new :
    ∀ (l : List String), (∀ x ∈ l, Real x ∧ NoSep x) → ∀ (fs fs1 : FS),
      os.mkdirAllRev fs (l ++ [""]) = (fs1, none) →
      ∃ q, fs1.resolveElems true true l.reverse = Except.ok (q, Kind.dir) ∧
        ∀ kv ∈ fs1.nodes, kv ∉ fs.nodes → kv.1 <+: q := by
  intro l
  induction l with
  | nil =>
    intro _ fs fs1 h
    exfalso
    have h0 : unsplit [""] = "" := rfl
    have h1 : os.mkdirAllRev fs ([] ++ [""]) = (fs, some Errno.ENOENT) := by
      simp [os.mkdirAllRev, os.Stat, FS.resolve, os.Lstat, os.Mkdir, FS.resolveNew, h0]
    rw [h1] at h
    simp at h
  | cons c rest ih =>
    intro hl fs fs1 h
    have hc := hl c (List.mem_cons_self _ _)
    have hlr : ∀ x ∈ rest, Real x ∧ NoSep x := fun x hx => hl x (List.mem_cons_of_mem _ hx)
    have hrev : (c :: (rest ++ [""])).reverse = "" :: (rest.reverse ++ [c]) := by simp
    have hm : rest.reverse ++ [c] ≠ [] := by simp
    have hms : ∀ x ∈ rest.reverse ++ [c], NoSep x := by
      intro x hx
      simp only [List.mem_append, List.mem_reverse, List.mem_singleton] at hx
      rcases hx with hx | rfl
      · exact (hlr x hx).2
      · exact hc.2
    have hres : ∀ (fsx : FS) (follow : Bool),
        fsx.resolve follow (unsplit (c :: (rest ++ [""])).reverse) =
          fsx.resolveElems follow true (rest.reverse ++ [c]) := by
      intro fsx follow
      rw [hrev]
      exact FS.resolve_unsplit_rooted fsx follow hm hms
    have hstat : ∀ (fsx : FS) (k : Kind),
        os.Stat fsx (unsplit (c :: (rest ++ [""])).reverse) = Except.ok k →
        ∃ q, fsx.resolveElems true true (rest.reverse ++ [c]) = Except.ok (q, k) := by
      intro fsx k hk
      unfold os.Stat at hk
      rw [hres] at hk
      cases hr : fsx.resolveElems true true (rest.reverse ++ [c]) with
      | error e => simp [hr] at hk
      | ok r =>
        rw [hr] at hk
        simp only [Except.ok.injEq] at hk
        exact ⟨r.1, by rw [← hk]⟩
    rw [List.reverse_cons]
    rw [List.cons_append, os.mkdirAllRev] at h
    split at h
    · rename_i k hk
      split at h
      · rename_i hdir
        simp only [Prod.mk.injEq, and_true] at h
        subst h
        have hkd := eq_dir_of_isDir hdir
        subst hkd
        obtain ⟨q, hq⟩ := hstat fs _ hk
        exact ⟨q, hq, fun kv hkv hnot => absurd hkv hnot⟩
      · simp at h
    · split at h
      · simp at h
      · rename_i fs1a hparent
        -- the parent denotes a directory on the way, in the file system `fs1a`
        have hA : ∃ q1, fs1a.resolveElems true true rest.reverse = Except.ok (q1, Kind.dir) ∧
            ∀ kv ∈ fs1a.nodes, kv ∉ fs.nodes → kv.1 <+: q1 := by
          split at hparent
          · simp only [Prod.mk.injEq, and_true] at hparent
            subst hparent
            rename_i hempty
            have hrest : rest = [] := by
              by_contra hne
              have : (rest ++ [""]).reverse = "" :: rest.reverse := by simp
              rw [this] at hempty
              exact ne_empty_of_isAbs (isAbs_unsplit_empty_cons (by simpa using hne)) hempty
            subst hrest
            exact ⟨[], by simp [FS.resolveElems, FS.resolveFrom, FS.walk],
              fun kv hkv hnot => absurd hkv hnot⟩
          · exact ih hlr fs fs1a hparent
        obtain ⟨q1, hq1, hnew1⟩ := hA
        split at h
        · rename_i fs2 hmk
          simp only [Prod.mk.injEq, and_true] at h
          subst h
          obtain ⟨p, name, parent, hfs2, hname, hnone, hel, hpres⟩ := Mkdir_located hmk
          rw [hrev] at hel hpres
          rw [isAbs_unsplit_empty_cons hm] at hpres
          have hns : ∀ x ∈ "" :: (rest.reverse ++ [c]), NoSep x := by
            intro x hx
            rcases List.mem_cons.1 hx with rfl | hx
            · simp [NoSep]
            · exact hms x hx
          rw [elements_unsplit (by simp) hns] at hel
          have hsplit : ("" :: rest.reverse) ++ [c] = parent ++ [name] := by
            rw [← hel]
            rfl
          obtain ⟨hpar, hnm⟩ := List.append_inj' hsplit (by simp)
          simp only [List.cons.injEq, and_true] at hnm
          subst hnm
          rw [← hpar, FS.resolveElems_cons_empty, hq1] at hpres
          simp only [Except.ok.injEq, Prod.mk.injEq, and_true] at hpres
          subst hpres
          have hg : fs1a.Grows (fs1a.insert (q1 ++ [c]) Kind.dir) := FS.Grows.insert hnone _
          refine ⟨q1 ++ [c], ?_, ?_⟩
          · rw [hfs2]
            exact FS.resolveElems_append _ true true hname (hg.resolveElems true true hq1)
              (FS.kindAt_insert fs1a (by simp) _) (Or.inl rfl)
          · intro kv hkv hnot
            rw [hfs2] at hkv
            simp only [FS.insert, List.mem_cons] at hkv
            rcases hkv with rfl | hkv
            · exact List.prefix_refl _
            · exact (hnew1 kv hkv hnot).trans (List.prefix_append _ _)
        · rename_i e hmk
          split at h
          · rename_i k hls
            split at h
            · rename_i hdir
              simp only [Prod.mk.injEq, and_true] at h
              subst h
              have hkd := eq_dir_of_isDir hdir
              subst hkd
              obtain ⟨q, hq⟩ := hstat fs1a _ (Stat_of_Lstat hls rfl)
              refine ⟨q, hq, ?_⟩
              intro kv hkv hnot
              cases hkind : fs1a.kindAt (q1 ++ [c]) with
              | some k1 =>
                have h1 := FS.resolveElems_append fs1a false true hc.1 hq1 hkind (Or.inr rfl)
                unfold os.Lstat at hls
                rw [hres, h1] at hls
                simp only [Except.ok.injEq] at hls
                subst hls
                have h2 := FS.resolveElems_append fs1a true true hc.1 hq1 hkind (Or.inl rfl)
                rw [h2] at hq
                simp only [Except.ok.injEq, Prod.mk.injEq, and_true] at hq
                rw [← hq]
                exact (hnew1 kv hkv hnot).trans (List.prefix_append _ _)
              | none =>
                exfalso
                have hne : unsplit (c :: (rest ++ [""])).reverse ≠ "" := by
                  rw [hrev]
                  exact ne_empty_of_isAbs (isAbs_unsplit_empty_cons hm)
                have hns : ∀ x ∈ "" :: (rest.reverse ++ [c]), NoSep x := by
                  intro x hx
                  rcases List.mem_cons.1 hx with rfl | hx
                  · simp [NoSep]
                  · exact hms x hx
                have hel : (elements (unsplit (c :: (rest ++ [""])).reverse)).reverse =
                    c :: (rest ++ [""]) := by
                  rw [hrev, elements_unsplit (by simp) hns]
                  simp
                have hab : IsAbs (unsplit (c :: (rest ++ [""])).reverse) = true := by
                  rw [hrev]
                  exact isAbs_unsplit_empty_cons hm
                have hpr : fs1a.resolveElems true true (rest ++ [""]).reverse =
                    Except.ok (q1, Kind.dir) := by
                  have : (rest ++ [""]).reverse = "" :: rest.reverse := by simp
                  rw [this, FS.resolveElems_cons_empty, hq1]
                have hc2 : ¬ (c = "." ∨ c = "..") := fun h => h.elim hc.1.2.1 hc.1.2.2
                unfold os.Mkdir FS.resolveNew at hmk
                rw [if_neg hne, hel] at hmk
                simp only [hab, hpr, if_neg hc.1.1, if_neg hc2, hkind] at hmk
                simp at hmk
            · simp at h
          · simp at h

theorem real_of_normal_true {out : List String} (h : Normal true out) : ∀ x ∈ out, Real x := by
  induction out with
  | nil => simp
  | cons top rest ih =>
    intro x hx
    rcases List.mem_cons.1 hx with rfl | hx
    · rcases h.2 with hr | ⟨_, hf, _⟩
      · exact hr
      · simp at hf
    · exact ih h.1 x hx

theorem normal_append_real {rooted : Bool} {out : List String} (h : Normal rooted out) :
    ∀ l : List String, (∀ x ∈ l, Real x) → Normal rooted (l ++ out) := by
  intro l
  induction l with
  | nil => exact fun _ => h
  | cons x rest ih =>
    intro hl
    exact ⟨ih (fun y hy => hl y (List.mem_cons_of_mem _ hy)), Or.inl (hl x (List.mem_cons_self _ _))⟩

/-- The link of one operation, and the directories made for it, lie on the way
to the place of its target. -/
theorem executeOp_new {fs fs1 fs2 : FS} {src target top : String} {rest : List String}
    (ht : target = render true (top :: rest)) (hn : Normal true (top :: rest))
    (hs : ∀ x ∈ top :: rest, NoSep x)
    (hmk : os.MkdirAll fs (Dir target) = (fs1, none))
    (hsl : os.Symlink fs1 src target = Except.ok fs2) :
    ∃ P, fs2.resolve false target = Except.ok (P, Kind.symlink src) ∧
      ∀ kv ∈ fs2.nodes, kv ∉ fs.nodes → kv.1 <+: P := by
  have hsr : ∀ x ∈ rest, NoSep x := fun x hx => hs x (List.mem_cons_of_mem _ hx)
  have hreal := real_of_normal_true hn
  have hA : ∃ q, fs1.resolveElems true true rest.reverse = Except.ok (q, Kind.dir) ∧
      ∀ kv ∈ fs1.nodes, kv ∉ fs.nodes → kv.1 <+: q := by
    rw [ht, Dir_render_cons hn hs] at hmk
    unfold os.MkdirAll at hmk
    rw [elements_render_true hsr] at hmk
    by_cases hrest : rest = []
    · subst hrest
      have h0 : unsplit ["", ""] = "/" := rfl
      have h1 : elements "/" = ["", ""] := by decide
      have h2 : IsAbs "/" = true := by decide
      have h3 : os.mkdirAllRev fs ["", ""] = (fs, none) := by
        simp [os.mkdirAllRev, os.Stat, FS.resolve, h0, h1, h2, FS.resolveElems, FS.resolveFrom,
          FS.walk, Kind.IsDir]
      simp only [if_true, List.reverse_cons, List.reverse_nil, List.nil_append,
        List.singleton_append] at hmk
      rw [h3] at hmk
      simp only [Prod.mk.injEq, and_true] at hmk
      subst hmk
      exact ⟨[], by simp [FS.resolveElems, FS.resolveFrom, FS.walk],
        fun kv hkv hnot => absurd hkv hnot⟩
    · rw [if_neg hrest] at hmk
      have : ("" :: rest.reverse).reverse = rest ++ [""] := by simp
      rw [this] at hmk
      exact mkdirAllRev_new rest
        (fun x hx => ⟨hreal x (List.mem_cons_of_mem _ hx), hsr x hx⟩) fs fs1 hmk
  obtain ⟨q, hq, hnew⟩ := hA
  obtain ⟨p, name, parent, hfs2, hname, hnone, hel, hpres, _⟩ := Symlink_located hsl
  have habs : IsAbs target = true := by
    rw [ht]
    exact (render_spec hn hs).2.1
  rw [habs] at hpres
  rw [ht, elements_render_true hs, if_neg (by simp)] at hel
  have hsplit : ("" :: rest.reverse) ++ [top] = parent ++ [name] := by
    rw [← hel]
    simp
  obtain ⟨hpar, hnm⟩ := List.append_inj' hsplit (by simp)
  simp only [List.cons.injEq, and_true] at hnm
  subst hnm
  rw [← hpar, FS.resolveElems_cons_empty, hq] at hpres
  simp only [Except.ok.injEq, Prod.mk.injEq, and_true] at hpres
  subst hpres
  have hg : fs1.Grows (fs1.insert (q ++ [top]) (Kind.symlink src)) := FS.Grows.insert hnone _
  refine ⟨q ++ [top], ?_, ?_⟩
  · rw [ht, FS.resolve_render_elems fs2 false hn hs, List.reverse_cons, hfs2]
    exact FS.resolveElems_append _ false true hname (hg.resolveElems true true hq)
      (FS.kindAt_insert fs1 (by simp) _) (Or.inr rfl)
  · intro kv hkv hnot
    rw [hfs2] at hkv
    simp only [FS.insert, List.mem_cons] at hkv
    rcases hkv with rfl | hkv
    · exact List.prefix_refl _
    · exact (hnew kv hkv hnot).trans (List.prefix_append _ _)

/-- Every node the loop of `Execute` makes for operations with clean rooted
targets lies on the way to the place of the target of one of them. -/
theorem executeOps_new (ops : List Operation) :
    (∀ op ∈ ops, ∃ top rest, op.Target = render true (top :: rest) ∧
      Normal true (top :: rest) ∧ ∀ x ∈ top :: rest, NoSep x) →
    ∀ (fs fs' : FS), executeOps fs ops = (fs', none) →
      ∀ kv ∈ fs'.nodes, kv ∉ fs.nodes →
        ∃ op ∈ ops, ∃ P, fs'.resolve false op.Target = Except.ok (P, Kind.symlink op.Source) ∧
          kv.1 <+: P := by
  induction ops with
  | nil =>
    intro _ fs fs' h kv hkv hnot
    simp only [executeOps, Prod.mk.injEq, and_true] at h
    subst h
    exact absurd hkv hnot
  | cons op rest ih =>
    intro hshape fs fs' h kv hkv hnot
    rw [executeOps] at h
    split at h
    · simp at h
    · rename_i fs1 hmk
      split at h
      · simp at h
      · rename_i fs2 hsl
        have hg : fs2.Grows fs' := by
          have := executeOps_grows rest fs2
          rw [h] at this
          exact this
        by_cases hkv2 : kv ∈ fs2.nodes
        · obtain ⟨top, rs, ht, hn, hs⟩ := hshape op (List.mem_cons_self _ _)
          obtain ⟨P, hP, hpre⟩ := executeOp_new ht hn hs hmk hsl
          exact ⟨op, List.mem_cons_self _ _, P, hg.resolve false hP, hpre kv hkv2 hnot⟩
        · obtain ⟨op1, hop1, P, hP, hpre⟩ :=
            ih (fun o ho => hshape o (List.mem_cons_of_mem _ ho)) fs2 fs' h kv hkv hkv2
          exact ⟨op1, List.mem_cons_of_mem _ hop1, P, hP, hpre⟩

/-- The target of a leaf is a clean rooted path that is not the root. -/
theorem Join_names_shape {a : String} {names : List String} (habs : IsAbs a = true)
    (hne : names ≠ []) (hv : ∀ n ∈ names, validName n = true) :
    ∃ top rest, Join [a, unsplit names] = render true (top :: rest) ∧
      Normal true (top :: rest) ∧ ∀ x ∈ top :: rest, NoSep x := by
  have hane := ne_empty_of_isAbs habs
  have hreal : ∀ x ∈ names, Real x := fun x hx => real_of_validName (hv x hx)
  have hj : Join [a, unsplit names] =
      render true (names.reverse ++ cleanElements true (elements a)) := by
    rw [Join_cons_of_ne hane, Clean_eq_render, if_neg (unsplit_pair_ne_empty _ _),
      isAbs_unsplit_pair hane, habs, elements_unsplit_pair,
      elements_unsplit hne (fun x hx => validName_noSep (hv x hx))]
    unfold cleanElements
    rw [List.foldl_append, foldl_cleanStep_real true hreal]
  have hnorm : Normal true (names.reverse ++ cleanElements true (elements a)) :=
    normal_append_real (cleanElements_normal true (elements a)) _
      (fun x hx => hreal x (List.mem_reverse.1 hx))
  have hns : ∀ x ∈ names.reverse ++ cleanElements true (elements a), NoSep x := by
    intro x hx
    rcases List.mem_append.1 hx with hx | hx
    · exact validName_noSep (hv x (List.mem_reverse.1 hx))
    · exact cleanElements_noSep true a x hx
  cases hl : names.reverse ++ cleanElements true (elements a) with
  | nil =>
    exfalso
    simp at hl
    exact hne hl.1
  | cons top rest =>
    rw [hl] at hj hnorm hns
    exact ⟨top, rest, hj, hnorm, hns⟩

/-! ## Guarded idempotence -/

/-- When no node made by `Execute` lies inside the directory of a requested
package, the second `BuildPlan` records nothing. -/
theorem BuildPlan_again {fs fs' : FS} {fuel : Nat} {opts : Options} {plan : PlanResult}
    (hplan : BuildPlan fs fuel opts = some (plan, none)) (hnoc : plan.Conflicts = [])
    (hex : executeOps fs plan.Operations = (fs', none))
    (hout : fs.NoNewNodeIn fs' (packageDirs fs opts)) :
    BuildPlan fs' fuel opts = some (⟨[], []⟩, none) := by
  obtain ⟨absDir, absTarget, hdir, htarget, hstat, hne, hp⟩ := BuildPlan_ok hplan
  have hg : fs.Grows fs' := by
    have := executeOps_grows plan.Operations fs
    rw [hex] at this
    exact this
  have hagain := planPackages_again hg plan.Operations
    (executeOps_linked plan.Operations fs fs' hex) absTarget (packageDirs fs opts) hout fuel
    absDir (Abs_isAbs hdir) (sortStrings opts.Packages)
    (fun pkg hpkg d0 hd0 => mem_packageDirs hdir ((sortStrings_perm _).mem_iff.1 hpkg) hd0)
    ⟨⟨[], []⟩, []⟩ plan hp hnoc (fun _ h => h) ⟨⟨[], []⟩, []⟩ rfl
  have hlen : ¬ opts.Packages.length = 0 := by
    intro h
    exact hne (List.length_eq_zero.1 h)
  simp [BuildPlan, hlen, hg.Abs hdir, hg.Stat hstat, hg.Abs htarget, Kind.IsDir, hagain]

/-- C21, as stated, fails: the package `p` of `fsLinkedPackage` is a symbolic
link to the directory `/data`, outside the stow directory `/s`.  The plan for
the target `/data/t` has one operation and no conflict, its target `/data/t/f`
is not inside the stow directory, neither by its name nor by its place in the
file system, and `Execute` succeeds; the link it makes is a new leaf of the
package, for which the second `BuildPlan` returns an operation. -/
theorem guarded_idempotence_counterexample :
    BuildPlan fsLinkedPackage 4 ⟨"/s", "/data/t", ["p"]⟩ =
      some (⟨[⟨"/s/p/f", "/data/t/f"⟩], []⟩, none) ∧
    ¬ Inside "/s" "/data/t/f" ∧
    fsLinkedPackage.resolve true "/s" = Except.ok (["s"], Kind.dir) ∧
    fsLinkedPackageAfter.resolve false "/data/t/f" =
      Except.ok (["data", "t", "f"], Kind.symlink "/s/p/f") ∧
    Execute fsLinkedPackage ⟨[⟨"/s/p/f", "/data/t/f"⟩], []⟩ ⟨false⟩ =
      (fsLinkedPackageAfter, none) ∧
    BuildPlan fsLinkedPackageAfter 4 ⟨"/s", "/data/t", ["p"]⟩ =
      some (⟨[⟨"/s/p/t/f", "/data/t/t/f"⟩], []⟩, none) ∧
    ¬ ∀ (fs fs' : FS) (fuel : Nat) (opts : Options) (plan : PlanResult) (absDir : String),
        BuildPlan fs fuel opts = some (plan, none) → plan.Conflicts = [] →
        Abs fs opts.Dir = Except.ok absDir →
        (∀ op ∈ plan.Operations, ¬ Inside absDir op.Target) →
        (∀ d k, fs.resolve true absDir = Except.ok (d, k) →
          ∀ op ∈ plan.Operations, fs'.locatedOutside [d] op.Target = true) →
        Execute fs plan ⟨false⟩ = (fs', none) →
        BuildPlan fs' fuel opts = some (⟨[], []⟩, none) := by
  have hres : fsLinkedPackage.resolve true "/s" = Except.ok (["s"], Kind.dir) := by decide
  refine ⟨by decide, by decide, hres, by decide, by decide, by decide, fun hall => ?_⟩
  have h := hall fsLinkedPackage fsLinkedPackageAfter 4 ⟨"/s", "/data/t", ["p"]⟩
    ⟨[⟨"/s/p/f", "/data/t/f"⟩], []⟩ "/s" (by decide) rfl (by decide) (by decide)
    (by
      intro d k hd
      rw [hres] at hd
      simp only [Except.ok.injEq, Prod.mk.injEq] at hd
      rw [← hd.1]
      decide)
    (by decide)
  revert h
  decide

/-- C21, amended: when `BuildPlan` succeeds with no conflict, `Execute` of its
plan with `DryRun` false succeeds, and no target of an operation is, in the
resulting file system, at a place inside the directory of a requested package
(the directory the package path denotes, symbolic links followed), then
`BuildPlan` with the same options on the resulting file system succeeds with no
operation and no conflict, and `detectConflict` finds the target of every
operation of the first plan to be a link that is already right. -/
theorem BuildPlan_guarded_idempotent (fs fs' : FS) (fuel : Nat) (opts : Options)
    (plan : PlanResult)
    (hplan : BuildPlan fs fuel opts = some (plan, none))
    (hnoc : plan.Conflicts = [])
    (hexec : Execute fs plan ⟨false⟩ = (fs', none))
    (hout : ∀ op ∈ plan.Operations,
      fs'.locatedOutside (packageDirs fs opts) op.Target = true) :
    BuildPlan fs' fuel opts = some (⟨[], []⟩, none) ∧
    ∀ op ∈ plan.Operations,
      detectConflict fs' op.Target op.Source = (false, "", true, none) := by
  have hex : executeOps fs plan.Operations = (fs', none) := by
    simpa [Execute] using hexec
  obtain ⟨absDir, absTarget, hdir, htarget, hops, _⟩ := BuildPlan_leaves hplan
  have hshape : ∀ op ∈ plan.Operations, ∃ top rest, op.Target = render true (top :: rest) ∧
      Normal true (top :: rest) ∧ ∀ x ∈ top :: rest, NoSep x := by
    intro op hop
    obtain ⟨rel, ⟨_, _, names, hne, hv, hrel, _⟩, ht, _, _⟩ := hops op hop
    rw [ht, hrel]
    exact Join_names_shape (Abs_isAbs htarget) hne hv
  have hno : fs.NoNewNodeIn fs' (packageDirs fs opts) := by
    intro kv hkv hnot d hd hpre
    obtain ⟨op, hop, P, hP, hkP⟩ := executeOps_new plan.Operations hshape fs fs' hex kv hkv hnot
    have h := hout op hop
    unfold FS.locatedOutside at h
    rw [hP] at h
    simp only [List.all_eq_true, Bool.not_eq_true', decide_eq_false_iff_not] at h
    exact h d hd (hpre.trans hkP)
  refine ⟨BuildPlan_again hplan hnoc hex hno, ?_⟩
  intro op hop
  obtain ⟨hl, hr⟩ := executeOps_linked plan.Operations fs fs' hex op hop
  obtain ⟨_, _, _, hsrc, _⟩ := hops op hop
  simp [detectConflict, hl, Kind.IsSymlink, symlinkMatches_of_linked hr hsrc]

/-- The plan for `fsNested` is executed, and planning again records nothing. -/
theorem BuildPlan_guarded_idempotent_witness :
    packageDirs fsNested ⟨"/s", "/t", ["pkg"]⟩ = [["s", "pkg"]] ∧
    fsNestedAfter.resolve false "/t/nested/alpha.txt" =
      Except.ok (["t", "nested", "alpha.txt"], Kind.symlink "/s/pkg/nested/alpha.txt") ∧
    (BuildPlan fsNestedAfter 5 ⟨"/s", "/t", ["pkg"]⟩ = some (⟨[], []⟩, none) ∧
      ∀ op ∈ ([⟨"/s/pkg/nested/alpha.txt", "/t/nested/alpha.txt"⟩] : List Operation),
        detectConflict fsNestedAfter op.Target op.Source = (false, "", true, none)) :=
  ⟨by decide, by decide,
   BuildPlan_guarded_idempotent fsNested fsNestedAfter 5 ⟨"/s", "/t", ["pkg"]⟩
     ⟨[⟨"/s/pkg/nested/alpha.txt", "/t/nested/alpha.txt"⟩], []⟩
     (by decide) rfl (by decide) (by decide)⟩

end Stow
